import Mathlib

/-!
# PixelEraser Pro: history, seeded colour removal, brushes, softening, render cache

A shallow embedding of `HistoryManager` (src/src/HistoryManager.cpp,
src/include/HistoryManager.h), of `ToolManager` (src/src/ToolManager.cpp,
src/include/ToolManager.h), of the store and pixel operations of
`ImageProcessor` (src/src/ImageProcessor.cpp: load, resize, flood fill,
brushes, strokes along a path, edge softening, display copy) and of the
render cache and the pointer handlers of `CanvasWidget`
(src/src/CanvasWidget.cpp).

Modelling conventions
* `uchar` is `Fin 256`; `int` values are `Int`; container sizes and indices
  that the code keeps non-negative are `Nat`. Coordinates, diameters and
  levels are taken in the range where the `int` arithmetic of the code does
  not overflow.
* `cv::Mat` of type `CV_8UC4` is a record of `rows`, `cols` and the row-major
  pixel list `data`; `at(y, x)` reads `data[y * cols + x]`. A `cv::Mat` is a
  reference to a pixel buffer, and assignment without `clone()` shares it.
  In this program only `m_currentImage` and `m_originalImage` can come to
  share a buffer (in `resize`); the flag `sharedBuffer` of the processor
  records it, and the methods that write pixels of `m_currentImage` in place
  then change `m_originalImage` as well.
* `cv::cvtColor` (BGRA to BGR to Lab) is OpenCV code, not code of this
  repository: it is a per-pixel map and enters as the parameter `cvt`.
  `cv::getStructuringElement` and `cv::GaussianBlur` enter as parameters as
  well; `cv::dilate` and `cv::erode` are the maximum and the minimum over the
  structuring element. The matrix `cv::imread` returns is a parameter of
  `loadImage` (empty when decoding fails), and the interpolation of
  `cv::resize` is a parameter of `resize`.
* `float` is `F32`: finite binary32 values with every operation rounded to
  nearest, ties to even.
* `QRect` is Qt code: it is modelled by its corner coordinates and by the
  methods of Qt that the code calls. A `QImage` of format RGBA8888 is a
  row-major buffer of 4-byte pixels.
* A nested loop over a rectangle of pixels whose body reads and writes only
  the visited pixel is a fold over the list of visited coordinates.
* The pointers `HistoryManager::m_processor` and `CanvasWidget::m_processor`
  are flags (null or not); the pointee is passed to, and returned from, the
  operations that use it. The pointer handlers work on a record of the
  canvas and the objects its pointers refer to; what they read from the
  event and the view comes with the event.
* Snapshot byte sizes are `Nat`: the snapshots are resident buffers, so their
  byte sizes and the sum of them stay far below `SIZE_MAX` and `size_t`
  arithmetic does not wrap.
-/

namespace PixelEraser

/-! ## Pixels and matrices -/

/-- An 8-bit channel value (`uchar`). -/
abbrev uchar := Fin 256

/-- A `cv::Vec4b` pixel: channels 0..3 are B, G, R, A. -/
structure Vec4b where
  c0 : uchar
  c1 : uchar
  c2 : uchar
  c3 : uchar
deriving DecidableEq, Repr

instance : Inhabited Vec4b := ⟨⟨0, 0, 0, 0⟩⟩

/-- A `cv::Vec3b` pixel of the Lab cache: channels are L, a, b. -/
structure Vec3b where
  c0 : uchar
  c1 : uchar
  c2 : uchar
deriving DecidableEq, Repr

instance : Inhabited Vec3b := ⟨⟨0, 0, 0⟩⟩

/-- A `cv::Mat` of type `CV_8UC4`. -/
structure Mat where
  rows : Nat
  cols : Nat
  data : List Vec4b
deriving DecidableEq, Repr

/-- A `cv::Mat` of type `CV_8UC3` (the Lab cache). -/
structure Mat3 where
  rows : Nat
  cols : Nat
  data : List Vec3b
deriving DecidableEq, Repr

/-- Row-major offset of the element `(y, x)` in a matrix with `cols` columns. -/
def offset (cols : Nat) (y x : Int) : Nat := (y * (cols : Int) + x).toNat

/-- The default-constructed `cv::Mat()`. -/
def Mat.nil : Mat := ⟨0, 0, []⟩

/-- The default-constructed `cv::Mat()` for the Lab cache. -/
def Mat3.nil : Mat3 := ⟨0, 0, []⟩

/-- The method `cv::Mat::total()`. -/
def Mat.total (m : Mat) : Nat := m.rows * m.cols

/-- The method `cv::Mat::elemSize()` of a `CV_8UC4` matrix. -/
def Mat.elemSize (_m : Mat) : Nat := 4

/-- The method `cv::Mat::empty()`: `data == 0 || total() == 0`. -/
def Mat.empty (m : Mat) : Bool := m.data.isEmpty || m.total == 0

/-- The method `cv::Mat::empty()` for the Lab cache. -/
def Mat3.empty (m : Mat3) : Bool := m.data.isEmpty || m.rows * m.cols == 0

/-- The method `cv::Mat::clone()`: a deep copy, the same value. -/
def Mat.clone (m : Mat) : Mat := m

/-- The access `m.at<cv::Vec4b>(y, x)` as a read. -/
def Mat.at (m : Mat) (y x : Int) : Vec4b := m.data.getD (offset m.cols y x) default

/-- The access `m.at<cv::Vec4b>(y, x) = v` as a write. -/
def Mat.setAt (m : Mat) (y x : Int) (v : Vec4b) : Mat :=
  { m with data := m.data.set (offset m.cols y x) v }

/-- The access `m.at<cv::Vec3b>(y, x)` as a read. -/
def Mat3.at (m : Mat3) (y x : Int) : Vec3b := m.data.getD (offset m.cols y x) default

/-! ## ImageProcessor: the buffers and the snapshot operations -/

/-- The data members of `ImageProcessor` that hold pixels. Assigning one
`cv::Mat` to another shares the pixel buffer instead of copying it. The field
`sharedBuffer` is not a member of the source: it is `true` when
`m_currentImage` and `m_originalImage` refer to one buffer, which only
`resize` brings about (every other assignment to the two members is a clone
or a fresh matrix). -/
structure ImageProcessor where
  m_originalImage : Mat
  m_currentImage : Mat
  m_labImage : Mat3
  sharedBuffer : Bool
deriving DecidableEq, Repr

/-- The effect of the in-place pixel writes of a method on the members: the
buffer of `m_currentImage` holds `image` afterwards, and `m_originalImage`
shows the same pixels when it shares that buffer. -/
def ImageProcessor.writeCurrent (p : ImageProcessor) (image : Mat) : ImageProcessor :=
  { p with
    m_currentImage := image
    m_originalImage := if p.sharedBuffer then image else p.m_originalImage }

/-- The two `cv::cvtColor` calls of `updateLabCache`, applied to a whole
matrix: the result has the size of the input and converts each pixel. -/
def cvtColorLab (cvt : Vec4b → Vec3b) (m : Mat) : Mat3 :=
  ⟨m.rows, m.cols, m.data.map cvt⟩

/-- The method `ImageProcessor::hasImage`. -/
def ImageProcessor.hasImage (p : ImageProcessor) : Bool := !p.m_currentImage.empty

/-- The method `ImageProcessor::updateLabCache`. -/
def ImageProcessor.updateLabCache (cvt : Vec4b → Vec3b) (p : ImageProcessor) :
    ImageProcessor :=
  if p.m_currentImage.empty then p
  else { p with m_labImage := cvtColorLab cvt p.m_currentImage }

/-- The method `ImageProcessor::captureState`. -/
def ImageProcessor.captureState (p : ImageProcessor) : Mat := p.m_currentImage.clone

/-- The method `ImageProcessor::restoreState`. The clone gives
`m_currentImage` a buffer of its own. -/
def ImageProcessor.restoreState (cvt : Vec4b → Vec3b) (p : ImageProcessor) (state : Mat) :
    ImageProcessor :=
  ImageProcessor.updateLabCache cvt
    { p with m_currentImage := state.clone, sharedBuffer := false }

/-! ## HistoryManager -/

/-- The struct `HistoryManager::HistoryState`. -/
structure HistoryState where
  imageState : Mat
  memorySize : Nat
deriving DecidableEq, Repr

/-- The data members of `HistoryManager`; `m_processor` is `true` when the
pointer is not null. -/
structure HistoryManager where
  m_processor : Bool
  m_history : List HistoryState
  m_currentIndex : Int
deriving DecidableEq, Repr

/-- The constant `HistoryManager::MAX_HISTORY`. -/
def MAX_HISTORY : Nat := 10

/-- The constant `HistoryManager::MAX_MEMORY_MB`. -/
def MAX_MEMORY_MB : Nat := 2048

/-- The local `maxBytes` of `trimHistory`. -/
def maxBytes : Nat := MAX_MEMORY_MB * 1024 * 1024

/-- The method `HistoryManager::memoryUsage`, on the snapshot sequence. -/
def memoryUsage (hist : List HistoryState) : Nat :=
  hist.foldl (fun total state => total + state.memorySize) 0

/-- The first loop of `trimHistory`: while more than `MAX_HISTORY` snapshots
are held, erase the oldest and decrement the cursor. -/
def trimCount : List HistoryState → Int → List HistoryState × Int
  | [], idx => ([], idx)
  | s :: rest, idx =>
    if (s :: rest).length > MAX_HISTORY then trimCount rest (idx - 1)
    else (s :: rest, idx)

/-- The second loop of `trimHistory`: while the memory use is above
`maxBytes` and more than 3 snapshots are held, erase the oldest and decrement
the cursor. -/
def trimMemory : List HistoryState → Int → List HistoryState × Int
  | [], idx => ([], idx)
  | s :: rest, idx =>
    if memoryUsage (s :: rest) > maxBytes ∧ (s :: rest).length > 3 then
      trimMemory rest (idx - 1)
    else (s :: rest, idx)

/-- The method `HistoryManager::trimHistory`. -/
def HistoryManager.trimHistory (h : HistoryManager) : HistoryManager :=
  let r1 := trimCount h.m_history h.m_currentIndex
  let r2 := trimMemory r1.1 r1.2
  { h with m_history := r2.1, m_currentIndex := max 0 r2.2 }

/-- The redo-tail removal shared by `saveState` and `saveStateBeforeChange`:
`m_history.erase(begin + m_currentIndex + 1, end)` when the cursor is not on
the last snapshot. -/
def eraseRedoTail (hist : List HistoryState) (idx : Int) : List HistoryState :=
  if idx < (hist.length : Int) - 1 then hist.take (idx + 1).toNat else hist

/-- The method `HistoryManager::saveState`. -/
def HistoryManager.saveState (h : HistoryManager) (p : ImageProcessor) : HistoryManager :=
  if !h.m_processor || !p.hasImage then h
  else
    let hist := eraseRedoTail h.m_history h.m_currentIndex
    let state := p.captureState
    let historyState : HistoryState := ⟨state, state.total * state.elemSize⟩
    let hist := hist ++ [historyState]
    HistoryManager.trimHistory
      { h with m_history := hist, m_currentIndex := (hist.length : Int) - 1 }

/-- The method `HistoryManager::saveStateBeforeChange`. -/
def HistoryManager.saveStateBeforeChange (h : HistoryManager) (p : ImageProcessor) :
    HistoryManager :=
  if !h.m_processor || !p.hasImage then h
  else { h with m_history := eraseRedoTail h.m_history h.m_currentIndex }

/-- The method `HistoryManager::saveInitialState`. -/
def HistoryManager.saveInitialState (h : HistoryManager) (p : ImageProcessor) :
    HistoryManager :=
  if !h.m_processor || !p.hasImage then h
  else
    let state := p.captureState
    let historyState : HistoryState := ⟨state, state.total * state.elemSize⟩
    { h with m_history := [historyState], m_currentIndex := 0 }

/-- The method `HistoryManager::canUndo`. -/
def HistoryManager.canUndo (h : HistoryManager) : Bool := decide (h.m_currentIndex > 0)

/-- The method `HistoryManager::canRedo`. -/
def HistoryManager.canRedo (h : HistoryManager) : Bool :=
  decide (h.m_currentIndex < (h.m_history.length : Int) - 1)

/-- The method `HistoryManager::undoSteps`. -/
def HistoryManager.undoSteps (h : HistoryManager) : Int := h.m_currentIndex

/-- The method `HistoryManager::redoSteps`. -/
def HistoryManager.redoSteps (h : HistoryManager) : Int :=
  (h.m_history.length : Int) - h.m_currentIndex - 1

/-- The element access `m_history[i]` for an `int` index: `none` when the
index is outside the vector. -/
def historyAt (hist : List HistoryState) (i : Int) : Option HistoryState :=
  if 0 ≤ i then hist[i.toNat]? else none

/-- The method `HistoryManager::undo`; `none` stands for an out-of-range `m_history[...]`. -/
def HistoryManager.undo (cvt : Vec4b → Vec3b) (h : HistoryManager) (p : ImageProcessor) :
    Option (HistoryManager × ImageProcessor) :=
  if !h.canUndo || !h.m_processor then some (h, p)
  else
    let idx := h.m_currentIndex - 1
    match historyAt h.m_history idx with
    | none => none
    | some s => some ({ h with m_currentIndex := idx }, p.restoreState cvt s.imageState)

/-- The method `HistoryManager::redo`; `none` stands for an out-of-range `m_history[...]`. -/
def HistoryManager.redo (cvt : Vec4b → Vec3b) (h : HistoryManager) (p : ImageProcessor) :
    Option (HistoryManager × ImageProcessor) :=
  if !h.canRedo || !h.m_processor then some (h, p)
  else
    let idx := h.m_currentIndex + 1
    match historyAt h.m_history idx with
    | none => none
    | some s => some ({ h with m_currentIndex := idx }, p.restoreState cvt s.imageState)

/-- The method `HistoryManager::clear`. -/
def HistoryManager.clear (h : HistoryManager) : HistoryManager :=
  { h with m_history := [], m_currentIndex := -1 }

/-- The method `HistoryManager::setImageProcessor`. -/
def HistoryManager.setImageProcessor (h : HistoryManager) (attached : Bool) :
    HistoryManager :=
  { h with m_processor := attached }

/-! ## Sessions: sequences of calls on the history -/

/-- A history manager together with the processor its pointer refers to. -/
structure Session where
  history : HistoryManager
  processor : ImageProcessor
deriving DecidableEq, Repr

/-- The calls a client makes on a `HistoryManager`. `edit` stands for any
change of the processor between two history calls (a tool, a load, a resize,
`ImageProcessor::clear`, a write through `getCurrentImage()`). -/
inductive HistoryOp where
  | saveInitialState
  | saveStateBeforeChange
  | saveState
  | undo
  | redo
  | clear
  | setImageProcessor (attached : Bool)
  | edit (p : ImageProcessor)

/-- One call; `none` stands for an out-of-range `m_history[...]`. -/
def HistoryOp.apply (cvt : Vec4b → Vec3b) : HistoryOp → Session → Option Session
  | .saveInitialState, s => some { s with history := s.history.saveInitialState s.processor }
  | .saveStateBeforeChange, s =>
    some { s with history := s.history.saveStateBeforeChange s.processor }
  | .saveState, s => some { s with history := s.history.saveState s.processor }
  | .undo, s => (s.history.undo cvt s.processor).map (fun r => ⟨r.1, r.2⟩)
  | .redo, s => (s.history.redo cvt s.processor).map (fun r => ⟨r.1, r.2⟩)
  | .clear, s => some { s with history := s.history.clear }
  | .setImageProcessor attached, s =>
    some { s with history := s.history.setImageProcessor attached }
  | .edit p, s => some { s with processor := p }

/-- A sequence of calls, left to right. -/
def runOps (cvt : Vec4b → Vec3b) : List HistoryOp → Session → Option Session
  | [], s => some s
  | op :: ops, s => (op.apply cvt s).bind (runOps cvt ops)

/-- The cursor invariant of the history: `-1 ≤ idx ≤ size - 1`, and `idx = -1`
exactly when no snapshot is held. -/
def HistoryManager.Inv (h : HistoryManager) : Prop :=
  -1 ≤ h.m_currentIndex ∧ h.m_currentIndex ≤ (h.m_history.length : Int) - 1 ∧
    (h.m_currentIndex = -1 ↔ h.m_history = [])

instance (h : HistoryManager) : Decidable h.Inv := by
  unfold HistoryManager.Inv
  infer_instance

/-- The snapshot that `saveState` and `saveInitialState` build from the
processor: a copy of the current buffer and its byte size. -/
def snapshotOf (p : ImageProcessor) : HistoryState :=
  ⟨p.captureState, p.captureState.total * p.captureState.elemSize⟩

/-- A run of edits, each completed by `saveState`: the i-th element is the
processor as the i-th edit left it. -/
def saveEdits (h : HistoryManager) (ps : List ImageProcessor) : HistoryManager :=
  ps.foldl HistoryManager.saveState h

/-- The call `undo()` made `n` times in a row. -/
def undoN (cvt : Vec4b → Vec3b) :
    Nat → HistoryManager → ImageProcessor → Option (HistoryManager × ImageProcessor)
  | 0, h, p => some (h, p)
  | n + 1, h, p => (h.undo cvt p).bind (fun r => undoN cvt n r.1 r.2)

/-- The call `redo()` made `n` times in a row. -/
def redoN (cvt : Vec4b → Vec3b) :
    Nat → HistoryManager → ImageProcessor → Option (HistoryManager × ImageProcessor)
  | 0, h, p => some (h, p)
  | n + 1, h, p => (h.redo cvt p).bind (fun r => redoN cvt n r.1 r.2)

/-- The snapshots of the captured states `ps` that the count cap retains: the
most recent `MAX_HISTORY` of them, in capture order. -/
def retained (ps : List ImageProcessor) : List HistoryState :=
  (ps.map snapshotOf).drop (ps.length - MAX_HISTORY)

/-- The memory cap is not reached while `ps` are saved one after the other:
after each save, the snapshots that the count cap retains take at most
`maxBytes`. -/
def memoryCapNotReached (ps : List ImageProcessor) : Prop :=
  ∀ j, j ≤ ps.length → memoryUsage (retained (ps.take j)) ≤ maxBytes

instance (ps : List ImageProcessor) : Decidable (memoryCapNotReached ps) := by
  unfold memoryCapNotReached
  infer_instance

/-! ## Seeded colour removal (`ImageProcessor::autoColorRemove`) -/

/-- A `QRect`, by the coordinates of its corners as Qt stores them. -/
structure QRect where
  x1 : Int
  y1 : Int
  x2 : Int
  y2 : Int
deriving DecidableEq, Repr

/-- The method `QRect::left`. -/
def QRect.left (r : QRect) : Int := r.x1

/-- The method `QRect::top`. -/
def QRect.top (r : QRect) : Int := r.y1

/-- The method `QRect::right`. -/
def QRect.right (r : QRect) : Int := r.x2

/-- The method `QRect::bottom`. -/
def QRect.bottom (r : QRect) : Int := r.y2

/-- The method `QRect::isValid`: `left() <= right() && top() <= bottom()`. -/
def QRect.isValid (r : QRect) : Bool := decide (r.x1 ≤ r.x2) && decide (r.y1 ≤ r.y2)

/-- The constructor `QRect(x, y, width, height)`. -/
def QRect.ofSize (x y width height : Int) : QRect := ⟨x, y, x + width - 1, y + height - 1⟩

/-- The default constructor `QRect()`: the null rectangle. -/
def QRect.null : QRect := ⟨0, 0, -1, -1⟩

/-- A `cv::Point`. -/
structure Point where
  x : Int
  y : Int
deriving DecidableEq, Repr

instance : Inhabited Point := ⟨⟨0, 0⟩⟩

/-- The locals `minX`, `maxX`, `minY`, `maxY` of `autoColorRemove`. -/
structure FloodBounds where
  minX : Int
  maxX : Int
  minY : Int
  maxY : Int
deriving DecidableEq, Repr

/-- The state that the loop of `autoColorRemove` changes: the current image,
the `visited` mask, the work list `queue` and the read position `queuePos`.
The queue never holds more than four entries per pixel plus one
(`floodStep_measure`), so the `int` index `queuePos` is a plain natural number
for every image of fewer than 2^29 pixels. -/
structure FloodState where
  image : Mat
  visited : List uchar
  queue : List Point
  queuePos : Nat
deriving DecidableEq, Repr

/-- The squared Lab distance `deltaESq` of the loop body. The code computes it
in `float`; the channel values are integers 0..255, so every difference,
square and sum is an integer below 2^24 and the `float` arithmetic is exact. -/
def deltaESq (pixelLab seedLab : Vec3b) : Int :=
  let dL : Int := (pixelLab.c0.val : Int) - (seedLab.c0.val : Int)
  let da : Int := (pixelLab.c1.val : Int) - (seedLab.c1.val : Int)
  let db : Int := (pixelLab.c2.val : Int) - (seedLab.c2.val : Int)
  dL * dL + da * da + db * db

/-- The local `maxDeltaESq`: the square of the tolerance. In `float` the square
is exact for |tolerance| < 4096, and for larger values both the `float` and
the exact square exceed every possible `deltaESq` (at most 3 * 255^2), so the
comparison `deltaESq > maxDeltaESq` has the same outcome. -/
def maxDeltaESq (tolerance : Int) : Int := tolerance * tolerance

/-- One pass through the body of the `while` loop of `autoColorRemove`. -/
def floodStep (lab : Mat3) (seedLab : Vec3b) (tolerance : Int) (b : FloodBounds)
    (s : FloodState) : FloodState :=
  let pt := s.queue.getD s.queuePos default
  let queuePos := s.queuePos + 1
  if pt.x < b.minX ∨ pt.x > b.maxX ∨ pt.y < b.minY ∨ pt.y > b.maxY then
    { s with queuePos := queuePos }
  else if s.visited.getD (offset s.image.cols pt.y pt.x) 0 ≠ 0 then
    { s with queuePos := queuePos }
  else
    let pixel := s.image.at pt.y pt.x
    if pixel.c3 = 0 then { s with queuePos := queuePos }
    else
      let pixelLab := lab.at pt.y pt.x
      if deltaESq pixelLab seedLab > maxDeltaESq tolerance then { s with queuePos := queuePos }
      else
        let visited := s.visited.set (offset s.image.cols pt.y pt.x) 1
        let image := s.image.setAt pt.y pt.x { pixel with c3 := 0 }
        let queue := s.queue
        let queue := if pt.x > b.minX then queue ++ [⟨pt.x - 1, pt.y⟩] else queue
        let queue := if pt.x < b.maxX then queue ++ [⟨pt.x + 1, pt.y⟩] else queue
        let queue := if pt.y > b.minY then queue ++ [⟨pt.x, pt.y - 1⟩] else queue
        let queue := if pt.y < b.maxY then queue ++ [⟨pt.x, pt.y + 1⟩] else queue
        { image := image, visited := visited, queue := queue, queuePos := queuePos }

/-- The `while (queuePos < queue.size())` loop, run for at most `fuel` passes. -/
def floodLoop (lab : Mat3) (seedLab : Vec3b) (tolerance : Int) (b : FloodBounds) :
    Nat → FloodState → FloodState
  | 0, s => s
  | fuel + 1, s =>
    if s.queuePos < s.queue.length then
      floodLoop lab seedLab tolerance b fuel (floodStep lab seedLab tolerance b s)
    else s

/-- The bounds that `autoColorRemove` computes from the viewport. -/
def floodBounds (image : Mat) (viewportBounds : QRect) : FloodBounds :=
  { minX := if viewportBounds.isValid then max 0 viewportBounds.left else 0
    minY := if viewportBounds.isValid then max 0 viewportBounds.top else 0
    maxX := if viewportBounds.isValid then min ((image.cols : Int) - 1) viewportBounds.right
      else (image.cols : Int) - 1
    maxY := if viewportBounds.isValid then min ((image.rows : Int) - 1) viewportBounds.bottom
      else (image.rows : Int) - 1 }

/-- A number of passes that the loop never exceeds (`floodLoop_exhausts`):
each pass reads one queue entry, and entries are added, at most four at a
time, only when a pixel of non-zero alpha is cleared. -/
def floodFuel (image : Mat) : Nat := 4 * image.data.length + 1

/-- The method `ImageProcessor::autoColorRemove`. -/
def ImageProcessor.autoColorRemove (cvt : Vec4b → Vec3b) (p : ImageProcessor)
    (x y tolerance : Int) (viewportBounds : QRect) : ImageProcessor :=
  if p.m_currentImage.empty || p.m_labImage.empty then p
  else if x < 0 ∨ x ≥ (p.m_currentImage.cols : Int) ∨ y < 0 ∨
      y ≥ (p.m_currentImage.rows : Int) then p
  else
    let seedBGRA := p.m_currentImage.at y x
    if seedBGRA.c3 = 0 then p
    else
      let seedLab := p.m_labImage.at y x
      let b := floodBounds p.m_currentImage viewportBounds
      let visited : List uchar :=
        List.replicate (p.m_currentImage.rows * p.m_currentImage.cols) 0
      let s0 : FloodState :=
        { image := p.m_currentImage, visited := visited, queue := [⟨x, y⟩], queuePos := 0 }
      let s := floodLoop p.m_labImage seedLab tolerance b (floodFuel p.m_currentImage) s0
      ImageProcessor.updateLabCache cvt (p.writeCurrent s.image)

/-! ### The sets the flood-fill claims speak of -/

/-- The point lies within the bounds of the loop. -/
def FloodBounds.contains (b : FloodBounds) (pt : Point) : Prop :=
  b.minX ≤ pt.x ∧ pt.x ≤ b.maxX ∧ b.minY ≤ pt.y ∧ pt.y ≤ b.maxY

instance (b : FloodBounds) (pt : Point) : Decidable (b.contains pt) := by
  unfold FloodBounds.contains
  infer_instance

/-- The squared Lab distance of the pixel at `pt` to the seed value is at most
the squared tolerance. -/
def withinTolerance (lab : Mat3) (seedLab : Vec3b) (tolerance : Int) (pt : Point) : Prop :=
  deltaESq (lab.at pt.y pt.x) seedLab ≤ maxDeltaESq tolerance

instance (lab : Mat3) (seedLab : Vec3b) (tolerance : Int) (pt : Point) :
    Decidable (withinTolerance lab seedLab tolerance pt) := by
  unfold withinTolerance
  infer_instance

/-- The pixels the loop can clear: within the bounds, of non-zero alpha in
`image`, and within tolerance of the seed value. -/
def Candidate (image : Mat) (lab : Mat3) (seedLab : Vec3b) (tolerance : Int)
    (b : FloodBounds) (pt : Point) : Prop :=
  b.contains pt ∧ (image.at pt.y pt.x).c3 ≠ 0 ∧ withinTolerance lab seedLab tolerance pt

/-- Two points are 4-neighbours. -/
def adj4 (p q : Point) : Prop :=
  (p.y = q.y ∧ (p.x = q.x + 1 ∨ q.x = p.x + 1)) ∨
    (p.x = q.x ∧ (p.y = q.y + 1 ∨ q.y = p.y + 1))

/-- The relation `Connected M seed q`: `q` is joined to `seed` by a 4-connected path that
lies entirely in `M`. -/
inductive Connected (M : Point → Prop) (seed : Point) : Point → Prop where
  | seed : M seed → Connected M seed seed
  | step {p q : Point} : Connected M seed p → adj4 p q → M q → Connected M seed q

/-- The point lies inside the rectangle. -/
def QRect.containsPoint (r : QRect) (pt : Point) : Prop :=
  r.left ≤ pt.x ∧ pt.x ≤ r.right ∧ r.top ≤ pt.y ∧ pt.y ≤ r.bottom

instance (r : QRect) (pt : Point) : Decidable (r.containsPoint pt) := by
  unfold QRect.containsPoint
  infer_instance

/-- The point is a pixel of the image. -/
def Mat.inImage (m : Mat) (pt : Point) : Prop :=
  0 ≤ pt.x ∧ pt.x < (m.cols : Int) ∧ 0 ≤ pt.y ∧ pt.y < (m.rows : Int)

/-- The set M of the flood-fill claims for a call
`autoColorRemove(x, y, tolerance, viewportBounds)`: the pixels inside the image
and the viewport rectangle that have non-zero alpha at call time and whose
squared Lab distance to the Lab value of the seed is at most tolerance^2. -/
def Selectable (p : ImageProcessor) (x y tolerance : Int) (viewportBounds : QRect)
    (pt : Point) : Prop :=
  p.m_currentImage.inImage pt ∧ viewportBounds.containsPoint pt ∧
    (p.m_currentImage.at pt.y pt.x).c3 ≠ 0 ∧
    deltaESq (p.m_labImage.at pt.y pt.x) (p.m_labImage.at y x) ≤ tolerance * tolerance

/-- The pixels that a call `autoColorRemove(x, y, tolerance, viewportBounds)`
can clear: as `Selectable`, except that a viewport rectangle that is not valid
does not restrict them. -/
def Fillable (p : ImageProcessor) (x y tolerance : Int) (viewportBounds : QRect)
    (pt : Point) : Prop :=
  p.m_currentImage.inImage pt ∧
    (viewportBounds.isValid = true → viewportBounds.containsPoint pt) ∧
    (p.m_currentImage.at pt.y pt.x).c3 ≠ 0 ∧
    deltaESq (p.m_labImage.at pt.y pt.x) (p.m_labImage.at y x) ≤ tolerance * tolerance

instance (m : Mat) (pt : Point) : Decidable (m.inImage pt) := by
  unfold Mat.inImage
  infer_instance

instance (p : ImageProcessor) (x y tolerance : Int) (viewportBounds : QRect) (pt : Point) :
    Decidable (Selectable p x y tolerance viewportBounds pt) := by
  unfold Selectable
  infer_instance

/-- The queue entries that one clearing pass appends. -/
def pushedNeighbours (b : FloodBounds) (pt : Point) : List Point :=
  (if pt.x > b.minX then [(⟨pt.x - 1, pt.y⟩ : Point)] else []) ++
  (if pt.x < b.maxX then [(⟨pt.x + 1, pt.y⟩ : Point)] else []) ++
  (if pt.y > b.minY then [(⟨pt.x, pt.y - 1⟩ : Point)] else []) ++
  (if pt.y < b.maxY then [(⟨pt.x, pt.y + 1⟩ : Point)] else [])

/-- The state after a pass that clears the point `pt`. -/
def clearedState (b : FloodBounds) (s : FloodState) (pt : Point) : FloodState :=
  { image := s.image.setAt pt.y pt.x { s.image.at pt.y pt.x with c3 := 0 }
    visited := s.visited.set (offset s.image.cols pt.y pt.x) 1
    queue := s.queue ++ pushedNeighbours b pt
    queuePos := s.queuePos + 1 }

/-- The bounds lie inside the columns and the non-negative rows of the image. -/
def FloodBounds.inside (b : FloodBounds) (image : Mat) : Prop :=
  0 ≤ b.minX ∧ b.maxX < (image.cols : Int) ∧ 0 ≤ b.minY ∧ b.maxY < (image.rows : Int)

/-- What holds of the loop state before and after every pass, relative to the
image `image0` at call time and the seed point. -/
structure FloodInv (image0 : Mat) (lab : Mat3) (seedLab : Vec3b) (tolerance : Int)
    (b : FloodBounds) (seed : Point) (s : FloodState) : Prop where
  cols_eq : s.image.cols = image0.cols
  rows_eq : s.image.rows = image0.rows
  length_eq : s.image.data.length = image0.data.length
  frame : ∀ q : Point, 0 ≤ q.x → q.x < (image0.cols : Int) → 0 ≤ q.y →
    s.image.at q.y q.x = image0.at q.y q.x ∨
      (s.image.at q.y q.x = { image0.at q.y q.x with c3 := 0 } ∧
        Connected (Candidate image0 lab seedLab tolerance b) seed q)
  origin : ∀ pt ∈ s.queue, pt = seed ∨
    ∃ q, Connected (Candidate image0 lab seedLab tolerance b) seed q ∧ adj4 q pt
  visited_clear : ∀ q : Point, b.contains q →
    s.visited.getD (offset image0.cols q.y q.x) 0 ≠ 0 → (s.image.at q.y q.x).c3 = 0
  closure : ∀ q r : Point, b.contains q → b.contains r → adj4 q r →
    (s.image.at q.y q.x).c3 = 0 → (image0.at q.y q.x).c3 ≠ 0 → r ∈ s.queue
  done : ∀ r ∈ s.queue.take s.queuePos, Candidate image0 lab seedLab tolerance b r →
    (s.image.at r.y r.x).c3 = 0
  seed_mem : seed ∈ s.queue
  pos_le : s.queuePos ≤ s.queue.length

/-- The loop state at the exit of the `while` loop of `autoColorRemove`. -/
def floodResult (image0 : Mat) (lab : Mat3) (seedLab : Vec3b) (tolerance : Int)
    (b : FloodBounds) (seed : Point) : FloodState :=
  floodLoop lab seedLab tolerance b (floodFuel image0)
    { image := image0, visited := List.replicate (image0.rows * image0.cols) 0,
      queue := [seed], queuePos := 0 }

/-- The call passes the early returns of `autoColorRemove`: both buffers are
non-empty, the seed is a pixel of the image and its alpha is not zero. -/
def seedAccepted (p : ImageProcessor) (x y : Int) : Prop :=
  p.m_currentImage.empty = false ∧ p.m_labImage.empty = false ∧
    p.m_currentImage.inImage ⟨x, y⟩ ∧ (p.m_currentImage.at y x).c3 ≠ 0

/-- The number of pixels of non-zero alpha. -/
def Mat.opaqueCount (m : Mat) : Nat := m.data.countP (fun v => decide (v.c3 ≠ 0))

/-- The measure that every pass of the loop decreases. -/
def floodMeasure (s : FloodState) : Nat :=
  4 * s.image.opaqueCount + (s.queue.length - s.queuePos)

/-- The lab cache has the dimensions of the current image. -/
def ImageProcessor.labSized (p : ImageProcessor) : Prop :=
  p.m_labImage.rows = p.m_currentImage.rows ∧ p.m_labImage.cols = p.m_currentImage.cols ∧
    p.m_labImage.data.length = p.m_currentImage.data.length

instance (p : ImageProcessor) : Decidable p.labSized := by
  unfold ImageProcessor.labSized
  infer_instance

/-- A `rows` x `cols` image of one colour. -/
def Mat.uniform (rows cols : Nat) (v : Vec4b) : Mat :=
  ⟨rows, cols, List.replicate (rows * cols) v⟩

/-- The processor right after a uniform image was loaded (`loadImage`:
current is a clone of original and the Lab cache is computed from it). -/
def ImageProcessor.loadedUniform (cvt : Vec4b → Vec3b) (rows cols : Nat) (v : Vec4b) :
    ImageProcessor :=
  ⟨Mat.uniform rows cols v, Mat.uniform rows cols v,
    cvtColorLab cvt (Mat.uniform rows cols v), false⟩

/-! ## Single-precision arithmetic -/

/-- A finite `float` value `m * 2^e` (IEEE binary32 with round to nearest,
ties to even). Each operation below returns the exact result rounded to 24
significant bits; the exponent range (overflow, subnormals), infinities and
NaN are not represented, and every operation of an expression is rounded on
its own (no fused multiply-add). -/
structure F32 where
  m : Int
  e : Int
deriving DecidableEq, Repr

/-- The quotient `n / d` rounded to the nearest integer, ties to even. -/
def roundHalfEven (n : Int) (d : Nat) : Int :=
  let f := n / (d : Int)
  let r := n % (d : Int)
  if 2 * r < (d : Int) then f
  else if (d : Int) < 2 * r then f + 1
  else if f % 2 = 0 then f else f + 1

/-- Halving until the argument is below 2, at most `fuel` times. -/
def log2Fuel : Nat → Nat → Nat
  | 0, _ => 0
  | fuel + 1, n => if 2 ≤ n then log2Fuel fuel (n / 2) + 1 else 0

/-- Position of the leading bit of `n` (0 for `n < 2`). -/
def ilog2 (n : Nat) : Nat := log2Fuel n n

/-- The value `m * 2^e` rounded to 24 significant bits. -/
def F32.round (m e : Int) : F32 :=
  if m.natAbs < 2 ^ 24 then ⟨m, e⟩
  else
    let sh := ilog2 m.natAbs - 23
    ⟨roundHalfEven m (2 ^ sh), e + (sh : Int)⟩

/-- The literal `0.0f`. -/
def F32.zero : F32 := ⟨0, 0⟩

/-- The literal `1.0f`. -/
def F32.one : F32 := ⟨1, 0⟩

/-- The conversion `static_cast<float>(n)` of an `int`. -/
def F32.ofInt (n : Int) : F32 := F32.round n 0

/-- The promotion of a `uchar` operand to `float`. -/
def F32.ofUChar (v : uchar) : F32 := F32.ofInt (v.val : Int)

/-- The product `a * b`. -/
def F32.mul (a b : F32) : F32 := F32.round (a.m * b.m) (a.e + b.e)

/-- The sum `a + b`. -/
def F32.add (a b : F32) : F32 :=
  let e := min a.e b.e
  F32.round (a.m * 2 ^ (a.e - e).toNat + b.m * 2 ^ (b.e - e).toNat) e

/-- The difference `a - b`. -/
def F32.sub (a b : F32) : F32 :=
  let e := min a.e b.e
  F32.round (a.m * 2 ^ (a.e - e).toNat - b.m * 2 ^ (b.e - e).toNat) e

/-- The comparison `a < b`. -/
def F32.lt (a b : F32) : Bool :=
  let e := min a.e b.e
  decide (a.m * 2 ^ (a.e - e).toNat < b.m * 2 ^ (b.e - e).toNat)

/-- The comparison `a <= b`. -/
def F32.le (a b : F32) : Bool :=
  let e := min a.e b.e
  decide (a.m * 2 ^ (a.e - e).toNat ≤ b.m * 2 ^ (b.e - e).toNat)

/-- The quotient `a / b` for a divisor that is not zero (a zero divisor, which
has no finite result, gives zero here). -/
def F32.div (a b : F32) : F32 :=
  if a.m = 0 ∨ b.m = 0 then F32.zero
  else
    let k := 25 + ilog2 b.m.natAbs
    let num := a.m.natAbs * 2 ^ k
    let den := b.m.natAbs
    let sh := ilog2 (num / den) - 23
    let mant := roundHalfEven (num : Int) (den * 2 ^ sh)
    let sgn : Int := if (decide (a.m < 0)) = (decide (b.m < 0)) then 1 else -1
    ⟨sgn * mant, a.e - b.e - (k : Int) + (sh : Int)⟩

/-- The function `std::abs` on `float`. -/
def F32.abs (a : F32) : F32 := ⟨|a.m|, a.e⟩

/-- The function `std::min` on `float`: `(b < a) ? b : a`. -/
def F32.fmin (a b : F32) : F32 := if F32.lt b a then b else a

/-- The conversion `static_cast<int>(a)`: truncation toward zero. -/
def F32.toInt (a : F32) : Int :=
  if 0 ≤ a.e then a.m * 2 ^ a.e.toNat else Int.tdiv a.m (2 ^ (-a.e).toNat)

/-- The conversion `static_cast<uchar>(a)`: truncation toward zero, kept to 8
bits. -/
def F32.toUChar (a : F32) : uchar := Fin.ofNat (a.toInt % 256).toNat

/-- The literal `0.8f`. -/
def F32.lit0_8 : F32 := F32.div (F32.ofInt 8) (F32.ofInt 10)

/-- The literal `0.001f`. -/
def F32.lit0_001 : F32 := F32.div (F32.ofInt 1) (F32.ofInt 1000)

/-! ## The brushes (`eraseWithBrush`, `repairWithBrush`) -/

/-- The lines `int radius = diameter / 2; if (radius < 1) radius = 1;`. -/
def brushRadius (diameter : Int) : Int :=
  let radius := Int.tdiv diameter 2
  if radius < 1 then 1 else radius

/-- The locals `minX`, `maxX`, `minY`, `maxY` of the brush methods. -/
structure BrushBounds where
  minX : Int
  maxX : Int
  minY : Int
  maxY : Int
deriving DecidableEq, Repr

/-- The clamped bounds of the brush square ("Clamp bounds once"). -/
def brushBounds (img : Mat) (centerX centerY radius : Int) : BrushBounds :=
  ⟨max 0 (centerX - radius), min ((img.cols : Int) - 1) (centerX + radius),
    max 0 (centerY - radius), min ((img.rows : Int) - 1) (centerY + radius)⟩

/-- The values `lo, lo + 1, ..., hi` of a loop `for (v = lo; v <= hi; ++v)`. -/
def rangeIncl (lo hi : Int) : List Int :=
  (List.range (hi + 1 - lo).toNat).map (fun (i : Nat) => lo + (i : Int))

/-- The pixels visited by the two nested loops over the bounds, in the order
of the visits: rows from `minY` to `maxY`, in each row `minX` to `maxX`. -/
def BrushBounds.coords (b : BrushBounds) : List Point :=
  (rangeIncl b.minY b.maxY).flatMap
    (fun y => (rangeIncl b.minX b.maxX).map (fun x => (⟨x, y⟩ : Point)))

/-- The locals `radiusSq`, `hardRadiusSq`, `invFeather` of the brush methods. -/
structure BrushFalloff where
  radiusSq : F32
  hardRadiusSq : F32
  invFeather : F32
deriving DecidableEq, Repr

/-- The falloff constants computed before the loops. -/
def brushFalloff (radius : Int) (hardness : F32) : BrushFalloff :=
  let radiusSq := F32.ofInt (radius * radius)
  let hardRadius := F32.mul (F32.ofInt radius) hardness
  let hardRadiusSq := F32.mul hardRadius hardRadius
  let featherRange := F32.sub radiusSq hardRadiusSq
  let invFeather :=
    if F32.lt F32.zero featherRange then F32.div F32.one featherRange else F32.zero
  ⟨radiusSq, hardRadiusSq, invFeather⟩

/-- The strength (`alpha` in erase, `blend` in repair) the loop body computes
for the pixel `pt`, or `none` when the test `distSq <= radiusSq` fails. -/
def brushStrength (f : BrushFalloff) (centerX centerY : Int) (pt : Point) : Option F32 :=
  let dy := F32.ofInt (pt.y - centerY)
  let dySq := F32.mul dy dy
  let dx := F32.ofInt (pt.x - centerX)
  let distSq := F32.add (F32.mul dx dx) dySq
  if F32.le distSq f.radiusSq then
    some (if F32.lt f.hardRadiusSq distSq
      then F32.mul (F32.sub f.radiusSq distSq) f.invFeather else F32.one)
  else none

/-- The loop body of `eraseWithBrush` on the pixel value `px` at `pt`:
`row[x][3] = static_cast<uchar>(row[x][3] * (1.0f - alpha))` inside the disc,
no write outside. -/
def erasePixel (f : BrushFalloff) (centerX centerY : Int) (pt : Point) (px : Vec4b) : Vec4b :=
  match brushStrength f centerX centerY pt with
  | some alpha =>
    { px with c3 := F32.toUChar (F32.mul (F32.ofUChar px.c3) (F32.sub F32.one alpha)) }
  | none => px

/-- The expression `static_cast<uchar>(cur * (1.0f - blend) + orig * blend)`. -/
def blendChannel (cur orig : uchar) (blend : F32) : uchar :=
  F32.toUChar (F32.add (F32.mul (F32.ofUChar cur) (F32.sub F32.one blend))
    (F32.mul (F32.ofUChar orig) blend))

/-- The loop body of `repairWithBrush` on the current pixel value `cur` and
the original pixel value `orig` at `pt`: all four channels are blended inside
the disc, no write outside. -/
def repairPixel (f : BrushFalloff) (centerX centerY : Int) (pt : Point)
    (cur orig : Vec4b) : Vec4b :=
  match brushStrength f centerX centerY pt with
  | some blend =>
    ⟨blendChannel cur.c0 orig.c0 blend, blendChannel cur.c1 orig.c1 blend,
      blendChannel cur.c2 orig.c2 blend, blendChannel cur.c3 orig.c3 blend⟩
  | none => cur

/-- A loop over `coords` whose body reads the pixel at the visited coordinate
and stores `g` of it there. -/
def Mat.updateAt (coords : List Point) (g : Point → Vec4b → Vec4b) (img : Mat) : Mat :=
  coords.foldl (fun m pt => m.setAt pt.y pt.x (g pt (m.at pt.y pt.x))) img

/-- The method `ImageProcessor::eraseWithBrush`. -/
def ImageProcessor.eraseWithBrush (p : ImageProcessor) (centerX centerY diameter : Int)
    (hardness : F32) : ImageProcessor :=
  if p.m_currentImage.empty then p
  else
    let radius := brushRadius diameter
    let b := brushBounds p.m_currentImage centerX centerY radius
    if b.minX > b.maxX ∨ b.minY > b.maxY then p
    else
      let f := brushFalloff radius hardness
      let body := erasePixel f centerX centerY
      p.writeCurrent (p.m_currentImage.updateAt b.coords body)

/-- The method `ImageProcessor::repairWithBrush`. When the two members share
one buffer, `originalRow[x]` is the pixel that is being written. -/
def ImageProcessor.repairWithBrush (p : ImageProcessor) (centerX centerY diameter : Int) :
    ImageProcessor :=
  if p.m_currentImage.empty ∨ p.m_originalImage.empty then p
  else
    let radius := brushRadius diameter
    let b := brushBounds p.m_currentImage centerX centerY radius
    if b.minX > b.maxX ∨ b.minY > b.maxY then p
    else
      let f := brushFalloff radius F32.lit0_8
      let body := fun (pt : Point) (cur : Vec4b) =>
        repairPixel f centerX centerY pt cur
          (if p.sharedBuffer then cur else p.m_originalImage.at pt.y pt.x)
      p.writeCurrent (p.m_currentImage.updateAt b.coords body)

/-! ## ToolManager -/

/-- The enumeration `ToolManager::Tool`. -/
inductive Tool where
  | AutoColor
  | ManualErase
  | Repair
deriving DecidableEq, Repr

/-- A `float` passed by a caller: a finite value, an infinity or a NaN. -/
inductive FloatArg where
  | finite (v : F32)
  | posInf
  | negInf
  | nan
deriving DecidableEq, Repr

/-- The data members of `ToolManager`. -/
structure ToolManager where
  m_currentTool : Tool
  m_brushSize : Int
  m_tolerance : Int
  m_brushHardness : F32
deriving DecidableEq, Repr

def MIN_BRUSH_SIZE : Int := 1

def MAX_BRUSH_SIZE : Int := 200

def MIN_TOLERANCE : Int := 0

def MAX_TOLERANCE : Int := 255

/-- The default member initialisers of `ToolManager`. -/
def ToolManager.initial : ToolManager := ⟨Tool.AutoColor, 10, 50, F32.lit0_8⟩

/-- The getter `brushSize()`. -/
def ToolManager.brushSize (t : ToolManager) : Int := t.m_brushSize

/-- The getter `tolerance()`. -/
def ToolManager.tolerance (t : ToolManager) : Int := t.m_tolerance

/-- The getter `brushHardness()`. -/
def ToolManager.brushHardness (t : ToolManager) : F32 := t.m_brushHardness

/-- The function `std::clamp(v, lo, hi)` on `int`:
`(v < lo) ? lo : (hi < v) ? hi : v`. -/
def clamp (v lo hi : Int) : Int := if v < lo then lo else if hi < v then hi else v

/-- The call `std::clamp(hardness, 0.0f, 1.0f)`; `none` is a NaN, which both
comparisons let through. -/
def clampUnit : FloatArg → Option F32
  | FloatArg.nan => none
  | FloatArg.posInf => some F32.one
  | FloatArg.negInf => some F32.zero
  | FloatArg.finite v =>
    some (if F32.lt v F32.zero then F32.zero else if F32.lt F32.one v then F32.one else v)

/-- The method `ToolManager::setCurrentTool`. -/
def ToolManager.setCurrentTool (t : ToolManager) (tool : Tool) : ToolManager :=
  if t.m_currentTool ≠ tool then { t with m_currentTool := tool } else t

/-- The method `ToolManager::setBrushSize`. -/
def ToolManager.setBrushSize (t : ToolManager) (size : Int) : ToolManager :=
  let size := clamp size MIN_BRUSH_SIZE MAX_BRUSH_SIZE
  if t.m_brushSize ≠ size then { t with m_brushSize := size } else t

/-- The method `ToolManager::setTolerance`. -/
def ToolManager.setTolerance (t : ToolManager) (tolerance : Int) : ToolManager :=
  let tolerance := clamp tolerance MIN_TOLERANCE MAX_TOLERANCE
  if t.m_tolerance ≠ tolerance then { t with m_tolerance := tolerance } else t

/-- The method `ToolManager::setBrushHardness`. With a NaN argument the test
`std::abs(m_brushHardness - hardness) > 0.001f` is false. -/
def ToolManager.setBrushHardness (t : ToolManager) (hardness : FloatArg) : ToolManager :=
  match clampUnit hardness with
  | none => t
  | some h =>
    if F32.lt F32.lit0_001 (F32.abs (F32.sub t.m_brushHardness h)) then
      { t with m_brushHardness := h }
    else t

/-- One call of a setter of `ToolManager`. -/
inductive ToolCall where
  | setCurrentTool (tool : Tool)
  | setBrushSize (size : Int)
  | setTolerance (tolerance : Int)
  | setBrushHardness (hardness : FloatArg)
deriving DecidableEq, Repr

/-- The effect of one call. -/
def ToolCall.apply (t : ToolManager) : ToolCall → ToolManager
  | ToolCall.setCurrentTool tool => t.setCurrentTool tool
  | ToolCall.setBrushSize size => t.setBrushSize size
  | ToolCall.setTolerance tolerance => t.setTolerance tolerance
  | ToolCall.setBrushHardness hardness => t.setBrushHardness hardness

/-- A sequence of calls, first call first. -/
def runCalls (calls : List ToolCall) (t : ToolManager) : ToolManager :=
  calls.foldl ToolCall.apply t

/-- The argument of the last `setBrushSize` call of a sequence, if any. -/
def lastBrushSize (calls : List ToolCall) : Option Int :=
  calls.foldl (fun acc c => match c with
    | ToolCall.setBrushSize size => some size
    | _ => acc) none

/-- The argument of the last `setTolerance` call of a sequence, if any. -/
def lastTolerance (calls : List ToolCall) : Option Int :=
  calls.foldl (fun acc c => match c with
    | ToolCall.setTolerance tolerance => some tolerance
    | _ => acc) none

/-- The ranges of the three settings. -/
def ToolManager.InRange (t : ToolManager) : Prop :=
  (1 ≤ t.brushSize ∧ t.brushSize ≤ 200) ∧ (0 ≤ t.tolerance ∧ t.tolerance ≤ 255) ∧
    (F32.le F32.zero t.brushHardness = true ∧ F32.le t.brushHardness F32.one = true)

instance (t : ToolManager) : Decidable t.InRange := by
  unfold ToolManager.InRange
  infer_instance

/-- The buffer of a matrix holds exactly `rows * cols` elements. -/
def Mat.wellFormed (m : Mat) : Prop := m.data.length = m.rows * m.cols

instance (m : Mat) : Decidable m.wellFormed := by
  unfold Mat.wellFormed
  infer_instance

/-! ## Edge softening (`ImageProcessor::applySoftening`) -/

/-- A single-channel 8-bit matrix of the size of the image, read through
`at<uchar>(y, x)`. -/
abbrev Plane := Int → Int → uchar

/-- The plane `channels[3]` that `cv::split` yields: the alpha channel. -/
def alphaPlane (m : Mat) : Plane := fun y x => (m.at y x).c3

/-- The function `cv::dilate` with the default anchor and border: the maximum
of the source over the structuring element, whose non-zero entries are given
as offsets `(dy, dx)` from the anchor; offsets that leave the image are
skipped. -/
def dilate (rows cols : Nat) (kernel : List (Int × Int)) (src : Plane) : Plane :=
  fun y x =>
    ((kernel.filter (fun o => decide (0 ≤ y + o.1 ∧ y + o.1 < (rows : Int) ∧
        0 ≤ x + o.2 ∧ x + o.2 < (cols : Int)))).map
      (fun o => src (y + o.1) (x + o.2))).foldl max 0

/-- The function `cv::erode` with the default anchor and border: the minimum
of the source over the structuring element; offsets that leave the image are
skipped. -/
def erode (rows cols : Nat) (kernel : List (Int × Int)) (src : Plane) : Plane :=
  fun y x =>
    ((kernel.filter (fun o => decide (0 ≤ y + o.1 ∧ y + o.1 < (rows : Int) ∧
        0 ≤ x + o.2 ∧ x + o.2 < (cols : Int)))).map
      (fun o => src (y + o.1) (x + o.2))).foldl min 255

/-- The saturating difference of two `uchar` matrices entries (`dilated - eroded`). -/
def saturateSub (a b : uchar) : uchar := ⟨a.val - b.val, by omega⟩

/-- The locals `edgeMask` of `applySoftening` for a given structuring element. -/
def edgeMask (image : Mat) (kernel : List (Int × Int)) : Plane :=
  fun y x =>
    saturateSub (dilate image.rows image.cols kernel (alphaPlane image) y x)
      (erode image.rows image.cols kernel (alphaPlane image) y x)

/-- The pixels visited by `for y in 0..rows { for x in 0..cols }`. -/
def Mat.coords (m : Mat) : List Point :=
  BrushBounds.coords ⟨0, (m.cols : Int) - 1, 0, (m.rows : Int) - 1⟩

/-- The body of the loops of `applySoftening` on the pixel value `px`:
where the edge mask is positive the alpha becomes
`static_cast<uchar>(alpha * (1.0f - blend) + blurred * blend)` with
`blend = std::min(1.0f, (edgeVal / 255.0f) * (level / 3.0f))`. -/
def softenPixel (level : Int) (edgeVal alpha blurred : uchar) (px : Vec4b) : Vec4b :=
  if 0 < edgeVal.val then
    let blend := F32.mul (F32.div (F32.ofUChar edgeVal) (F32.ofInt 255))
      (F32.div (F32.ofInt level) (F32.ofInt 3))
    let blend := F32.fmin F32.one blend
    { px with c3 := blendChannel alpha blurred blend }
  else px

/-- The method `ImageProcessor::applySoftening`. The OpenCV calls
`cv::getStructuringElement(cv::MORPH_ELLIPSE, Size(n, n))` and
`cv::GaussianBlur(alpha, _, Size(n, n), 0)` are the parameters
`structuringElement` and `gaussianBlur`. -/
def applySoftening (structuringElement : Int → List (Int × Int))
    (gaussianBlur : Plane → Int → Plane) (image : Mat) (level : Int) : Mat :=
  if level = 0 ∨ image.empty then image.clone
  else
    let result := image.clone
    let alpha := alphaPlane result
    let morphSize := 2 + level
    let kernel := structuringElement morphSize
    let edge := edgeMask result kernel
    let blurSize := 3 + level * 4
    let blurSize := if Int.tmod blurSize 2 = 0 then blurSize + 1 else blurSize
    let blurredAlpha := gaussianBlur alpha blurSize
    let body := fun (pt : Point) (px : Vec4b) =>
      softenPixel level (edge pt.y pt.x) (alpha pt.y pt.x) (blurredAlpha pt.y pt.x) px
    result.updateAt result.coords body

/-! ## The canvas render cache (`CanvasWidget`) -/

/-- The method `QRect::isNull`: `x2 == x1 - 1 && y2 == y1 - 1`. -/
def QRect.isNull (r : QRect) : Bool := decide (r.x2 = r.x1 - 1) && decide (r.y2 = r.y1 - 1)

/-- The method `QRect::isEmpty`: `x1 > x2 || y1 > y2`. -/
def QRect.isEmpty (r : QRect) : Bool := decide (r.x1 > r.x2) || decide (r.y1 > r.y2)

/-- The method `QRect::adjust(dx1, dy1, dx2, dy2)`. -/
def QRect.adjust (r : QRect) (dx1 dy1 dx2 dy2 : Int) : QRect :=
  ⟨r.x1 + dx1, r.y1 + dy1, r.x2 + dx2, r.y2 + dy2⟩

/-- The normalised extent `(l, r)` of a coordinate pair, as Qt computes it
at the start of `contains`, `united` and `intersected`:
`l = a1; r = a1 - 1; if (a2 < a1 - 1) l = a2 + 1; else r = a2;`. -/
def QRect.span (a1 a2 : Int) : Int × Int :=
  if a2 < a1 - 1 then (a2 + 1, a1 - 1) else (a1, a2)

/-- The method `QRect::contains(const QRect &r)` (not proper). -/
def QRect.contains (a r : QRect) : Bool :=
  if a.isNull || r.isNull then false
  else
    let h1 := QRect.span a.x1 a.x2
    let h2 := QRect.span r.x1 r.x2
    if h2.1 < h1.1 ∨ h2.2 > h1.2 then false
    else
      let v1 := QRect.span a.y1 a.y2
      let v2 := QRect.span r.y1 r.y2
      if v2.1 < v1.1 ∨ v2.2 > v1.2 then false else true

/-- The method `QRect::united`: the bounding rectangle of the two. -/
def QRect.united (a r : QRect) : QRect :=
  if a.isNull then r
  else if r.isNull then a
  else
    let h1 := QRect.span a.x1 a.x2
    let h2 := QRect.span r.x1 r.x2
    let v1 := QRect.span a.y1 a.y2
    let v2 := QRect.span r.y1 r.y2
    ⟨min h1.1 h2.1, min v1.1 v2.1, max h1.2 h2.2, max v1.2 v2.2⟩

/-- The method `QRect::intersected`. -/
def QRect.intersected (a r : QRect) : QRect :=
  if a.isNull || r.isNull then QRect.null
  else
    let h1 := QRect.span a.x1 a.x2
    let h2 := QRect.span r.x1 r.x2
    if h1.1 > h2.2 ∨ h2.1 > h1.2 then QRect.null
    else
      let v1 := QRect.span a.y1 a.y2
      let v2 := QRect.span r.y1 r.y2
      if v1.1 > v2.2 ∨ v2.1 > v1.2 then QRect.null
      else ⟨max h1.1 h2.1, max v1.1 v2.1, min h1.2 h2.2, min v1.2 v2.2⟩

/-- A `QImage` of format `Format_RGBA8888`: a row-major buffer of 4-byte
pixels whose channels c0..c3 hold R, G, B, A. -/
abbrev QImage := Mat

/-- The default constructor `QImage()`: the null image. -/
def QImage.null : QImage := Mat.nil

/-- The method `QImage::isNull`. -/
def QImage.isNull (q : QImage) : Bool := q.data.isEmpty

/-- The constructor `QImage(w, h, Format_RGBA8888)` followed by
`fill(Qt::transparent)`. -/
def QImage.transparent (w h : Nat) : QImage := Mat.uniform h w ⟨0, 0, 0, 0⟩

/-- The RGBA bytes of a BGRA pixel, as the copy loop of `updateDisplayRegion`
stores them. -/
def rgba (src : Vec4b) : Vec4b := ⟨src.c2, src.c1, src.c0, src.c3⟩

/-- The method `ImageProcessor::getWidth`. -/
def ImageProcessor.getWidth (p : ImageProcessor) : Int := (p.m_currentImage.cols : Int)

/-- The method `ImageProcessor::getHeight`. -/
def ImageProcessor.getHeight (p : ImageProcessor) : Int := (p.m_currentImage.rows : Int)

/-- The method `ImageProcessor::updateDisplayRegion`. -/
def ImageProcessor.updateDisplayRegion (p : ImageProcessor) (target : QImage)
    (region : QRect) : QImage :=
  if p.m_currentImage.empty || QImage.isNull target then target
  else
    let x1 := max 0 region.left
    let y1 := max 0 region.top
    let x2 := min (p.m_currentImage.cols : Int) (region.right + 1)
    let y2 := min (p.m_currentImage.rows : Int) (region.bottom + 1)
    if x1 ≥ x2 ∨ y1 ≥ y2 then target
    else
      let body := fun (pt : Point) (_dst : Vec4b) => rgba (p.m_currentImage.at pt.y pt.x)
      Mat.updateAt (BrushBounds.coords ⟨x1, x2 - 1, y1, y2 - 1⟩) body target

/-- The constant `CanvasWidget::LARGE_IMAGE_THRESHOLD`. -/
def LARGE_IMAGE_THRESHOLD : Int := 8300000

/-- The data members of `CanvasWidget` that the render cache reads or writes,
with the attached processor as a flag (`m_processor` null or not). The field
`renderCount` is not in the source: it counts the `updateDisplayRegion` calls
made by `renderVisibleArea`. -/
structure CanvasWidget where
  m_processor : Bool
  m_displayImage : QImage
  m_isLargeImage : Bool
  m_renderedRegion : QRect
  renderCount : Nat
deriving DecidableEq, Repr

/-- The view state as `getVisibleImageRect` sees it: the image coordinates
`screenToImage(QPoint(0, 0))` and `screenToImage(QPoint(width(), height()))`
that zoom and pan offset yield for the corners of the widget. -/
structure ViewState where
  topLeft : Point
  bottomRight : Point
deriving DecidableEq, Repr

/-- The part of `CanvasWidget::rebuildFullCache` that sets the display buffer,
the large-image flag and the rendered region. The source computes
`int pixels = w * h`; the product here is the mathematical one, which is the
value of the source while it is below 2^31. -/
def CanvasWidget.rebuildFullCache (c : CanvasWidget) (p : ImageProcessor) : CanvasWidget :=
  if c.m_processor && p.hasImage then
    let w := p.getWidth
    let h := p.getHeight
    let display := QImage.transparent w.toNat h.toNat
    let pixels := w * h
    let isLarge := decide (pixels > LARGE_IMAGE_THRESHOLD)
    if !isLarge then
      { c with
        m_displayImage := p.updateDisplayRegion display (QRect.ofSize 0 0 w h)
        m_isLargeImage := isLarge
        m_renderedRegion := QRect.ofSize 0 0 w h }
    else
      { c with
        m_displayImage := display
        m_isLargeImage := isLarge
        m_renderedRegion := QRect.null }
  else
    { c with
      m_displayImage := QImage.null
      m_isLargeImage := false
      m_renderedRegion := QRect.null }

/-- The method `CanvasWidget::getVisibleImageRect`. -/
def CanvasWidget.getVisibleImageRect (c : CanvasWidget) (p : ImageProcessor)
    (view : ViewState) : QRect :=
  if !c.m_processor || !p.hasImage then QRect.null
  else
    let x1 := max 0 view.topLeft.x
    let y1 := max 0 view.topLeft.y
    let x2 := min p.getWidth view.bottomRight.x
    let y2 := min p.getHeight view.bottomRight.y
    QRect.ofSize x1 y1 (x2 - x1) (y2 - y1)

/-- The rectangle `renderVisibleArea` tests and renders: the visible
rectangle grown by the margin of 100 pixels and clipped to the image. -/
def CanvasWidget.visibleWithMargin (c : CanvasWidget) (p : ImageProcessor)
    (view : ViewState) : QRect :=
  let margin := 100
  QRect.intersected ((c.getVisibleImageRect p view).adjust (-margin) (-margin) margin margin)
    (QRect.ofSize 0 0 p.getWidth p.getHeight)

/-- The method `CanvasWidget::renderVisibleArea`. -/
def CanvasWidget.renderVisibleArea (c : CanvasWidget) (p : ImageProcessor)
    (view : ViewState) : CanvasWidget :=
  if !c.m_processor || !p.hasImage || QImage.isNull c.m_displayImage then c
  else
    let visible := c.getVisibleImageRect p view
    if visible.isEmpty then c
    else
      let visible := c.visibleWithMargin p view
      if !c.m_renderedRegion.contains visible then
        { c with
          m_displayImage := p.updateDisplayRegion c.m_displayImage visible
          m_renderedRegion := c.m_renderedRegion.united visible
          renderCount := c.renderCount + 1 }
      else c

/-- A sequence of `renderVisibleArea` calls, one per view, on an unedited
image. -/
def CanvasWidget.renderViews (c : CanvasWidget) (p : ImageProcessor)
    (views : List ViewState) : CanvasWidget :=
  views.foldl (fun c view => c.renderVisibleArea p view) c

/-- The image of the snapshot at the cursor position,
`m_history[m_currentIndex].imageState`; `none` when the cursor is not a valid
index. -/
def HistoryManager.cursorSnapshot (h : HistoryManager) : Option Mat :=
  (historyAt h.m_history h.m_currentIndex).map HistoryState.imageState

/-- The pixels inside the bounds of the loop of `autoColorRemove`. -/
def FloodBounds.coords (b : FloodBounds) : List Point :=
  BrushBounds.coords ⟨b.minX, b.maxX, b.minY, b.maxY⟩

/-- The number of pixels inside the bounds. -/
def FloodBounds.area (b : FloodBounds) : Nat := b.coords.length

/-- The number of pixels of non-zero alpha inside the bounds. -/
def opaqueIn (b : FloodBounds) (m : Mat) : Nat :=
  b.coords.countP (fun pt => decide ((m.at pt.y pt.x).c3 ≠ 0))

/-- The number of pixels of the image that lie in the viewport rectangle. -/
def viewportPixels (image : Mat) (viewportBounds : QRect) : Nat :=
  (BrushBounds.coords ⟨max 0 viewportBounds.left,
    min ((image.cols : Int) - 1) viewportBounds.right, max 0 viewportBounds.top,
    min ((image.rows : Int) - 1) viewportBounds.bottom⟩).length

/-! ## Loading, resizing and replacing the image -/

/-- The call `cv::resize(src, dst, cv::Size(newWidth, newHeight), 0, 0,
cv::INTER_LANCZOS4)`: the result has `newHeight` rows and `newWidth` columns;
its pixel values are computed by OpenCV and enter as the parameter
`interpolate`. `none` stands for the `cv::Exception` that OpenCV raises for
an empty source or an empty size. -/
def cvResize (interpolate : Mat → Int → Int → Point → Vec4b) (src : Mat)
    (newWidth newHeight : Int) : Option Mat :=
  if src.empty ∨ newWidth ≤ 0 ∨ newHeight ≤ 0 then none
  else
    some ⟨newHeight.toNat, newWidth.toNat,
      (BrushBounds.coords ⟨0, newWidth - 1, 0, newHeight - 1⟩).map
        (interpolate src newWidth newHeight)⟩

/-- The method `ImageProcessor::loadImage`. The parameter `decoded` is what
`cv::imread` returns for the file, seen through `ensureAlphaChannel` (which
adds an alpha channel and changes neither size nor emptiness): the empty
matrix when the file cannot be decoded. The assignment gives
`m_originalImage` a buffer of its own. -/
def ImageProcessor.loadImage (cvt : Vec4b → Vec3b) (p : ImageProcessor) (decoded : Mat) :
    Bool × ImageProcessor :=
  let p := { p with m_originalImage := decoded, sharedBuffer := false }
  if p.m_originalImage.empty then (false, p)
  else
    let p := { p with m_currentImage := p.m_originalImage.clone }
    (true, { p with m_labImage := cvtColorLab cvt p.m_currentImage })

/-- The method `ImageProcessor::resize`; `none` stands for an exception
raised by `cv::resize`. The source passes one local `cv::Mat resized` to both
`cv::resize` calls. The first call allocates it and `m_currentImage = resized`
makes the member share that buffer. The second call finds `resized` with the
requested size and type already, so `cv::Mat::create` does not reallocate and
the resized original is written into the buffer that `m_currentImage`
shares; `m_originalImage = resized` then makes the third reference to it.
Afterwards both members are one buffer that holds the resized original. -/
def ImageProcessor.resize (interpolate : Mat → Int → Int → Point → Vec4b)
    (cvt : Vec4b → Vec3b) (p : ImageProcessor) (newWidth newHeight : Int) :
    Option ImageProcessor :=
  if p.m_currentImage.empty then some p
  else
    match cvResize interpolate p.m_currentImage newWidth newHeight with
    | none => none
    | some resized =>
      let p := { p with m_currentImage := resized, sharedBuffer := false }
      match cvResize interpolate p.m_originalImage newWidth newHeight with
      | none => none
      | some resized =>
        let p := { p with m_currentImage := resized }
        let p := { p with m_originalImage := resized, sharedBuffer := true }
        some (ImageProcessor.updateLabCache cvt p)

/-- The method `ImageProcessor::updateOriginalImage`. The clone gives
`m_originalImage` a buffer of its own. -/
def ImageProcessor.updateOriginalImage (cvt : Vec4b → Vec3b) (p : ImageProcessor) :
    ImageProcessor :=
  if p.m_currentImage.empty then p
  else
    ImageProcessor.updateLabCache cvt
      { p with m_originalImage := p.m_currentImage.clone, sharedBuffer := false }

/-- The method `ImageProcessor::clear`. -/
def ImageProcessor.clear (_p : ImageProcessor) : ImageProcessor :=
  ⟨Mat.nil, Mat.nil, Mat3.nil, false⟩

/-- The two buffers have the same width and height. -/
def ImageProcessor.sameSize (p : ImageProcessor) : Prop :=
  p.m_originalImage.rows = p.m_currentImage.rows ∧
    p.m_originalImage.cols = p.m_currentImage.cols

instance (p : ImageProcessor) : Decidable p.sameSize := by
  unfold ImageProcessor.sameSize
  infer_instance

/-- The Lab cache has the dimensions of the current buffer and each entry is
the conversion of the pixel of the current buffer at the same position. -/
def ImageProcessor.cacheConsistent (cvt : Vec4b → Vec3b) (p : ImageProcessor) : Prop :=
  p.m_labImage = cvtColorLab cvt p.m_currentImage

instance (cvt : Vec4b → Vec3b) (p : ImageProcessor) : Decidable (p.cacheConsistent cvt) := by
  unfold ImageProcessor.cacheConsistent
  infer_instance

/-! ## Strokes along a path (`eraseAlongPath`, `repairAlongPath`) -/

/-- The candidates `r + 2^k` for the integer square root, from bit `k - 1`
down to bit 0. -/
def sqrtBits (n : Nat) : Nat → Nat → Nat
  | 0, r => r
  | k + 1, r => sqrtBits n k (if (r + 2 ^ k) * (r + 2 ^ k) ≤ n then r + 2 ^ k else r)

/-- The integer square root: the largest `s` with `s * s ≤ n`. -/
def isqrt (n : Nat) : Nat := sqrtBits n (ilog2 n / 2 + 1) 0

/-- The function `std::sqrt` on `float`, correctly rounded, for an argument
that is not negative (a negative argument, whose result is a NaN, gives zero
here). The argument is scaled to an integer of at least 50 bits with an even
exponent; its integer square root with a sticky bit is rounded to 24 bits. -/
def F32.sqrt (a : F32) : F32 :=
  if a.m ≤ 0 then F32.zero
  else
    let k : Int := if (a.e - 50) % 2 = 0 then 50 else 51
    let n := a.m.toNat * 2 ^ k.toNat
    let s := isqrt n
    let sticky : Int := if s * s = n then 0 else 1
    F32.round (2 * (s : Int) + sticky) ((a.e - k) / 2 - 1)

/-- The function `std::max` on `float`: `(a < b) ? b : a`. -/
def F32.fmax (a b : F32) : F32 := if F32.lt a b then b else a

/-- The literal `0.3f`. -/
def F32.lit0_3 : F32 := F32.div (F32.ofInt 3) (F32.ofInt 10)

/-- The local `steps` of the path methods for a segment of offset
`(dx, dy)` that is not zero:
`static_cast<int>(distance / stepSize) + 1` with
`distance = std::sqrt(static_cast<float>(distSq))` and
`stepSize = std::max(1.0f, radius * 0.3f)`. The `int` sum `distSq` is the
mathematical one, the value of the source while it is below 2^31. -/
def pathSteps (dx dy diameter : Int) : Int :=
  let distSq := dx * dx + dy * dy
  let distance := F32.sqrt (F32.ofInt distSq)
  let radius := brushRadius diameter
  let stepSize := F32.fmax F32.one (F32.mul (F32.ofInt radius) F32.lit0_3)
  F32.toInt (F32.div distance stepSize) + 1

/-- The centres at which the loop `for (int i = 0; i <= steps; ++i)` of the
path methods stamps the brush:
`start + (static_cast<int>(i * stepX), static_cast<int>(i * stepY))` with
`stepX = static_cast<float>(dx) / steps`. -/
def pathCentres (start endPt : Point) (diameter : Int) : List Point :=
  let dx := endPt.x - start.x
  let dy := endPt.y - start.y
  let steps := pathSteps dx dy diameter
  let stepX := F32.div (F32.ofInt dx) (F32.ofInt steps)
  let stepY := F32.div (F32.ofInt dy) (F32.ofInt steps)
  (rangeIncl 0 steps).map (fun i =>
    (⟨start.x + F32.toInt (F32.mul (F32.ofInt i) stepX),
      start.y + F32.toInt (F32.mul (F32.ofInt i) stepY)⟩ : Point))

/-- The method `ImageProcessor::eraseAlongPath`. -/
def ImageProcessor.eraseAlongPath (p : ImageProcessor) (start endPt : Point)
    (diameter : Int) (hardness : F32) : ImageProcessor :=
  let dx := endPt.x - start.x
  let dy := endPt.y - start.y
  let distSq := dx * dx + dy * dy
  if distSq = 0 then p.eraseWithBrush start.x start.y diameter hardness
  else
    (pathCentres start endPt diameter).foldl
      (fun q c => q.eraseWithBrush c.x c.y diameter hardness) p

/-- The method `ImageProcessor::repairAlongPath`. -/
def ImageProcessor.repairAlongPath (p : ImageProcessor) (start endPt : Point)
    (diameter : Int) : ImageProcessor :=
  let dx := endPt.x - start.x
  let dy := endPt.y - start.y
  let distSq := dx * dx + dy * dy
  if distSq = 0 then p.repairWithBrush start.x start.y diameter
  else
    (pathCentres start endPt diameter).foldl
      (fun q c => q.repairWithBrush c.x c.y diameter) p

/-! ## The pointer handlers of the canvas -/

/-- The method `CanvasWidget::updateRegion`, the part that writes the display
buffer. -/
def CanvasWidget.updateRegion (c : CanvasWidget) (p : ImageProcessor) (imageRect : QRect) :
    CanvasWidget :=
  if QImage.isNull c.m_displayImage || !c.m_processor then c
  else { c with m_displayImage := p.updateDisplayRegion c.m_displayImage imageRect }

/-- The values of `event->button()` that the handlers distinguish. -/
inductive MouseButton where
  | LeftButton
  | MiddleButton
  | RightButton
deriving DecidableEq, Repr

/-- What the handlers read from a `QMouseEvent` and from the view at the time
of the event: the button, whether `Qt::AltModifier` is set,
`screenToImage(event->pos())`, and the image coordinates of the widget
corners (zoom and pan offset enter the handlers only through these). -/
structure MouseEvent where
  button : MouseButton
  altModifier : Bool
  imagePos : Point
  view : ViewState
deriving DecidableEq, Repr

/-- The data members of `CanvasWidget` that hold the pointer mode. -/
structure PointerState where
  m_isPanning : Bool
  m_isDrawing : Bool
  m_spaceHeld : Bool
  m_showOriginal : Bool
  m_lastDrawPos : Point
deriving DecidableEq, Repr

/-- The canvas together with the objects its pointers `m_toolManager`,
`m_historyManager` and `m_processor` refer to; the history manager works on
the same processor. -/
structure Editor where
  canvas : CanvasWidget
  pointer : PointerState
  toolManager : ToolManager
  historyManager : HistoryManager
  processor : ImageProcessor
deriving DecidableEq, Repr

/-- The method `CanvasWidget::handleAutoColorTool`. -/
def Editor.handleAutoColorTool (cvt : Vec4b → Vec3b) (s : Editor) (imagePos : Point)
    (view : ViewState) : ImageProcessor :=
  s.processor.autoColorRemove cvt imagePos.x imagePos.y s.toolManager.tolerance
    (s.canvas.getVisibleImageRect s.processor view)

/-- The method `CanvasWidget::mousePressEvent` (cursor shapes, signals and
repaint requests are not modelled). -/
def Editor.mousePressEvent (cvt : Vec4b → Vec3b) (s : Editor) (ev : MouseEvent) : Editor :=
  if s.pointer.m_spaceHeld || s.pointer.m_showOriginal then
    if ev.button = MouseButton.LeftButton then
      { s with pointer := { s.pointer with m_isPanning := true } }
    else s
  else if ev.button = MouseButton.MiddleButton ∨
      (ev.button = MouseButton.LeftButton ∧ ev.altModifier = true) then
    { s with pointer := { s.pointer with m_isPanning := true } }
  else if ev.button = MouseButton.LeftButton ∧ s.canvas.m_processor = true ∧
      s.processor.hasImage = true then
    let imagePos := ev.imagePos
    if imagePos.x ≥ 0 ∧ imagePos.x < s.processor.getWidth ∧
        imagePos.y ≥ 0 ∧ imagePos.y < s.processor.getHeight then
      if s.toolManager.m_currentTool = Tool.AutoColor then
        if (s.processor.m_currentImage.at imagePos.y imagePos.x).c3 = 0 then s
        else
          let history := s.historyManager.saveStateBeforeChange s.processor
          let processor := s.handleAutoColorTool cvt imagePos ev.view
          let history := history.saveState processor
          let canvas := { s.canvas with m_renderedRegion := QRect.null }
          let canvas := canvas.rebuildFullCache processor
          let canvas :=
            if canvas.m_isLargeImage then canvas.renderVisibleArea processor ev.view else canvas
          { s with canvas := canvas, historyManager := history, processor := processor }
      else
        let pointer := { s.pointer with m_isDrawing := true, m_lastDrawPos := imagePos }
        let history := s.historyManager.saveStateBeforeChange s.processor
        let brushSize := s.toolManager.brushSize
        let dirtyRect :=
          QRect.ofSize (imagePos.x - brushSize) (imagePos.y - brushSize) (brushSize * 2)
            (brushSize * 2)
        let processor :=
          if s.toolManager.m_currentTool = Tool.ManualErase then
            s.processor.eraseWithBrush imagePos.x imagePos.y brushSize
              s.toolManager.brushHardness
          else s.processor.repairWithBrush imagePos.x imagePos.y brushSize
        { s with
          canvas := s.canvas.updateRegion processor dirtyRect
          pointer := pointer
          historyManager := history
          processor := processor }
    else s
  else s

/-- The method `CanvasWidget::mouseMoveEvent` (the pan offset is not a member
of the model: the view comes with each event). -/
def Editor.mouseMoveEvent (s : Editor) (ev : MouseEvent) : Editor :=
  let imagePos := ev.imagePos
  if s.pointer.m_spaceHeld || s.pointer.m_showOriginal then s
  else if s.pointer.m_isPanning then s
  else if s.pointer.m_isDrawing && s.canvas.m_processor && s.processor.hasImage then
    let brushSize := s.toolManager.brushSize
    let minX := min s.pointer.m_lastDrawPos.x imagePos.x - brushSize
    let minY := min s.pointer.m_lastDrawPos.y imagePos.y - brushSize
    let maxX := max s.pointer.m_lastDrawPos.x imagePos.x + brushSize
    let maxY := max s.pointer.m_lastDrawPos.y imagePos.y + brushSize
    let dirtyRect := QRect.ofSize minX minY (maxX - minX) (maxY - minY)
    let processor :=
      if s.toolManager.m_currentTool = Tool.ManualErase then
        s.processor.eraseAlongPath s.pointer.m_lastDrawPos imagePos brushSize
          s.toolManager.brushHardness
      else s.processor.repairAlongPath s.pointer.m_lastDrawPos imagePos brushSize
    { s with
      canvas := s.canvas.updateRegion processor dirtyRect
      pointer := { s.pointer with m_lastDrawPos := imagePos }
      processor := processor }
  else s

/-- The method `CanvasWidget::mouseReleaseEvent`. -/
def Editor.mouseReleaseEvent (s : Editor) (ev : MouseEvent) : Editor :=
  let s :=
    if s.pointer.m_isPanning then
      { s with
        pointer := { s.pointer with m_isPanning := false }
        canvas :=
          if s.canvas.m_isLargeImage then s.canvas.renderVisibleArea s.processor ev.view
          else s.canvas }
    else s
  if s.pointer.m_isDrawing then
    { s with
      pointer := { s.pointer with m_isDrawing := false }
      historyManager := s.historyManager.saveState s.processor }
  else s

/-- A sequence of pointer-move events, in order. -/
def Editor.moves (s : Editor) (evs : List MouseEvent) : Editor :=
  evs.foldl Editor.mouseMoveEvent s

/-- A stroke: a pointer-down, the pointer-move events, a pointer-up. -/
def Editor.stroke (cvt : Vec4b → Vec3b) (s : Editor) (down : MouseEvent)
    (moves : List MouseEvent) (up : MouseEvent) : Editor :=
  ((s.mousePressEvent cvt down).moves moves).mouseReleaseEvent up

/-! ## Sample data for evaluations -/

/-- A 1x1 image: one black pixel of alpha `a`. -/
def dot (a : uchar) : Mat := ⟨1, 1, [⟨0, 0, 0, a⟩]⟩

/-- A processor whose current buffer is `dot a` (loaded from `dot 255`). -/
def dotProcessor (a : uchar) : ImageProcessor :=
  ⟨dot 255, dot a, ⟨1, 1, [⟨0, 0, 0⟩]⟩, false⟩

/-- A stand-in for the Lab conversion in evaluations. -/
def cvtSample (v : Vec4b) : Vec3b := ⟨v.c2, v.c1, v.c0⟩

/-- Opaque red (B, G, R, A). -/
def red : Vec4b := ⟨0, 0, 255, 255⟩

/-- Opaque blue (B, G, R, A). -/
def blue : Vec4b := ⟨255, 0, 0, 255⟩

/-- A 3x3 image: a red corner region, a blue diagonal, a second red region. -/
def sampleImage : Mat := ⟨3, 3, [red, red, blue, red, blue, red, blue, red, red]⟩

/-- The processor right after `sampleImage` was loaded. -/
def sampleProcessor : ImageProcessor :=
  ⟨sampleImage, sampleImage, cvtColorLab cvtSample sampleImage, false⟩

/-- Twelve captured states, the 1x1 images of alpha 1 to 12. -/
def twelveStates : List ImageProcessor :=
  [dotProcessor 1, dotProcessor 2, dotProcessor 3, dotProcessor 4, dotProcessor 5,
    dotProcessor 6, dotProcessor 7, dotProcessor 8, dotProcessor 9, dotProcessor 10,
    dotProcessor 11, dotProcessor 12]

/-- Four snapshots of 1 GiB each. -/
def fourLarge : HistoryManager :=
  ⟨true, [⟨dot 1, 1073741824⟩, ⟨dot 2, 1073741824⟩, ⟨dot 3, 1073741824⟩,
    ⟨dot 4, 1073741824⟩], 3⟩

/-- A history of three 1x1 snapshots with the cursor in the middle. -/
def threeDots : HistoryManager := ⟨true, [snapshotOf (dotProcessor 10),
  snapshotOf (dotProcessor 20), snapshotOf (dotProcessor 30)], 1⟩

/-- A history of three 1x1 snapshots with the cursor on the first. -/
def threeDotsAtStart : HistoryManager := ⟨true, [snapshotOf (dotProcessor 10),
  snapshotOf (dotProcessor 20), snapshotOf (dotProcessor 30)], 0⟩

/-- The processor after `ImageProcessor::clear()`: no image loaded. -/
def noImage : ImageProcessor := ⟨Mat.nil, Mat.nil, Mat3.nil, false⟩

/-- A cross-shaped structuring element, for evaluations. -/
def crossKernel (_size : Int) : List (Int × Int) := [(0, 0), (0, 1), (1, 0), (0, -1), (-1, 0)]

/-- A stand-in for the Gaussian blur in evaluations: a constant plane. -/
def blurSample (_src : Plane) (_size : Int) : Plane := fun _ _ => 100

/-- A 3x3 image with one transparent corner pixel. -/
def cornerImage : Mat :=
  ⟨3, 3, [⟨0, 0, 255, 0⟩, red, red, red, red, red, red, red, red]⟩

/-- A 1x1 image whose four channels are 254, as current and original buffer. -/
def greyProcessor : ImageProcessor :=
  ⟨⟨1, 1, [⟨254, 254, 254, 254⟩]⟩, ⟨1, 1, [⟨254, 254, 254, 254⟩]⟩, ⟨1, 1, [⟨0, 0, 0⟩]⟩,
    false⟩

/-- A canvas with a processor attached and nothing cached. -/
def freshCanvas : CanvasWidget := ⟨true, QImage.null, false, QRect.null, 0⟩

/-- A processor holding an opaque red image of 4000 x 3000 pixels, large
enough for incremental rendering. -/
def largeProcessor : ImageProcessor := ImageProcessor.loadedUniform cvtSample 3000 4000 red

/-- The view of the top left 800 x 600 pixels. -/
def viewTopLeft : ViewState := ⟨⟨0, 0⟩, ⟨800, 600⟩⟩

/-- The view of the bottom right 800 x 600 pixels of a 4000 x 3000 image. -/
def viewBottomRight : ViewState := ⟨⟨3200, 2400⟩, ⟨4000, 3000⟩⟩

/-- A 3x3 canvas in incremental mode after one render of the whole image. -/
def coveredCanvas : CanvasWidget :=
  ⟨true, sampleProcessor.updateDisplayRegion (QImage.transparent 3 3) ⟨0, 0, 2, 2⟩, true,
    ⟨0, 0, 2, 2⟩, 1⟩

/-- A 1x2 image of two opaque red pixels. -/
def twoRed : Mat := ⟨1, 2, [red, red]⟩

/-- The processor right after the 1x1 image of value 254 in all four channels
was loaded. -/
def greyLoaded : ImageProcessor :=
  (ImageProcessor.loadImage cvtSample noImage ⟨1, 1, [⟨254, 254, 254, 254⟩]⟩).2

/-- A row of 33 opaque black pixels, loaded. -/
def stripProcessor : ImageProcessor := ImageProcessor.loadedUniform cvtSample 1 33 ⟨0, 0, 0, 255⟩

/-- The literal `0.5f`. -/
def half : F32 := ⟨1, -1⟩

/-- Two rows of 11 opaque black pixels, loaded. -/
def bandProcessor : ImageProcessor := ImageProcessor.loadedUniform cvtSample 2 11 ⟨0, 0, 0, 255⟩

/-- The pointer mode with no button and no key held. -/
def idlePointer : PointerState := ⟨false, false, false, false, ⟨0, 0⟩⟩

/-- The editor right after `sampleImage` was loaded: the display buffer is
rendered in full, the history holds the initial snapshot, the eraser is
selected with brush size `size` and hardness 1.0. -/
def eraserEditor (size : Int) : Editor :=
  { canvas := freshCanvas.rebuildFullCache sampleProcessor
    pointer := idlePointer
    toolManager := ⟨Tool.ManualErase, size, 50, F32.one⟩
    historyManager := (HistoryManager.mk true [] (-1)).saveInitialState sampleProcessor
    processor := sampleProcessor }

/-- A view that shows the whole of a 3x3 image. -/
def viewAll : ViewState := ⟨⟨0, 0⟩, ⟨3, 3⟩⟩

/-- A left-button event at the image position `(x, y)`. -/
def leftAt (x y : Int) : MouseEvent := ⟨MouseButton.LeftButton, false, ⟨x, y⟩, viewAll⟩

/-! ## Lemmas on trimming -/

theorem trimCount_eq (l : List HistoryState) (idx : Int) :
    trimCount l idx =
      (l.drop (l.length - MAX_HISTORY), idx - ((l.length - MAX_HISTORY : Nat) : Int)) := by
  induction l generalizing idx with
  | nil => simp [trimCount]
  | cons s rest ih =>
    unfold trimCount
    by_cases hlen : (s :: rest).length > MAX_HISTORY
    · rw [if_pos hlen, ih]
      simp only [List.length_cons, MAX_HISTORY] at hlen ⊢
      have h1 : rest.length + 1 - 10 = (rest.length - 10) + 1 := by omega
      rw [h1, List.drop_succ_cons]
      congr 1
      push_cast
      omega
    · rw [if_neg hlen]
      have h0 : (s :: rest).length - MAX_HISTORY = 0 := by omega
      rw [h0]
      simp

theorem trimMemory_spec (l : List HistoryState) (idx : Int) :
    ∃ d : Nat, trimMemory l idx = (l.drop d, idx - (d : Int)) ∧ d ≤ l.length - 3 ∧
      (3 < (l.drop d).length → memoryUsage (l.drop d) ≤ maxBytes) ∧
      (memoryUsage l ≤ maxBytes → d = 0) := by
  induction l generalizing idx with
  | nil => exact ⟨0, by simp [trimMemory]⟩
  | cons s rest ih =>
    unfold trimMemory
    by_cases hc : memoryUsage (s :: rest) > maxBytes ∧ (s :: rest).length > 3
    · rw [if_pos hc]
      obtain ⟨d, hd, hle, hmem, _⟩ := ih (idx - 1)
      refine ⟨d + 1, ?_, ?_, ?_, ?_⟩
      · rw [hd, List.drop_succ_cons]
        congr 1
        push_cast
        omega
      · have := hc.2
        simp only [List.length_cons] at this ⊢
        omega
      · simpa [List.drop_succ_cons] using hmem
      · intro hm
        omega
    · rw [if_neg hc]
      refine ⟨0, by simp, by simp, ?_, fun _ => rfl⟩
      intro h3
      simp only [List.drop_zero] at h3 ⊢
      by_contra hgt
      exact hc ⟨by omega, h3⟩

theorem trimHistory_spec (h : HistoryManager) :
    ∃ d : Nat, d ≤ h.m_history.length - 3 ∧
      (h.trimHistory).m_history = h.m_history.drop d ∧
      (h.trimHistory).m_currentIndex = max 0 (h.m_currentIndex - (d : Int)) ∧
      (h.trimHistory).m_processor = h.m_processor ∧
      (h.m_history.length - MAX_HISTORY ≤ d) ∧
      (3 < (h.m_history.drop d).length → memoryUsage (h.m_history.drop d) ≤ maxBytes) ∧
      (memoryUsage (h.m_history.drop (h.m_history.length - MAX_HISTORY)) ≤ maxBytes →
        d = h.m_history.length - MAX_HISTORY) := by
  obtain ⟨d2, hd2, hle2, hmem2, hzero2⟩ :=
    trimMemory_spec (h.m_history.drop (h.m_history.length - MAX_HISTORY))
      (h.m_currentIndex - ((h.m_history.length - MAX_HISTORY : Nat) : Int))
  refine ⟨(h.m_history.length - MAX_HISTORY) + d2, ?_, ?_, ?_, rfl, by omega, ?_, ?_⟩
  · simp only [List.length_drop, MAX_HISTORY] at hle2 ⊢
    omega
  · simp only [HistoryManager.trimHistory, trimCount_eq, hd2, List.drop_drop]
  · simp only [HistoryManager.trimHistory, trimCount_eq, hd2]
    congr 1
    push_cast
    omega
  · have e : h.m_history.drop ((h.m_history.length - MAX_HISTORY) + d2) =
        (h.m_history.drop (h.m_history.length - MAX_HISTORY)).drop d2 := by
      rw [List.drop_drop]
    rw [e]
    exact hmem2
  · intro hm
    rw [hzero2 hm]
    rfl

theorem memoryUsage_eq_sum (l : List HistoryState) :
    memoryUsage l = (l.map HistoryState.memorySize).sum := by
  unfold memoryUsage
  have gen : ∀ (l : List HistoryState) (a : Nat),
      l.foldl (fun total state => total + state.memorySize) a =
        a + (l.map HistoryState.memorySize).sum := by
    intro l
    induction l with
    | nil => intro a; simp
    | cons s rest ih =>
      intro a
      simp only [List.foldl_cons, List.map_cons, List.sum_cons, ih]
      omega
  simpa using gen l 0

theorem memoryUsage_append (l1 l2 : List HistoryState) :
    memoryUsage (l1 ++ l2) = memoryUsage l1 + memoryUsage l2 := by
  simp [memoryUsage_eq_sum]

theorem memoryUsage_drop_le (l : List HistoryState) (d : Nat) :
    memoryUsage (l.drop d) ≤ memoryUsage l := by
  conv_rhs => rw [← List.take_append_drop d l]
  rw [memoryUsage_append]
  omega

theorem memoryUsage_take_le (l : List HistoryState) (d : Nat) :
    memoryUsage (l.take d) ≤ memoryUsage l := by
  conv_rhs => rw [← List.take_append_drop d l]
  rw [memoryUsage_append]
  omega

theorem HistoryManager.eq_of_fields (a b : HistoryManager)
    (h1 : a.m_processor = b.m_processor) (h2 : a.m_history = b.m_history)
    (h3 : a.m_currentIndex = b.m_currentIndex) : a = b := by
  cases a
  cases b
  simp_all

theorem trimHistory_eq_of_mem (h : HistoryManager)
    (hmem : memoryUsage (h.m_history.drop (h.m_history.length - MAX_HISTORY)) ≤ maxBytes) :
    h.trimHistory =
      ⟨h.m_processor, h.m_history.drop (h.m_history.length - MAX_HISTORY),
        max 0 (h.m_currentIndex - ((h.m_history.length - MAX_HISTORY : Nat) : Int))⟩ := by
  obtain ⟨d, -, hhist, hcur, hp, -, -, hd⟩ := trimHistory_spec h
  have hd1 := hd hmem
  subst hd1
  exact HistoryManager.eq_of_fields _ _ hp hhist hcur

/-! ## The cursor invariant -/

theorem eraseRedoTail_length (hist : List HistoryState) (idx : Int)
    (h1 : -1 ≤ idx) (h2 : idx ≤ (hist.length : Int) - 1) :
    ((eraseRedoTail hist idx).length : Int) = idx + 1 := by
  unfold eraseRedoTail
  split
  · rw [List.length_take]
    omega
  · omega

theorem eraseRedoTail_eq_take (hist : List HistoryState) (idx : Int)
    (h2 : idx ≤ (hist.length : Int) - 1) :
    eraseRedoTail hist idx = hist.take (idx + 1).toNat := by
  unfold eraseRedoTail
  split
  · rfl
  · rw [List.take_of_length_le]
    omega

theorem Inv_trimHistory_tail (h : HistoryManager) (hne : h.m_history ≠ [])
    (hidx : h.m_currentIndex = (h.m_history.length : Int) - 1) :
    (h.trimHistory).m_history ≠ [] ∧
      (h.trimHistory).m_currentIndex = ((h.trimHistory).m_history.length : Int) - 1 := by
  obtain ⟨d, hd, hhist, hcur, -⟩ := trimHistory_spec h
  have hpos : 0 < h.m_history.length := List.length_pos.mpr hne
  have hlen : (h.trimHistory).m_history.length = h.m_history.length - d := by
    rw [hhist, List.length_drop]
  constructor
  · intro hnil
    rw [hnil] at hlen
    simp only [List.length_nil] at hlen
    omega
  · rw [hcur, hlen, hidx]
    omega

theorem Inv_of_tail (h : HistoryManager) (hne : h.m_history ≠ [])
    (hidx : h.m_currentIndex = (h.m_history.length : Int) - 1) : h.Inv := by
  have hpos : 0 < h.m_history.length := List.length_pos.mpr hne
  refine ⟨by omega, by omega, ?_⟩
  constructor
  · intro h1
    omega
  · intro h1
    exact absurd h1 hne

theorem Inv_saveState (h : HistoryManager) (p : ImageProcessor) (hi : h.Inv) :
    (h.saveState p).Inv := by
  unfold HistoryManager.saveState
  split
  · exact hi
  · have := Inv_trimHistory_tail
      { h with
        m_history := eraseRedoTail h.m_history h.m_currentIndex ++
          [⟨p.captureState, p.captureState.total * p.captureState.elemSize⟩],
        m_currentIndex := ((eraseRedoTail h.m_history h.m_currentIndex ++
          [(⟨p.captureState, p.captureState.total * p.captureState.elemSize⟩ :
            HistoryState)]).length : Int) - 1 }
      (by simp) rfl
    exact Inv_of_tail _ this.1 this.2

theorem Inv_saveStateBeforeChange (h : HistoryManager) (p : ImageProcessor) (hi : h.Inv) :
    (h.saveStateBeforeChange p).Inv := by
  unfold HistoryManager.saveStateBeforeChange
  split
  · exact hi
  · obtain ⟨h1, h2, h3⟩ := hi
    have hl := eraseRedoTail_length h.m_history h.m_currentIndex h1 h2
    refine ⟨h1, ?_, ?_⟩
    · simp only
      omega
    · simp only
      constructor
      · intro e
        exact List.length_eq_zero.mp (by omega)
      · intro e
        rw [e] at hl
        simp only [List.length_nil] at hl
        omega

theorem Inv_saveInitialState (h : HistoryManager) (p : ImageProcessor) (hi : h.Inv) :
    (h.saveInitialState p).Inv := by
  unfold HistoryManager.saveInitialState
  split
  · exact hi
  · exact Inv_of_tail _ (by simp) (by simp)

theorem historyAt_isSome (hist : List HistoryState) (i : Int) (h0 : 0 ≤ i)
    (h1 : i ≤ (hist.length : Int) - 1) : ∃ s, historyAt hist i = some s := by
  unfold historyAt
  rw [if_pos h0]
  have hlt : i.toNat < hist.length := by omega
  exact ⟨hist[i.toNat], List.getElem?_eq_getElem hlt⟩

theorem undo_Inv (cvt : Vec4b → Vec3b) (h : HistoryManager) (p : ImageProcessor)
    (hi : h.Inv) : ∃ r, h.undo cvt p = some r ∧ r.1.Inv := by
  unfold HistoryManager.undo
  split
  · exact ⟨(h, p), rfl, hi⟩
  · rename_i hg
    simp only [HistoryManager.canUndo, Bool.or_eq_true, Bool.not_eq_true', decide_eq_false_iff_not,
      not_or, not_not, Bool.not_eq_false] at hg
    obtain ⟨h1, h2, h3⟩ := hi
    obtain ⟨s, hs⟩ := historyAt_isSome h.m_history (h.m_currentIndex - 1) (by omega) (by omega)
    simp only [hs]
    refine ⟨_, rfl, by simp only; omega, by simp only; omega, ?_⟩
    simp only
    constructor
    · intro e
      omega
    · intro e
      rw [e] at h2
      simp only [List.length_nil] at h2
      omega

theorem redo_Inv (cvt : Vec4b → Vec3b) (h : HistoryManager) (p : ImageProcessor)
    (hi : h.Inv) : ∃ r, h.redo cvt p = some r ∧ r.1.Inv := by
  unfold HistoryManager.redo
  split
  · exact ⟨(h, p), rfl, hi⟩
  · rename_i hg
    simp only [HistoryManager.canRedo, Bool.or_eq_true, Bool.not_eq_true', decide_eq_false_iff_not,
      not_or, not_not, Bool.not_eq_false] at hg
    obtain ⟨h1, h2, h3⟩ := hi
    obtain ⟨s, hs⟩ := historyAt_isSome h.m_history (h.m_currentIndex + 1) (by omega) (by omega)
    simp only [hs]
    refine ⟨_, rfl, by simp only; omega, by simp only; omega, ?_⟩
    simp only
    constructor
    · intro e
      omega
    · intro e
      rw [e] at hg
      simp only [List.length_nil] at hg
      omega

theorem apply_Inv (cvt : Vec4b → Vec3b) (op : HistoryOp) (s : Session)
    (hi : s.history.Inv) : ∃ s1, op.apply cvt s = some s1 ∧ s1.history.Inv := by
  cases op with
  | saveInitialState => exact ⟨_, rfl, Inv_saveInitialState _ _ hi⟩
  | saveStateBeforeChange => exact ⟨_, rfl, Inv_saveStateBeforeChange _ _ hi⟩
  | saveState => exact ⟨_, rfl, Inv_saveState _ _ hi⟩
  | undo =>
    obtain ⟨r, hr, hinv⟩ := undo_Inv cvt s.history s.processor hi
    exact ⟨⟨r.1, r.2⟩, by simp [HistoryOp.apply, hr], hinv⟩
  | redo =>
    obtain ⟨r, hr, hinv⟩ := redo_Inv cvt s.history s.processor hi
    exact ⟨⟨r.1, r.2⟩, by simp [HistoryOp.apply, hr], hinv⟩
  | clear =>
    refine ⟨_, rfl, ?_⟩
    simp [HistoryManager.Inv, HistoryManager.clear]
  | setImageProcessor attached => exact ⟨_, rfl, hi⟩
  | edit p => exact ⟨_, rfl, hi⟩

theorem runOps_Inv (cvt : Vec4b → Vec3b) (ops : List HistoryOp) (s : Session)
    (hi : s.history.Inv) : ∃ s1, runOps cvt ops s = some s1 ∧ s1.history.Inv := by
  induction ops generalizing s with
  | nil => exact ⟨s, rfl, hi⟩
  | cons op ops ih =>
    obtain ⟨s1, h1, hinv1⟩ := apply_Inv cvt op s hi
    obtain ⟨s2, h2, hinv2⟩ := ih s1 hinv1
    exact ⟨s2, by simp [runOps, h1, h2], hinv2⟩

/-! ## Runs of saves -/

theorem saveState_eq_of_tail (h : HistoryManager) (p : ImageProcessor)
    (hproc : h.m_processor = true) (himg : p.hasImage = true)
    (hidx : h.m_currentIndex = (h.m_history.length : Int) - 1)
    (hmem : memoryUsage ((h.m_history ++ [snapshotOf p]).drop
      (h.m_history.length + 1 - MAX_HISTORY)) ≤ maxBytes) :
    h.saveState p =
      ⟨true, (h.m_history ++ [snapshotOf p]).drop (h.m_history.length + 1 - MAX_HISTORY),
        (((h.m_history ++ [snapshotOf p]).drop
          (h.m_history.length + 1 - MAX_HISTORY)).length : Int) - 1⟩ := by
  have htail : eraseRedoTail h.m_history h.m_currentIndex = h.m_history := by
    unfold eraseRedoTail
    rw [if_neg (by omega)]
  unfold HistoryManager.saveState
  rw [if_neg (by simp [hproc, himg])]
  simp only [htail]
  rw [trimHistory_eq_of_mem]
  · apply HistoryManager.eq_of_fields
    · exact hproc
    · simp [snapshotOf]
    · simp only [List.length_drop, List.length_append, List.length_singleton, MAX_HISTORY]
      omega
  · simpa [snapshotOf] using hmem

theorem retained_snoc (ps : List ImageProcessor) (p : ImageProcessor) :
    (retained ps ++ [snapshotOf p]).drop ((retained ps).length + 1 - MAX_HISTORY) =
      retained (ps ++ [p]) := by
  unfold retained
  simp only [List.length_drop, List.length_map, List.map_append, List.map_cons, List.map_nil,
    List.length_append, List.length_singleton, MAX_HISTORY]
  rw [List.drop_append_of_le_length (by simp), List.drop_drop,
    List.drop_append_of_le_length (by simp)]
  congr 2
  omega

theorem saveEdits_eq (ps : List ImageProcessor)
    (himg : ∀ p ∈ ps, p.hasImage = true) (hmem : memoryCapNotReached ps) :
    saveEdits ⟨true, [], -1⟩ ps = ⟨true, retained ps, ((retained ps).length : Int) - 1⟩ := by
  induction ps using List.reverseRecOn with
  | nil => simp [saveEdits, retained]
  | append_singleton ps p ih =>
    have himg1 : ∀ q ∈ ps, q.hasImage = true := fun q hq => himg q (by simp [hq])
    have hmem1 : memoryCapNotReached ps := by
      intro j hj
      have := hmem j (by simp; omega)
      rwa [List.take_append_of_le_length hj] at this
    have hlast : memoryUsage (retained (ps ++ [p])) ≤ maxBytes := by
      have := hmem (ps ++ [p]).length le_rfl
      rwa [List.take_length] at this
    have e : saveEdits ⟨true, [], -1⟩ (ps ++ [p]) =
        (saveEdits ⟨true, [], -1⟩ ps).saveState p := by
      simp [saveEdits, List.foldl_append]
    rw [e, ih himg1 hmem1, saveState_eq_of_tail _ _ rfl (himg p (by simp)) rfl]
    · simp only [retained_snoc]
    · simpa only [retained_snoc] using hlast

/-! ## Undo and redo, once and repeated -/

theorem restoreState_current (cvt : Vec4b → Vec3b) (p : ImageProcessor) (m : Mat) :
    (p.restoreState cvt m).m_currentImage = m := by
  unfold ImageProcessor.restoreState ImageProcessor.updateLabCache
  split <;> rfl

theorem restoreState_original (cvt : Vec4b → Vec3b) (p : ImageProcessor) (m : Mat) :
    (p.restoreState cvt m).m_originalImage = p.m_originalImage := by
  unfold ImageProcessor.restoreState ImageProcessor.updateLabCache
  split <;> rfl

theorem undo_eq (cvt : Vec4b → Vec3b) (h : HistoryManager) (p : ImageProcessor)
    (hproc : h.m_processor = true) (h0 : 0 < h.m_currentIndex)
    (h1 : h.m_currentIndex ≤ (h.m_history.length : Int) - 1) :
    ∃ s, historyAt h.m_history (h.m_currentIndex - 1) = some s ∧
      h.undo cvt p =
        some ({ h with m_currentIndex := h.m_currentIndex - 1 },
          p.restoreState cvt s.imageState) := by
  obtain ⟨s, hs⟩ := historyAt_isSome h.m_history (h.m_currentIndex - 1) (by omega) (by omega)
  refine ⟨s, hs, ?_⟩
  unfold HistoryManager.undo
  rw [if_neg (by simp [HistoryManager.canUndo, hproc, h0])]
  simp only [hs]

theorem redo_eq (cvt : Vec4b → Vec3b) (h : HistoryManager) (p : ImageProcessor)
    (hproc : h.m_processor = true) (h0 : -1 ≤ h.m_currentIndex)
    (h1 : h.m_currentIndex < (h.m_history.length : Int) - 1) :
    ∃ s, historyAt h.m_history (h.m_currentIndex + 1) = some s ∧
      h.redo cvt p =
        some ({ h with m_currentIndex := h.m_currentIndex + 1 },
          p.restoreState cvt s.imageState) := by
  obtain ⟨s, hs⟩ := historyAt_isSome h.m_history (h.m_currentIndex + 1) (by omega) (by omega)
  refine ⟨s, hs, ?_⟩
  unfold HistoryManager.redo
  rw [if_neg (by simp [HistoryManager.canRedo, hproc, h1])]
  simp only [hs]

theorem undoN_spec (cvt : Vec4b → Vec3b) (n : Nat) :
    ∀ (h : HistoryManager) (p : ImageProcessor), h.m_processor = true →
      ((n : Int) + 1 ≤ h.m_currentIndex) →
      h.m_currentIndex ≤ (h.m_history.length : Int) - 1 →
      ∃ s q, historyAt h.m_history (h.m_currentIndex - ((n : Int) + 1)) = some s ∧
        undoN cvt (n + 1) h p =
          some ({ h with m_currentIndex := h.m_currentIndex - ((n : Int) + 1) }, q) ∧
        q.m_currentImage = s.imageState := by
  induction n with
  | zero =>
    intro h p hproc h0 h1
    obtain ⟨s, hs, hu⟩ := undo_eq cvt h p hproc (by omega) h1
    refine ⟨s, p.restoreState cvt s.imageState, by simpa using hs, ?_, restoreState_current _ _ _⟩
    simp [undoN, hu]
  | succ n ih =>
    intro h p hproc h0 h1
    obtain ⟨s, hs, hu⟩ := undo_eq cvt h p hproc (by omega) h1
    obtain ⟨s2, q, hs2, hrun, hq⟩ := ih { h with m_currentIndex := h.m_currentIndex - 1 }
      (p.restoreState cvt s.imageState) hproc (by simp only; push_cast at h0; omega)
      (by simp only; omega)
    simp only at hs2 hrun
    have e : h.m_currentIndex - 1 - ((n : Int) + 1) = h.m_currentIndex - (((n + 1 : Nat) : Int) + 1) := by
      push_cast
      omega
    rw [e] at hs2 hrun
    refine ⟨s2, q, hs2, ?_, hq⟩
    rw [undoN, hu]
    exact hrun

theorem redoN_spec (cvt : Vec4b → Vec3b) (n : Nat) :
    ∀ (h : HistoryManager) (p : ImageProcessor), h.m_processor = true →
      -1 ≤ h.m_currentIndex →
      h.m_currentIndex + ((n : Int) + 1) ≤ (h.m_history.length : Int) - 1 →
      ∃ s q, historyAt h.m_history (h.m_currentIndex + ((n : Int) + 1)) = some s ∧
        redoN cvt (n + 1) h p =
          some ({ h with m_currentIndex := h.m_currentIndex + ((n : Int) + 1) }, q) ∧
        q.m_currentImage = s.imageState := by
  induction n with
  | zero =>
    intro h p hproc h0 h1
    obtain ⟨s, hs, hu⟩ := redo_eq cvt h p hproc h0 (by omega)
    refine ⟨s, p.restoreState cvt s.imageState, by simpa using hs, ?_, restoreState_current _ _ _⟩
    simp [redoN, hu]
  | succ n ih =>
    intro h p hproc h0 h1
    obtain ⟨s, hs, hu⟩ := redo_eq cvt h p hproc h0 (by push_cast at h1; omega)
    obtain ⟨s2, q, hs2, hrun, hq⟩ := ih { h with m_currentIndex := h.m_currentIndex + 1 }
      (p.restoreState cvt s.imageState) hproc (by simp only; omega)
      (by simp only; push_cast at h1; omega)
    simp only at hs2 hrun
    have e : h.m_currentIndex + 1 + ((n : Int) + 1) = h.m_currentIndex + (((n + 1 : Nat) : Int) + 1) := by
      push_cast
      omega
    rw [e] at hs2 hrun
    refine ⟨s2, q, hs2, ?_, hq⟩
    rw [redoN, hu]
    exact hrun

theorem saveInitialState_eq (h0 : HistoryManager) (p0 : ImageProcessor)
    (hproc : h0.m_processor = true) (himg0 : p0.hasImage = true) :
    h0.saveInitialState p0 = ⟨true, [snapshotOf p0], 0⟩ := by
  unfold HistoryManager.saveInitialState
  rw [if_neg (by simp [hproc, himg0])]
  exact HistoryManager.eq_of_fields _ _ hproc rfl rfl

theorem retained_eq_of_le (ps : List ImageProcessor) (h : ps.length ≤ MAX_HISTORY) :
    retained ps = ps.map snapshotOf := by
  unfold retained
  rw [Nat.sub_eq_zero_of_le h, List.drop_zero]

theorem memoryCapNotReached_of_total (ps : List ImageProcessor)
    (h : memoryUsage (ps.map snapshotOf) ≤ maxBytes) : memoryCapNotReached ps := by
  intro j _
  unfold retained
  calc memoryUsage (((ps.take j).map snapshotOf).drop ((ps.take j).length - MAX_HISTORY))
      ≤ memoryUsage ((ps.take j).map snapshotOf) := memoryUsage_drop_le _ _
    _ = memoryUsage ((ps.map snapshotOf).take j) := by rw [List.map_take]
    _ ≤ memoryUsage (ps.map snapshotOf) := memoryUsage_take_le _ _
    _ ≤ maxBytes := h

theorem saveEdits_after_initial (h0 : HistoryManager) (p0 : ImageProcessor)
    (ps : List ImageProcessor)
    (hproc : h0.m_processor = true) (himg0 : p0.hasImage = true)
    (himg : ∀ p ∈ ps, p.hasImage = true) (hN : ps.length + 1 ≤ MAX_HISTORY)
    (hmem : memoryUsage ((p0 :: ps).map snapshotOf) ≤ maxBytes) :
    saveEdits (h0.saveInitialState p0) ps =
      ⟨true, (p0 :: ps).map snapshotOf, (ps.length : Int)⟩ := by
  have hall : ∀ p ∈ p0 :: ps, p.hasImage = true := by
    intro p hp
    rcases List.mem_cons.mp hp with rfl | hp
    · exact himg0
    · exact himg p hp
  have hcap := memoryCapNotReached_of_total (p0 :: ps) hmem
  have hfull := saveEdits_eq (p0 :: ps) hall hcap
  have hone : saveEdits ⟨true, [], -1⟩ [p0] = ⟨true, [snapshotOf p0], 0⟩ := by
    have h1 := hcap 1 (by simp)
    have := saveState_eq_of_tail ⟨true, [], -1⟩ p0 rfl himg0 (by simp)
      (by simpa [retained, MAX_HISTORY] using h1)
    simpa [saveEdits, MAX_HISTORY] using this
  have hsplit : saveEdits ⟨true, [], -1⟩ (p0 :: ps) =
      saveEdits (saveEdits ⟨true, [], -1⟩ [p0]) ps := by
    simp [saveEdits]
  rw [saveInitialState_eq h0 p0 hproc himg0, ← hone, ← hsplit, hfull,
    retained_eq_of_le _ (by simpa using hN)]
  simp

/-! ## C1: the cursor stays a valid index -/

/-- C1. After any finite sequence of history calls (saveInitialState,
saveStateBeforeChange, saveState, undo, redo, clear, also interleaved with
setImageProcessor and with arbitrary changes of the image) that starts from the
empty history, no `m_history[...]` access of undo or redo was out of range (the
run yields a state), the cursor satisfies `-1 ≤ idx ≤ size - 1`, and `idx = -1`
exactly when the snapshot sequence is empty. -/
theorem history_cursor_invariant (cvt : Vec4b → Vec3b) (ops : List HistoryOp)
    (attached : Bool) (p0 : ImageProcessor) :
    ∃ s, runOps cvt ops ⟨⟨attached, [], -1⟩, p0⟩ = some s ∧
      -1 ≤ s.history.m_currentIndex ∧
      s.history.m_currentIndex ≤ (s.history.m_history.length : Int) - 1 ∧
      (s.history.m_currentIndex = -1 ↔ s.history.m_history = []) :=
  runOps_Inv cvt ops ⟨⟨attached, [], -1⟩, p0⟩ (by simp [HistoryManager.Inv])

/-! ## C2: undo and redo round trip -/

/-- C2 (amended). For every N with 1 ≤ N ≤ 9: after saveInitialState on the
loaded image and N edits each completed by saveState, with the N+1 snapshots
together within the memory cap, N calls of undo succeed and leave the
current buffer equal to the initially loaded buffer, and N calls of redo after
them leave it equal to the buffer after the last edit. -/
theorem undo_redo_round_trip (cvt : Vec4b → Vec3b) (h0 : HistoryManager)
    (p0 : ImageProcessor) (ps : List ImageProcessor) (pN : ImageProcessor)
    (hproc : h0.m_processor = true) (himg0 : p0.hasImage = true)
    (himg : ∀ p ∈ ps, p.hasImage = true) (hlast : ps.getLast? = some pN)
    (hN : ps.length ≤ 9)
    (hmem : memoryUsage ((p0 :: ps).map snapshotOf) ≤ maxBytes) :
    ∃ hu pu hr pr,
      undoN cvt ps.length (saveEdits (h0.saveInitialState p0) ps) pN = some (hu, pu) ∧
      pu.m_currentImage = p0.m_currentImage ∧
      redoN cvt ps.length hu pu = some (hr, pr) ∧
      pr.m_currentImage = pN.m_currentImage := by
  rw [saveEdits_after_initial h0 p0 ps hproc himg0 himg (by simp [MAX_HISTORY]; omega) hmem]
  obtain ⟨qs, hqs⟩ := List.getLast?_eq_some_iff.mp hlast
  have hlen : ps.length = qs.length + 1 := by simp [hqs]
  obtain ⟨s, pu, hs, hrun, hpu⟩ := undoN_spec cvt qs.length
    ⟨true, (p0 :: ps).map snapshotOf, (ps.length : Int)⟩ pN rfl
    (by simp only [hlen]; push_cast; omega) (by simp)
  simp only [hlen] at hs hrun
  have hz : ((qs.length + 1 : Nat) : Int) - ((qs.length : Int) + 1) = 0 := by
    push_cast
    omega
  rw [hz] at hs hrun
  have hs0 : s = snapshotOf p0 := by
    simp [historyAt] at hs
    exact hs.symm
  obtain ⟨s2, pr, hs2, hrun2, hpr⟩ := redoN_spec cvt qs.length
    ⟨true, (p0 :: ps).map snapshotOf, 0⟩ pu rfl (by simp)
    (by simp only [List.length_map, List.length_cons, hlen]; push_cast; omega)
  have hsN : s2 = snapshotOf pN := by
    have e : (p0 :: ps).map snapshotOf = (p0 :: qs).map snapshotOf ++ [snapshotOf pN] := by
      simp [hqs]
    have e2 : ((0 : Int) + ((qs.length : Int) + 1)).toNat = ((p0 :: qs).map snapshotOf).length := by
      simp
    simp only [historyAt] at hs2
    rw [if_pos (by omega), e2, e, List.getElem?_concat_length] at hs2
    exact (Option.some.inj hs2).symm
  have r1 : pu.m_currentImage = p0.m_currentImage := by
    rw [hpu, hs0]
    rfl
  have r2 : pr.m_currentImage = pN.m_currentImage := by
    rw [hpr, hsN]
    rfl
  rw [hlen]
  exact ⟨_, pu, _, pr, hrun, r1, hrun2, r2⟩

/-- Witness of C2 (amended): one edit, one undo, one redo on 1x1 images. -/
theorem undo_redo_round_trip_witness :
    ∃ hu pu hr pr,
      undoN cvtSample 1
        (saveEdits (HistoryManager.saveInitialState ⟨true, [], -1⟩ (dotProcessor 200))
          [dotProcessor 0]) (dotProcessor 0) = some (hu, pu) ∧
      pu.m_currentImage = dot 200 ∧
      redoN cvtSample 1 hu pu = some (hr, pr) ∧
      pr.m_currentImage = dot 0 :=
  undo_redo_round_trip cvtSample ⟨true, [], -1⟩ (dotProcessor 200) [dotProcessor 0]
    (dotProcessor 0) rfl (by decide) (by decide) rfl (by decide) (by decide)

/-- C2 as stated fails at N = 10: after saveInitialState and ten saved edits
(eleven snapshots of 4 bytes each, far below the memory cap), ten calls of undo
leave the buffer of the first edit, not the initially loaded buffer. -/
theorem undo_ten_misses_initial :
    memoryUsage ((dotProcessor 0 ::
      [dotProcessor 1, dotProcessor 2, dotProcessor 3, dotProcessor 4, dotProcessor 5,
        dotProcessor 6, dotProcessor 7, dotProcessor 8, dotProcessor 9,
        dotProcessor 10]).map snapshotOf) ≤ maxBytes ∧
    (undoN cvtSample 10
      (saveEdits (HistoryManager.saveInitialState ⟨true, [], -1⟩ (dotProcessor 0))
        [dotProcessor 1, dotProcessor 2, dotProcessor 3, dotProcessor 4, dotProcessor 5,
          dotProcessor 6, dotProcessor 7, dotProcessor 8, dotProcessor 9, dotProcessor 10])
      (dotProcessor 10)).map (fun r => r.2.m_currentImage) = some (dot 1) ∧
    dot 1 ≠ (dotProcessor 0).m_currentImage := by
  decide

/-! ## C3: the count cap keeps the most recent snapshots -/

/-- C3. Starting from the empty history with an image loaded, after the
states `ps` (k of them) are saved by consecutive saveState calls without the
memory cap being reached, the history holds exactly min(k,10) snapshots, they
are the most recent min(k,10) captured states in capture order, the cursor is
on the newest one, canRedo() is false and undoSteps() = min(k,10) - 1. -/
theorem saveState_keeps_most_recent (ps : List ImageProcessor)
    (himg : ∀ p ∈ ps, p.hasImage = true) (hmem : memoryCapNotReached ps) :
    (saveEdits ⟨true, [], -1⟩ ps).m_history.length = min ps.length 10 ∧
    (saveEdits ⟨true, [], -1⟩ ps).m_history.map HistoryState.imageState =
      (ps.map ImageProcessor.m_currentImage).drop (ps.length - 10) ∧
    (saveEdits ⟨true, [], -1⟩ ps).m_currentIndex =
      ((saveEdits ⟨true, [], -1⟩ ps).m_history.length : Int) - 1 ∧
    (saveEdits ⟨true, [], -1⟩ ps).canRedo = false ∧
    (saveEdits ⟨true, [], -1⟩ ps).undoSteps = ((min ps.length 10 : Nat) : Int) - 1 := by
  rw [saveEdits_eq ps himg hmem]
  have hlen : (retained ps).length = min ps.length 10 := by
    simp only [retained, List.length_drop, List.length_map, MAX_HISTORY]
    omega
  refine ⟨hlen, ?_, rfl, ?_, ?_⟩
  · simp only [retained, MAX_HISTORY, List.map_drop, List.map_map]
    rfl
  · simp [HistoryManager.canRedo]
  · simp only [HistoryManager.undoSteps, hlen]

/-- Witness of C3 at k = 12: ten snapshots are retained, the two oldest are
evicted, canRedo() is false and undoSteps() = 9. -/
theorem saveState_keeps_most_recent_witness :
    (saveEdits ⟨true, [], -1⟩ twelveStates).m_history.length = 10 ∧
    (saveEdits ⟨true, [], -1⟩ twelveStates).m_history.map HistoryState.imageState =
      [dot 3, dot 4, dot 5, dot 6, dot 7, dot 8, dot 9, dot 10, dot 11, dot 12] ∧
    (saveEdits ⟨true, [], -1⟩ twelveStates).canRedo = false ∧
    (saveEdits ⟨true, [], -1⟩ twelveStates).undoSteps = 9 := by
  have h := saveState_keeps_most_recent twelveStates (by decide) (by decide)
  refine ⟨h.1, ?_, h.2.2.2.1, h.2.2.2.2⟩
  rw [h.2.1]
  rfl

/-! ## C4: memory-driven eviction keeps three snapshots -/

/-- C4. For every history that enters trimHistory with at least 3 snapshots,
at least 3 snapshots are left, only oldest snapshots were evicted, and if more
than 3 are left then their byte sizes sum to at most 2048*1024*1024.
trimHistory is a total function: it reports no error. -/
theorem trimHistory_keeps_three (h : HistoryManager) (h3 : 3 ≤ h.m_history.length) :
    3 ≤ (h.trimHistory).m_history.length ∧
    (∃ d, (h.trimHistory).m_history = h.m_history.drop d) ∧
    (3 < (h.trimHistory).m_history.length →
      ((h.trimHistory).m_history.map HistoryState.memorySize).sum ≤ 2048 * 1024 * 1024) := by
  obtain ⟨d, hd, hhist, -, -, -, hmem, -⟩ := trimHistory_spec h
  rw [hhist]
  refine ⟨?_, ⟨d, rfl⟩, ?_⟩
  · rw [List.length_drop]
    omega
  · intro hlt
    have := hmem hlt
    rw [memoryUsage_eq_sum] at this
    exact this

/-- Witness of C4: of four snapshots of 1 GiB each, the oldest is evicted and
three are left although they still exceed the memory cap. -/
theorem trimHistory_keeps_three_witness :
    3 ≤ fourLarge.m_history.length ∧
    (3 ≤ (fourLarge.trimHistory).m_history.length ∧
      (∃ d, (fourLarge.trimHistory).m_history = fourLarge.m_history.drop d) ∧
      (3 < (fourLarge.trimHistory).m_history.length →
        ((fourLarge.trimHistory).m_history.map HistoryState.memorySize).sum ≤
          2048 * 1024 * 1024)) ∧
    (fourLarge.trimHistory).m_history.length = 3 ∧
    (fourLarge.trimHistory).m_currentIndex = 2 :=
  ⟨by decide, trimHistory_keeps_three fourLarge (by decide), by decide, by decide⟩

/-! ## C5: one undo, one redo -/

/-- C5. With the processor attached and the cursor invariant of C1: undo acts
only if idx > 0, and then decrements idx by exactly one and makes the current
buffer a copy of the snapshot at the new idx, with the snapshot sequence
unchanged; redo acts only if idx < size - 1, and then increments idx by
exactly one and makes the current buffer a copy of the snapshot at the new idx;
when the guard fails, each leaves cursor, sequence and buffer as they are. -/
theorem undo_redo_step (cvt : Vec4b → Vec3b) (h : HistoryManager) (p : ImageProcessor)
    (hproc : h.m_processor = true) (hinv : h.Inv) :
    (0 < h.m_currentIndex →
      ∃ s, historyAt h.m_history (h.m_currentIndex - 1) = some s ∧
        h.undo cvt p = some ({ h with m_currentIndex := h.m_currentIndex - 1 },
          p.restoreState cvt s.imageState) ∧
        (p.restoreState cvt s.imageState).m_currentImage = s.imageState) ∧
    (¬ 0 < h.m_currentIndex → h.undo cvt p = some (h, p)) ∧
    (h.m_currentIndex < (h.m_history.length : Int) - 1 →
      ∃ s, historyAt h.m_history (h.m_currentIndex + 1) = some s ∧
        h.redo cvt p = some ({ h with m_currentIndex := h.m_currentIndex + 1 },
          p.restoreState cvt s.imageState) ∧
        (p.restoreState cvt s.imageState).m_currentImage = s.imageState) ∧
    (¬ h.m_currentIndex < (h.m_history.length : Int) - 1 → h.redo cvt p = some (h, p)) := by
  obtain ⟨h1, h2, -⟩ := hinv
  refine ⟨?_, ?_, ?_, ?_⟩
  · intro h0
    obtain ⟨s, hs, hu⟩ := undo_eq cvt h p hproc h0 h2
    exact ⟨s, hs, hu, restoreState_current _ _ _⟩
  · intro h0
    unfold HistoryManager.undo
    rw [if_pos (by simp [HistoryManager.canUndo, h0])]
  · intro h0
    obtain ⟨s, hs, hu⟩ := redo_eq cvt h p hproc h1 h0
    exact ⟨s, hs, hu, restoreState_current _ _ _⟩
  · intro h0
    unfold HistoryManager.redo
    rw [if_pos (by simp [HistoryManager.canRedo, h0])]

/-- Witness of C5: from the middle of three snapshots, undo restores the
first and redo restores the third. -/
theorem undo_redo_step_witness :
    (threeDots.undo cvtSample (dotProcessor 20)).map
        (fun r => (r.1.m_currentIndex, r.1.m_history, r.2.m_currentImage)) =
      some (0, threeDots.m_history, dot 10) ∧
    (threeDots.redo cvtSample (dotProcessor 20)).map
        (fun r => (r.1.m_currentIndex, r.1.m_history, r.2.m_currentImage)) =
      some (2, threeDots.m_history, dot 30) := by
  have h := undo_redo_step cvtSample threeDots (dotProcessor 20) rfl (by decide)
  obtain ⟨s, hs, hu, hc⟩ := h.1 (by decide)
  obtain ⟨s2, hs2, hr, hc2⟩ := h.2.2.1 (by decide)
  have e1 : s = snapshotOf (dotProcessor 10) := by
    have : historyAt threeDots.m_history (threeDots.m_currentIndex - 1) =
      some (snapshotOf (dotProcessor 10)) := by decide
    rw [this] at hs
    exact (Option.some.inj hs).symm
  have e2 : s2 = snapshotOf (dotProcessor 30) := by
    have : historyAt threeDots.m_history (threeDots.m_currentIndex + 1) =
      some (snapshotOf (dotProcessor 30)) := by decide
    rw [this] at hs2
    exact (Option.some.inj hs2).symm
  subst e1 e2
  rw [hu, hr]
  exact ⟨rfl, rfl⟩

/-! ## C6: saveState -/

theorem saveState_shape (h : HistoryManager) (p : ImageProcessor)
    (hproc : h.m_processor = true) (himg : p.hasImage = true)
    (h2 : h.m_currentIndex ≤ (h.m_history.length : Int) - 1) :
    ∃ d, d ≤ (h.m_history.take (h.m_currentIndex + 1).toNat).length ∧
      h.saveState p =
        ⟨true, (h.m_history.take (h.m_currentIndex + 1).toNat).drop d ++ [snapshotOf p],
          (((h.m_history.take (h.m_currentIndex + 1).toNat).drop d ++
            [snapshotOf p]).length : Int) - 1⟩ := by
  unfold HistoryManager.saveState
  rw [if_neg (by simp [hproc, himg])]
  simp only [eraseRedoTail_eq_take h.m_history h.m_currentIndex h2]
  obtain ⟨d, hd, hhist, hcur, hp, -⟩ := trimHistory_spec
    { h with
      m_history := h.m_history.take (h.m_currentIndex + 1).toNat ++
        [⟨p.captureState, p.captureState.total * p.captureState.elemSize⟩],
      m_currentIndex := ((h.m_history.take (h.m_currentIndex + 1).toNat ++
        [(⟨p.captureState, p.captureState.total * p.captureState.elemSize⟩ :
          HistoryState)]).length : Int) - 1 }
  have hdle : d ≤ (h.m_history.take (h.m_currentIndex + 1).toNat).length := by
    simp only [List.length_append, List.length_singleton] at hd
    omega
  refine ⟨d, hdle, HistoryManager.eq_of_fields _ _ (hp.trans hproc) ?_ ?_⟩
  · rw [hhist]
    exact List.drop_append_of_le_length hdle
  · rw [hcur]
    simp only [List.length_drop, List.length_append, List.length_singleton]
    omega

/-- C6. With an image loaded (and the cursor invariant of C1), saveState
discards every snapshot at a position greater than idx, appends a copy of the
current buffer whose byte size is pixel count x 4, and moves the cursor to it:
the new sequence is the old snapshots 0..idx without the `d` oldest that
trimming evicted, unchanged and in order, followed by the new snapshot;
the last snapshot equals current and canRedo() is false. -/
theorem saveState_appends (h : HistoryManager) (p : ImageProcessor)
    (hproc : h.m_processor = true) (himg : p.hasImage = true) (hinv : h.Inv) :
    ∃ d, d ≤ (h.m_history.take (h.m_currentIndex + 1).toNat).length ∧
      (h.saveState p).m_history =
        (h.m_history.take (h.m_currentIndex + 1).toNat).drop d ++
          [⟨p.m_currentImage, p.m_currentImage.rows * p.m_currentImage.cols * 4⟩] ∧
      (h.saveState p).m_currentIndex = ((h.saveState p).m_history.length : Int) - 1 ∧
      ((h.saveState p).m_history.getLast?).map HistoryState.imageState =
        some p.m_currentImage ∧
      (h.saveState p).canRedo = false := by
  obtain ⟨h1, h2, -⟩ := hinv
  obtain ⟨d, hdle, hshape⟩ := saveState_shape h p hproc himg h2
  rw [hshape]
  refine ⟨d, hdle, rfl, rfl, ?_, ?_⟩
  · simp [snapshotOf, ImageProcessor.captureState, Mat.clone]
  · simp [HistoryManager.canRedo]

/-- Witness of C6: saving at cursor 0 of three snapshots drops the two redo
snapshots and appends the current buffer. -/
theorem saveState_appends_witness :
    (threeDotsAtStart.saveState (dotProcessor 40)).m_history =
      [⟨dot 10, 4⟩, ⟨dot 40, 4⟩] ∧
    (threeDotsAtStart.saveState (dotProcessor 40)).m_currentIndex = 1 ∧
    (threeDotsAtStart.saveState (dotProcessor 40)).canRedo = false := by
  obtain ⟨d, -, _, hidx, -, hredo⟩ :=
    saveState_appends threeDotsAtStart (dotProcessor 40) rfl (by decide) (by decide)
  have hh : (threeDotsAtStart.saveState (dotProcessor 40)).m_history =
      [⟨dot 10, 4⟩, ⟨dot 40, 4⟩] := by decide
  refine ⟨hh, ?_, hredo⟩
  rw [hidx, hh]
  rfl

/-! ## C7: saveStateBeforeChange -/

/-- C7 as stated fails when no image is loaded: with two snapshots and the
cursor on the first, saveStateBeforeChange returns at its guard and the
snapshot after the cursor stays, so size is not idx + 1 and canRedo() is
still true. The state arises from the calls load, saveInitialState, edit,
saveState, undo, `ImageProcessor::clear()`. -/
theorem saveStateBeforeChange_without_image :
    (runOps cvtSample
      [.edit (dotProcessor 1), .saveInitialState, .edit (dotProcessor 2), .saveState,
        .undo, .edit noImage] ⟨⟨true, [], -1⟩, noImage⟩).map
        (fun s => (s.history, s.processor.hasImage)) =
      some (⟨true, [⟨dot 1, 4⟩, ⟨dot 2, 4⟩], 0⟩, false) ∧
    HistoryManager.saveStateBeforeChange ⟨true, [⟨dot 1, 4⟩, ⟨dot 2, 4⟩], 0⟩ noImage =
      ⟨true, [⟨dot 1, 4⟩, ⟨dot 2, 4⟩], 0⟩ ∧
    (HistoryManager.saveStateBeforeChange ⟨true, [⟨dot 1, 4⟩, ⟨dot 2, 4⟩], 0⟩
      noImage).canRedo = true := by
  decide

/-- C7 (amended). With an image loaded, saveStateBeforeChange removes exactly
the snapshots at positions greater than idx: snapshots 0..idx and the cursor
are unchanged, no snapshot is created, and afterwards size = idx + 1 and
canRedo() is false. When the cursor is already at the tail it changes nothing,
and when no image is loaded (or no processor is attached) it changes nothing.
The current buffer is never written: the function only reads the processor. -/
theorem saveStateBeforeChange_frame (h : HistoryManager) (p : ImageProcessor)
    (hinv : h.Inv) :
    (h.m_processor = true → p.hasImage = true →
      (h.saveStateBeforeChange p).m_history =
          h.m_history.take (h.m_currentIndex + 1).toNat ∧
        (h.saveStateBeforeChange p).m_currentIndex = h.m_currentIndex ∧
        (h.saveStateBeforeChange p).m_processor = h.m_processor ∧
        ((h.saveStateBeforeChange p).m_history.length : Int) = h.m_currentIndex + 1 ∧
        (h.saveStateBeforeChange p).canRedo = false) ∧
    (h.m_currentIndex = (h.m_history.length : Int) - 1 → h.saveStateBeforeChange p = h) ∧
    (¬ (h.m_processor = true ∧ p.hasImage = true) → h.saveStateBeforeChange p = h) := by
  obtain ⟨h1, h2, -⟩ := hinv
  refine ⟨?_, ?_, ?_⟩
  · intro hproc himg
    unfold HistoryManager.saveStateBeforeChange
    rw [if_neg (by simp [hproc, himg])]
    have hl := eraseRedoTail_length h.m_history h.m_currentIndex h1 h2
    refine ⟨eraseRedoTail_eq_take _ _ h2, rfl, rfl, hl, ?_⟩
    simp only [HistoryManager.canRedo, hl]
    simp
  · intro htail
    unfold HistoryManager.saveStateBeforeChange
    split
    · rfl
    · have : eraseRedoTail h.m_history h.m_currentIndex = h.m_history := by
        unfold eraseRedoTail
        rw [if_neg (by omega)]
      rw [this]
  · intro hno
    unfold HistoryManager.saveStateBeforeChange
    rw [if_pos]
    by_cases hp : h.m_processor = true
    · have : p.hasImage = false := by
        by_contra hc
        exact hno ⟨hp, by simpa using hc⟩
      simp [this]
    · simp [hp]

/-- Witness of C7 (amended): with an image loaded and the cursor on the first
of three snapshots, the two later snapshots are removed and nothing else
changes. -/
theorem saveStateBeforeChange_frame_witness :
    threeDotsAtStart.Inv ∧
    (threeDotsAtStart.saveStateBeforeChange (dotProcessor 40)).m_history =
      [⟨dot 10, 4⟩] ∧
    (threeDotsAtStart.saveStateBeforeChange (dotProcessor 40)).m_currentIndex = 0 ∧
    (threeDotsAtStart.saveStateBeforeChange (dotProcessor 40)).canRedo = false := by
  have h := (saveStateBeforeChange_frame threeDotsAtStart (dotProcessor 40)
    (by decide)).1 rfl (by decide)
  exact ⟨by decide, h.1, h.2.1, h.2.2.2.2⟩

/-! ## Flood fill: grid lemmas -/

theorem offset_inj (cols : Nat) (y x y' x' : Int) (hx0 : 0 ≤ x) (hx1 : x < cols)
    (hx0' : 0 ≤ x') (hx1' : x' < cols) (hy : 0 ≤ y) (hy' : 0 ≤ y')
    (h : offset cols y x = offset cols y' x') : y = y' ∧ x = x' := by
  unfold offset at h
  have h1 : 0 ≤ y * (cols : Int) := Int.mul_nonneg hy (by omega)
  have h2 : 0 ≤ y' * (cols : Int) := Int.mul_nonneg hy' (by omega)
  have e : y * (cols : Int) + x = y' * (cols : Int) + x' := by omega
  have hy_eq : y = y' := by
    rcases lt_trichotomy y y' with hlt | heq | hgt
    · exfalso
      have : (y + 1) * (cols : Int) ≤ y' * (cols : Int) :=
        Int.mul_le_mul_of_nonneg_right (by omega) (by omega)
      have e2 : (y + 1) * (cols : Int) = y * cols + cols := by ring
      omega
    · exact heq
    · exfalso
      have : (y' + 1) * (cols : Int) ≤ y * (cols : Int) :=
        Int.mul_le_mul_of_nonneg_right (by omega) (by omega)
      have e2 : (y' + 1) * (cols : Int) = y' * cols + cols := by ring
      omega
  subst hy_eq
  exact ⟨rfl, by omega⟩

theorem offset_lt (rows cols : Nat) (y x : Int) (hx0 : 0 ≤ x) (hx1 : x < cols)
    (hy0 : 0 ≤ y) (hy1 : y < rows) : offset cols y x < rows * cols := by
  unfold offset
  have h1 : 0 ≤ y * (cols : Int) := Int.mul_nonneg hy0 (by omega)
  have h2 : (y + 1) * (cols : Int) ≤ (rows : Int) * (cols : Int) :=
    Int.mul_le_mul_of_nonneg_right (by omega) (by omega)
  have e2 : (y + 1) * (cols : Int) = y * cols + cols := by ring
  have : ((rows * cols : Nat) : Int) = (rows : Int) * (cols : Int) := by push_cast; ring
  omega

theorem getD_set_of_ne {α : Type} (l : List α) (i j : Nat) (v d : α) (h : i ≠ j) :
    (l.set i v).getD j d = l.getD j d := by
  simp [List.getElem?_set_ne h]

theorem getD_set_self {α : Type} (l : List α) (i : Nat) (v d : α) (h : i < l.length) :
    (l.set i v).getD i d = v := by
  simp [List.getElem?_set_self h]

theorem lt_length_of_getD_ne {α : Type} (l : List α) (i : Nat) (d : α)
    (h : l.getD i d ≠ d) : i < l.length := by
  by_contra hc
  apply h
  simp [List.getElem?_eq_none (by omega : l.length ≤ i)]

theorem opaqueCount_setAt (m : Mat) (y x : Int) (v : Vec4b)
    (hold : (m.at y x).c3 ≠ 0) (hnew : v.c3 = 0) :
    (m.setAt y x v).opaqueCount + 1 = m.opaqueCount := by
  have hlt : offset m.cols y x < m.data.length := by
    apply lt_length_of_getD_ne m.data _ default
    intro hc
    apply hold
    unfold Mat.at
    rw [hc]
    rfl
  have hget : m.at y x = m.data[offset m.cols y x] := by
    unfold Mat.at
    simp [List.getElem?_eq_getElem hlt]
  unfold Mat.opaqueCount Mat.setAt
  simp only
  rw [List.countP_set _ _ _ _ hlt]
  rw [← hget]
  have hpos := List.boole_getElem_le_countP (fun v => decide (v.c3 ≠ 0)) m.data _ hlt
  rw [← hget] at hpos
  have e1 : decide ((m.at y x).c3 ≠ 0) = true := by simpa using hold
  have e2 : decide (v.c3 ≠ 0) = false := by simpa using hnew
  rw [e1] at hpos
  rw [e1, e2]
  simp only [if_true] at hpos
  simp only [if_true, Bool.false_eq_true, if_false]
  omega

theorem opaqueCount_le (m : Mat) : m.opaqueCount ≤ m.data.length :=
  List.countP_le_length _

/-! ## Flood fill: one pass, termination -/

theorem floodStep_cases (lab : Mat3) (seedLab : Vec3b) (tolerance : Int) (b : FloodBounds)
    (s : FloodState) :
    (floodStep lab seedLab tolerance b s = { s with queuePos := s.queuePos + 1 } ∧
      ¬ (b.contains (s.queue.getD s.queuePos default) ∧
        s.visited.getD (offset s.image.cols (s.queue.getD s.queuePos default).y
          (s.queue.getD s.queuePos default).x) 0 = 0 ∧
        Candidate s.image lab seedLab tolerance b (s.queue.getD s.queuePos default))) ∨
    (b.contains (s.queue.getD s.queuePos default) ∧
      s.visited.getD (offset s.image.cols (s.queue.getD s.queuePos default).y
        (s.queue.getD s.queuePos default).x) 0 = 0 ∧
      Candidate s.image lab seedLab tolerance b (s.queue.getD s.queuePos default) ∧
      floodStep lab seedLab tolerance b s =
        clearedState b s (s.queue.getD s.queuePos default)) := by
  generalize hpt : s.queue.getD s.queuePos default = pt
  unfold floodStep
  simp only [hpt]
  by_cases hb : pt.x < b.minX ∨ pt.x > b.maxX ∨ pt.y < b.minY ∨ pt.y > b.maxY
  · left
    rw [if_pos hb]
    refine ⟨rfl, ?_⟩
    rintro ⟨hc, -⟩
    unfold FloodBounds.contains at hc
    omega
  · rw [if_neg hb]
    have hcont : b.contains pt := by
      unfold FloodBounds.contains
      omega
    by_cases hv : s.visited.getD (offset s.image.cols pt.y pt.x) 0 ≠ 0
    · left
      rw [if_pos hv]
      exact ⟨rfl, fun h => hv h.2.1⟩
    · rw [if_neg hv]
      by_cases ha : (s.image.at pt.y pt.x).c3 = 0
      · left
        rw [if_pos ha]
        exact ⟨rfl, fun h => h.2.2.2.1 ha⟩
      · rw [if_neg ha]
        by_cases hd : deltaESq (lab.at pt.y pt.x) seedLab > maxDeltaESq tolerance
        · left
          rw [if_pos hd]
          refine ⟨rfl, fun h => ?_⟩
          have := h.2.2.2.2
          unfold withinTolerance at this
          omega
        · right
          rw [if_neg hd]
          refine ⟨hcont, not_not.mp hv, ⟨hcont, ha, ?_⟩, ?_⟩
          · unfold withinTolerance
            omega
          · unfold clearedState pushedNeighbours
            congr 1
            by_cases h1 : pt.x > b.minX <;> by_cases h2 : pt.x < b.maxX <;>
              by_cases h3 : pt.y > b.minY <;> by_cases h4 : pt.y < b.maxY <;>
              simp [h1, h2, h3, h4]

theorem pushedNeighbours_length (b : FloodBounds) (pt : Point) :
    (pushedNeighbours b pt).length ≤ 4 := by
  unfold pushedNeighbours
  by_cases h1 : pt.x > b.minX <;> by_cases h2 : pt.x < b.maxX <;>
    by_cases h3 : pt.y > b.minY <;> by_cases h4 : pt.y < b.maxY <;>
    simp [h1, h2, h3, h4]

theorem floodStep_measure (lab : Mat3) (seedLab : Vec3b) (tolerance : Int) (b : FloodBounds)
    (s : FloodState) (hpos : s.queuePos < s.queue.length) :
    floodMeasure (floodStep lab seedLab tolerance b s) + 1 ≤ floodMeasure s := by
  rcases floodStep_cases lab seedLab tolerance b s with ⟨he, -⟩ | ⟨-, -, hc, he⟩
  · rw [he]
    unfold floodMeasure
    simp only
    omega
  · rw [he]
    generalize s.queue.getD s.queuePos default = pt at hc
    have h1 : (clearedState b s pt).image.opaqueCount + 1 = s.image.opaqueCount :=
      opaqueCount_setAt s.image pt.y pt.x _ hc.2.1 rfl
    have h2 := pushedNeighbours_length b pt
    have h3 : (clearedState b s pt).queue.length =
        s.queue.length + (pushedNeighbours b pt).length := List.length_append _ _
    have h4 : (clearedState b s pt).queuePos = s.queuePos + 1 := rfl
    unfold floodMeasure
    omega

theorem floodLoop_exhausts (lab : Mat3) (seedLab : Vec3b) (tolerance : Int) (b : FloodBounds)
    (fuel : Nat) : ∀ s : FloodState, floodMeasure s ≤ fuel →
      (floodLoop lab seedLab tolerance b fuel s).queue.length ≤
        (floodLoop lab seedLab tolerance b fuel s).queuePos := by
  induction fuel with
  | zero =>
    intro s hs
    unfold floodMeasure at hs
    simp only [floodLoop]
    omega
  | succ n ih =>
    intro s hs
    unfold floodLoop
    split
    · rename_i hlt
      apply ih
      have := floodStep_measure lab seedLab tolerance b s hlt
      omega
    · omega

/-! ## Flood fill: the loop invariant -/

theorem mem_pushedNeighbours (b : FloodBounds) (pt r : Point) (hpt : b.contains pt)
    (hr : b.contains r) (hadj : adj4 pt r) : r ∈ pushedNeighbours b pt := by
  unfold FloodBounds.contains at hpt hr
  unfold adj4 at hadj
  unfold pushedNeighbours
  obtain ⟨rx, ry⟩ := r
  obtain ⟨px, py⟩ := pt
  simp only at hpt hr hadj
  simp only [List.mem_append, Point.mk.injEq]
  rcases hadj with ⟨hy, hx | hx⟩ | ⟨hx, hy | hy⟩
  · left; left; left
    rw [if_pos (by omega)]
    simp
    omega
  · left; left; right
    rw [if_pos (by omega)]
    simp
    omega
  · left; right
    rw [if_pos (by omega)]
    simp
    omega
  · right
    rw [if_pos (by omega)]
    simp
    omega

theorem adj4_of_mem_pushedNeighbours (b : FloodBounds) (pt r : Point)
    (h : r ∈ pushedNeighbours b pt) : adj4 pt r := by
  unfold pushedNeighbours at h
  unfold adj4
  simp only [List.mem_append] at h
  rcases h with ((h | h) | h) | h <;>
    · split at h
      · simp only [List.mem_singleton] at h
        subst h
        simp
      · simp at h

theorem Mat.at_setAt_same (m : Mat) (y x : Int) (v : Vec4b)
    (h : (m.at y x).c3 ≠ 0) : (m.setAt y x v).at y x = v := by
  have hlt : offset m.cols y x < m.data.length := by
    apply lt_length_of_getD_ne m.data _ default
    intro hc
    apply h
    unfold Mat.at
    rw [hc]
    rfl
  unfold Mat.at Mat.setAt
  exact getD_set_self _ _ _ _ hlt

theorem Mat.at_setAt_other (m : Mat) (y x y' x' : Int) (v : Vec4b)
    (h : offset m.cols y x ≠ offset m.cols y' x') : (m.setAt y x v).at y' x' = m.at y' x' := by
  unfold Mat.at Mat.setAt
  exact getD_set_of_ne _ _ _ _ _ h

theorem Mat.at_setAt_alpha (m : Mat) (y x y' x' : Int) (v : Vec4b) (hv : v.c3 = 0)
    (h : (m.at y' x').c3 = 0) : ((m.setAt y x v).at y' x').c3 = 0 := by
  by_cases e : offset m.cols y x = offset m.cols y' x'
  · unfold Mat.at Mat.setAt
    simp only
    rw [e]
    by_cases hlt : offset m.cols y' x' < m.data.length
    · rw [getD_set_self _ _ _ _ hlt]
      exact hv
    · rw [List.set_eq_of_length_le (by omega)]
      exact h
  · rw [Mat.at_setAt_other _ _ _ _ _ _ e]
    exact h


theorem Connected.candidate {M : Point → Prop} {seed q : Point} (h : Connected M seed q) :
    M q := by
  cases h with
  | seed hs => exact hs
  | step _ _ hq => exact hq

theorem getD_mem_of_lt (l : List Point) (i : Nat) (h : i < l.length) :
    l.getD i default ∈ l := by
  rw [List.getD_eq_getElem?_getD, List.getElem?_eq_getElem h]
  exact List.getElem_mem h

theorem mem_take_succ (l : List Point) (i : Nat) (h : i < l.length) (r : Point)
    (hr : r ∈ l.take (i + 1)) : r ∈ l.take i ∨ r = l.getD i default := by
  rw [List.take_succ, List.mem_append] at hr
  rcases hr with hr | hr
  · exact Or.inl hr
  · right
    rw [List.getD_eq_getElem?_getD, List.getElem?_eq_getElem h]
    rw [List.getElem?_eq_getElem h] at hr
    simpa using hr

theorem FloodInv.skip {image0 : Mat} {lab : Mat3} {seedLab : Vec3b} {tolerance : Int}
    {b : FloodBounds} {seed : Point} {s : FloodState}
    (hinv : FloodInv image0 lab seedLab tolerance b seed s)
    (hpos : s.queuePos < s.queue.length)
    (hno : ¬ (b.contains (s.queue.getD s.queuePos default) ∧
        s.visited.getD (offset s.image.cols (s.queue.getD s.queuePos default).y
          (s.queue.getD s.queuePos default).x) 0 = 0 ∧
        Candidate s.image lab seedLab tolerance b (s.queue.getD s.queuePos default))) :
    FloodInv image0 lab seedLab tolerance b seed { s with queuePos := s.queuePos + 1 } := by
  refine ⟨hinv.cols_eq, hinv.rows_eq, hinv.length_eq, hinv.frame, hinv.origin,
    hinv.visited_clear, hinv.closure, ?_, hinv.seed_mem, hpos⟩
  intro r hr hcand
  rcases mem_take_succ s.queue s.queuePos hpos r hr with hr | hr
  · exact hinv.done r hr hcand
  · subst hr
    by_contra halpha
    apply hno
    refine ⟨hcand.1, ?_, hcand.1, halpha, hcand.2.2⟩
    by_contra hv
    rw [hinv.cols_eq] at hv
    exact halpha (hinv.visited_clear _ hcand.1 hv)


theorem FloodInv.clear {image0 : Mat} {lab : Mat3} {seedLab : Vec3b} {tolerance : Int}
    {b : FloodBounds} {seed : Point} {s : FloodState}
    (hin : b.inside image0)
    (hinv : FloodInv image0 lab seedLab tolerance b seed s)
    (hpos : s.queuePos < s.queue.length) (pt : Point)
    (hpt : pt = s.queue.getD s.queuePos default)
    (hcont : b.contains pt) (hcand : Candidate s.image lab seedLab tolerance b pt) :
    FloodInv image0 lab seedLab tolerance b seed (clearedState b s pt) := by
  have hmem : pt ∈ s.queue := hpt ▸ getD_mem_of_lt s.queue s.queuePos hpos
  have hx0 : 0 ≤ pt.x := le_trans hin.1 hcont.1
  have hx1 : pt.x < (image0.cols : Int) := lt_of_le_of_lt hcont.2.1 hin.2.1
  have hy0 : 0 ≤ pt.y := le_trans hin.2.2.1 hcont.2.2.1
  have halpha : (s.image.at pt.y pt.x).c3 ≠ 0 := hcand.2.1
  have hsame : s.image.at pt.y pt.x = image0.at pt.y pt.x := by
    rcases hinv.frame pt hx0 hx1 hy0 with h | ⟨h, -⟩
    · exact h
    · exact absurd (by rw [h]) halpha
  have hcand0 : Candidate image0 lab seedLab tolerance b pt :=
    ⟨hcont, hsame ▸ halpha, hcand.2.2⟩
  have hconn : Connected (Candidate image0 lab seedLab tolerance b) seed pt := by
    rcases hinv.origin pt hmem with h | ⟨q, hq, hadj⟩
    · rw [h] at hcand0 ⊢
      exact Connected.seed hcand0
    · exact Connected.step hq hadj hcand0
  have hnew : (clearedState b s pt).image.at pt.y pt.x =
      { image0.at pt.y pt.x with c3 := 0 } := by
    show (s.image.setAt pt.y pt.x _).at pt.y pt.x = _
    rw [Mat.at_setAt_same _ _ _ _ halpha, hsame]
  have hother : ∀ q : Point, 0 ≤ q.x → q.x < (image0.cols : Int) → 0 ≤ q.y → q ≠ pt →
      offset s.image.cols pt.y pt.x ≠ offset s.image.cols q.y q.x := by
    intro q hq0 hq1 hqy hne hoff
    rw [hinv.cols_eq] at hoff
    obtain ⟨e1, e2⟩ := offset_inj image0.cols pt.y pt.x q.y q.x hx0 hx1 hq0 hq1 hy0 hqy hoff
    apply hne
    cases q
    cases pt
    simp only at e1 e2
    simp [e1, e2]
  have hkeep : ∀ q : Point, 0 ≤ q.x → q.x < (image0.cols : Int) → 0 ≤ q.y → q ≠ pt →
      (clearedState b s pt).image.at q.y q.x = s.image.at q.y q.x := by
    intro q hq0 hq1 hqy hne
    exact Mat.at_setAt_other _ _ _ _ _ _ (hother q hq0 hq1 hqy hne)
  have hzero : ∀ q : Point, (s.image.at q.y q.x).c3 = 0 →
      ((clearedState b s pt).image.at q.y q.x).c3 = 0 := by
    intro q hq
    exact Mat.at_setAt_alpha _ _ _ _ _ _ rfl hq
  refine ⟨hinv.cols_eq, hinv.rows_eq, ?_, ?_, ?_, ?_, ?_, ?_, ?_, ?_⟩
  · show (s.image.data.set _ _).length = _
    rw [List.length_set, hinv.length_eq]
  · intro q hq0 hq1 hqy
    by_cases hne : q = pt
    · subst hne
      exact Or.inr ⟨hnew, hconn⟩
    · rw [hkeep q hq0 hq1 hqy hne]
      exact hinv.frame q hq0 hq1 hqy
  · intro r hr
    rcases List.mem_append.mp hr with hr | hr
    · exact hinv.origin r hr
    · exact Or.inr ⟨pt, hconn, adj4_of_mem_pushedNeighbours b pt r hr⟩
  · intro q hq hv
    by_cases hne : q = pt
    · subst hne
      rw [hnew]
    · have hq0 : 0 ≤ q.x := le_trans hin.1 hq.1
      have hq1 : q.x < (image0.cols : Int) := lt_of_le_of_lt hq.2.1 hin.2.1
      have hqy : 0 ≤ q.y := le_trans hin.2.2.1 hq.2.2.1
      apply hzero
      apply hinv.visited_clear q hq
      have hv2 : (s.visited.set (offset s.image.cols pt.y pt.x) 1).getD
          (offset image0.cols q.y q.x) 0 ≠ 0 := hv
      rw [getD_set_of_ne _ _ _ _ _ (by
        have := hother q hq0 hq1 hqy hne
        rwa [hinv.cols_eq] at this ⊢)] at hv2
      exact hv2
  · intro q r hq hr hadj hqa hq0a
    apply List.mem_append.mpr
    by_cases hne : q = pt
    · subst hne
      exact Or.inr (mem_pushedNeighbours b q r hq hr hadj)
    · left
      have hq0 : 0 ≤ q.x := le_trans hin.1 hq.1
      have hq1 : q.x < (image0.cols : Int) := lt_of_le_of_lt hq.2.1 hin.2.1
      have hqy : 0 ≤ q.y := le_trans hin.2.2.1 hq.2.2.1
      rw [hkeep q hq0 hq1 hqy hne] at hqa
      exact hinv.closure q r hq hr hadj hqa hq0a
  · intro r hr hc
    have htake : (clearedState b s pt).queue.take (clearedState b s pt).queuePos =
        s.queue.take (s.queuePos + 1) := by
      show (s.queue ++ pushedNeighbours b pt).take (s.queuePos + 1) = _
      exact List.take_append_of_le_length hpos
    rw [htake] at hr
    rcases mem_take_succ s.queue s.queuePos hpos r hr with hr | hr
    · exact hzero r (hinv.done r hr hc)
    · rw [← hpt] at hr
      subst hr
      rw [hnew]
  · exact List.mem_append.mpr (Or.inl hinv.seed_mem)
  · show s.queuePos + 1 ≤ (s.queue ++ pushedNeighbours b pt).length
    rw [List.length_append]
    omega

theorem FloodInv.step {image0 : Mat} {lab : Mat3} {seedLab : Vec3b} {tolerance : Int}
    {b : FloodBounds} {seed : Point} {s : FloodState}
    (hin : b.inside image0)
    (hinv : FloodInv image0 lab seedLab tolerance b seed s)
    (hpos : s.queuePos < s.queue.length) :
    FloodInv image0 lab seedLab tolerance b seed (floodStep lab seedLab tolerance b s) := by
  rcases floodStep_cases lab seedLab tolerance b s with ⟨he, hno⟩ | ⟨hcont, -, hcand, he⟩
  · rw [he]
    exact hinv.skip hpos hno
  · rw [he]
    exact hinv.clear hin hpos _ rfl hcont hcand

theorem FloodInv.loop {image0 : Mat} {lab : Mat3} {seedLab : Vec3b} {tolerance : Int}
    {b : FloodBounds} {seed : Point} (hin : b.inside image0) (fuel : Nat) :
    ∀ s : FloodState, FloodInv image0 lab seedLab tolerance b seed s →
      FloodInv image0 lab seedLab tolerance b seed
        (floodLoop lab seedLab tolerance b fuel s) := by
  induction fuel with
  | zero => intro s hs; exact hs
  | succ n ih =>
    intro s hs
    unfold floodLoop
    split
    · rename_i hlt
      exact ih _ (hs.step hin hlt)
    · exact hs

/-! ## Flood fill: the state at loop exit -/

theorem getD_replicate_zero (n i : Nat) : (List.replicate n (0 : uchar)).getD i 0 = 0 := by
  rw [List.getD_eq_getElem?_getD, List.getElem?_replicate]
  split <;> rfl

theorem FloodInv.init (image0 : Mat) (lab : Mat3) (seedLab : Vec3b) (tolerance : Int)
    (b : FloodBounds) (seed : Point) (n : Nat) :
    FloodInv image0 lab seedLab tolerance b seed
      { image := image0, visited := List.replicate n 0, queue := [seed], queuePos := 0 } := by
  refine ⟨rfl, rfl, rfl, fun q _ _ _ => Or.inl rfl, ?_, ?_, ?_, ?_, ?_, ?_⟩
  · intro pt hpt
    exact Or.inl (List.mem_singleton.mp hpt)
  · intro q _ hv
    exact absurd (getD_replicate_zero n _) hv
  · intro q r _ _ _ h1 h2
    exact absurd h1 h2
  · intro r hr
    simp at hr
  · exact List.mem_singleton.mpr rfl
  · exact Nat.zero_le _

theorem floodResult_inv (image0 : Mat) (lab : Mat3) (seedLab : Vec3b) (tolerance : Int)
    (b : FloodBounds) (seed : Point) (hin : b.inside image0) :
    FloodInv image0 lab seedLab tolerance b seed
      (floodResult image0 lab seedLab tolerance b seed) :=
  FloodInv.loop hin _ _ (FloodInv.init image0 lab seedLab tolerance b seed _)

theorem floodResult_exhausted (image0 : Mat) (lab : Mat3) (seedLab : Vec3b) (tolerance : Int)
    (b : FloodBounds) (seed : Point) :
    (floodResult image0 lab seedLab tolerance b seed).queue.length ≤
      (floodResult image0 lab seedLab tolerance b seed).queuePos := by
  apply floodLoop_exhausts
  unfold floodMeasure floodFuel
  have := opaqueCount_le image0
  simp only [List.length_singleton]
  omega

theorem floodResult_complete (image0 : Mat) (lab : Mat3) (seedLab : Vec3b) (tolerance : Int)
    (b : FloodBounds) (seed : Point) (hin : b.inside image0) (q : Point)
    (hq : Connected (Candidate image0 lab seedLab tolerance b) seed q) :
    ((floodResult image0 lab seedLab tolerance b seed).image.at q.y q.x).c3 = 0 := by
  have hinv := floodResult_inv image0 lab seedLab tolerance b seed hin
  have hex := floodResult_exhausted image0 lab seedLab tolerance b seed
  have hall : ∀ r ∈ (floodResult image0 lab seedLab tolerance b seed).queue,
      Candidate image0 lab seedLab tolerance b r →
      ((floodResult image0 lab seedLab tolerance b seed).image.at r.y r.x).c3 = 0 := by
    intro r hr hc
    apply hinv.done r _ hc
    rwa [List.take_of_length_le hex]
  induction hq with
  | seed hs => exact hall _ hinv.seed_mem hs
  | step hp hadj hcq ih =>
    rename_i p0 q0
    have hcp := hp.candidate
    exact hall _ (hinv.closure p0 q0 hcp.1 hcq.1 hadj ih hcp.2.1) hcq

theorem floodBounds_inside (image : Mat) (vp : QRect) : (floodBounds image vp).inside image := by
  unfold FloodBounds.inside floodBounds
  simp only
  refine ⟨?_, ?_, ?_, ?_⟩ <;> split <;> omega

theorem Connected.mono {M N : Point → Prop} {seed q : Point} (h : ∀ pt, M pt → N pt)
    (hq : Connected M seed q) : Connected N seed q := by
  induction hq with
  | seed hs => exact Connected.seed (h _ hs)
  | step _ hadj hm ih => exact Connected.step ih hadj (h _ hm)

theorem candidate_of_selectable (p : ImageProcessor) (x y tolerance : Int) (vp : QRect)
    (pt : Point) (h : Selectable p x y tolerance vp pt) :
    Candidate p.m_currentImage p.m_labImage (p.m_labImage.at y x) tolerance
      (floodBounds p.m_currentImage vp) pt := by
  obtain ⟨him, hvp, ha, hd⟩ := h
  unfold Mat.inImage at him
  unfold QRect.containsPoint QRect.left QRect.right QRect.top QRect.bottom at hvp
  have hvalid : vp.isValid = true := by
    unfold QRect.isValid
    simp only [Bool.and_eq_true, decide_eq_true_eq]
    omega
  refine ⟨?_, ha, hd⟩
  unfold FloodBounds.contains floodBounds
  simp only [hvalid, if_true, QRect.left, QRect.right, QRect.top, QRect.bottom]
  omega

theorem fillable_of_candidate (p : ImageProcessor) (x y tolerance : Int) (vp : QRect)
    (pt : Point)
    (h : Candidate p.m_currentImage p.m_labImage (p.m_labImage.at y x) tolerance
      (floodBounds p.m_currentImage vp) pt) : Fillable p x y tolerance vp pt := by
  obtain ⟨hb, ha, hd⟩ := h
  unfold FloodBounds.contains floodBounds at hb
  simp only at hb
  refine ⟨?_, ?_, ha, hd⟩
  · unfold Mat.inImage
    by_cases hv : vp.isValid = true
    · simp only [hv, if_true] at hb
      omega
    · simp only [hv] at hb
      simp only [Bool.false_eq_true, if_false] at hb
      omega
  · intro hv
    simp only [hv, if_true, QRect.left, QRect.right, QRect.top, QRect.bottom] at hb
    unfold QRect.containsPoint QRect.left QRect.right QRect.top QRect.bottom
    omega

/-! ## Flood fill: from the loop to `autoColorRemove` -/

theorem writeCurrent_original (p : ImageProcessor) (image : Mat) :
    (p.sharedBuffer = false → (p.writeCurrent image).m_originalImage = p.m_originalImage) ∧
      (p.sharedBuffer = true →
        (p.writeCurrent image).m_originalImage = (p.writeCurrent image).m_currentImage) := by
  unfold ImageProcessor.writeCurrent
  constructor
  · intro h
    simp only [h, Bool.false_eq_true, if_false]
  · intro h
    simp only [h, if_true]

theorem updateLabCache_current (cvt : Vec4b → Vec3b) (p : ImageProcessor) :
    (p.updateLabCache cvt).m_currentImage = p.m_currentImage := by
  unfold ImageProcessor.updateLabCache
  split <;> rfl

theorem updateLabCache_original (cvt : Vec4b → Vec3b) (p : ImageProcessor) :
    (p.updateLabCache cvt).m_originalImage = p.m_originalImage := by
  unfold ImageProcessor.updateLabCache
  split <;> rfl

theorem autoColorRemove_skip (cvt : Vec4b → Vec3b) (p : ImageProcessor)
    (x y tolerance : Int) (vp : QRect) (h : ¬ seedAccepted p x y) :
    p.autoColorRemove cvt x y tolerance vp = p := by
  unfold ImageProcessor.autoColorRemove
  split
  · rfl
  · rename_i h1
    split
    · rfl
    · rename_i h2
      by_cases h3 : (p.m_currentImage.at y x).c3 = 0
      · simp only [h3, if_true]
      · exfalso
        apply h
        simp only [Bool.or_eq_true, not_or, Bool.not_eq_true] at h1
        refine ⟨h1.1, h1.2, ?_, h3⟩
        unfold Mat.inImage
        simp only
        omega

theorem autoColorRemove_run (cvt : Vec4b → Vec3b) (p : ImageProcessor)
    (x y tolerance : Int) (vp : QRect) (h : seedAccepted p x y) :
    p.autoColorRemove cvt x y tolerance vp =
      ImageProcessor.updateLabCache cvt
        (p.writeCurrent
          (floodResult p.m_currentImage p.m_labImage (p.m_labImage.at y x) tolerance
            (floodBounds p.m_currentImage vp) ⟨x, y⟩).image) := by
  obtain ⟨h1, h2, h3, h4⟩ := h
  unfold Mat.inImage at h3
  simp only at h3
  unfold ImageProcessor.autoColorRemove
  rw [if_neg (by simp [h1, h2]), if_neg (by omega)]
  simp only [h4, if_false]
  rfl

theorem autoColorRemove_current (cvt : Vec4b → Vec3b) (p : ImageProcessor)
    (x y tolerance : Int) (vp : QRect) (h : seedAccepted p x y) :
    (p.autoColorRemove cvt x y tolerance vp).m_currentImage =
      (floodResult p.m_currentImage p.m_labImage (p.m_labImage.at y x) tolerance
        (floodBounds p.m_currentImage vp) ⟨x, y⟩).image := by
  rw [autoColorRemove_run cvt p x y tolerance vp h, updateLabCache_current]
  rfl

theorem nonempty_of_alpha (m : Mat) (pt : Point) (him : m.inImage pt)
    (ha : (m.at pt.y pt.x).c3 ≠ 0) : m.empty = false := by
  have hlt : offset m.cols pt.y pt.x < m.data.length := by
    apply lt_length_of_getD_ne m.data _ default
    intro hc
    apply ha
    unfold Mat.at
    rw [hc]
    rfl
  unfold Mat.inImage at him
  have hr : 0 < m.rows := by omega
  have hc : 0 < m.cols := by omega
  have ht : m.rows * m.cols ≠ 0 := Nat.pos_iff_ne_zero.mp (Nat.mul_pos hr hc)
  have hd : m.data ≠ [] := by
    intro e
    rw [e] at hlt
    simp at hlt
  unfold Mat.empty Mat.total
  simp [hd, ht]

theorem seedAccepted_of_selectable (p : ImageProcessor) (x y tolerance : Int) (vp : QRect)
    (hlab : p.labSized) (h : Selectable p x y tolerance vp ⟨x, y⟩) : seedAccepted p x y := by
  obtain ⟨him, -, ha, -⟩ := h
  have hne := nonempty_of_alpha p.m_currentImage ⟨x, y⟩ him ha
  refine ⟨hne, ?_, him, ha⟩
  obtain ⟨e1, e2, e3⟩ := hlab
  unfold Mat.empty Mat.total at hne
  unfold Mat3.empty
  rw [e1, e2]
  simp only [Bool.or_eq_false_iff] at hne ⊢
  refine ⟨?_, hne.2⟩
  have hd := hne.1
  cases hl : p.m_labImage.data with
  | nil =>
    rw [hl] at e3
    have : p.m_currentImage.data = [] := List.length_eq_zero.mp e3.symm
    rw [this] at hd
    simp at hd
  | cons a l => rfl

theorem Connected.of_box (M : Point → Prop) (seed : Point) (x0 x1 y0 y1 : Int)
    (hM : ∀ pt : Point, x0 ≤ pt.x → pt.x ≤ x1 → y0 ≤ pt.y → pt.y ≤ y1 → M pt)
    (hsx0 : x0 ≤ seed.x) (hsx1 : seed.x ≤ x1) (hsy0 : y0 ≤ seed.y) (hsy1 : seed.y ≤ y1)
    (n : Nat) : ∀ q : Point, x0 ≤ q.x → q.x ≤ x1 → y0 ≤ q.y → q.y ≤ y1 →
      (q.x - seed.x).natAbs + (q.y - seed.y).natAbs = n → Connected M seed q := by
  induction n with
  | zero =>
    intro q _ _ _ _ hd
    have e : q = seed := by
      cases q
      cases seed
      simp only at hd ⊢
      simp only [Point.mk.injEq]
      omega
    rw [e]
    exact Connected.seed (hM seed hsx0 hsx1 hsy0 hsy1)
  | succ n ih =>
    intro q hq0 hq1 hq2 hq3 hd
    have hMq : M q := hM q hq0 hq1 hq2 hq3
    by_cases hx : q.x = seed.x
    · by_cases hy : seed.y < q.y
      · refine Connected.step (ih ⟨q.x, q.y - 1⟩ hq0 hq1 ?_ ?_ ?_) ?_ hMq
        · simp only; omega
        · simp only; omega
        · simp only; omega
        · exact Or.inr ⟨rfl, Or.inr (by simp only; omega)⟩
      · refine Connected.step (ih ⟨q.x, q.y + 1⟩ hq0 hq1 ?_ ?_ ?_) ?_ hMq
        · simp only; omega
        · simp only; omega
        · simp only; omega
        · exact Or.inr ⟨rfl, Or.inl rfl⟩
    · by_cases hlt : seed.x < q.x
      · refine Connected.step (ih ⟨q.x - 1, q.y⟩ ?_ ?_ hq2 hq3 ?_) ?_ hMq
        · simp only; omega
        · simp only; omega
        · simp only; omega
        · exact Or.inl ⟨rfl, Or.inr (by simp only; omega)⟩
      · refine Connected.step (ih ⟨q.x + 1, q.y⟩ ?_ ?_ hq2 hq3 ?_) ?_ hMq
        · simp only; omega
        · simp only; omega
        · simp only; omega
        · exact Or.inl ⟨rfl, Or.inl rfl⟩

theorem uniform_at (rows cols : Nat) (v : Vec4b) (pt : Point)
    (h : (Mat.uniform rows cols v).inImage pt) : (Mat.uniform rows cols v).at pt.y pt.x = v := by
  unfold Mat.inImage Mat.uniform at h
  simp only at h
  have hlt := offset_lt rows cols pt.y pt.x h.1 h.2.1 h.2.2.1 h.2.2.2
  unfold Mat.at Mat.uniform
  simp [List.getElem?_replicate, hlt]

theorem uniform_lab_at (cvt : Vec4b → Vec3b) (rows cols : Nat) (v : Vec4b) (pt : Point)
    (h : (Mat.uniform rows cols v).inImage pt) :
    (cvtColorLab cvt (Mat.uniform rows cols v)).at pt.y pt.x = cvt v := by
  unfold Mat.inImage Mat.uniform at h
  simp only at h
  have hlt := offset_lt rows cols pt.y pt.x h.1 h.2.1 h.2.2.1 h.2.2.2
  unfold Mat3.at cvtColorLab Mat.uniform
  simp [List.getElem?_replicate, hlt]

theorem deltaESq_self (a : Vec3b) : deltaESq a a = 0 := by
  unfold deltaESq
  simp

theorem uniform_selectable (cvt : Vec4b → Vec3b) (rows cols : Nat) (v : Vec4b)
    (x y tolerance : Int) (hv : v.c3 = 255)
    (hseed : (Mat.uniform rows cols v).inImage ⟨x, y⟩) (pt : Point)
    (h : (Mat.uniform rows cols v).inImage pt) :
    Selectable (ImageProcessor.loadedUniform cvt rows cols v) x y tolerance
      (QRect.ofSize 0 0 cols rows) pt := by
  refine ⟨h, ?_, ?_, ?_⟩
  · unfold Mat.inImage Mat.uniform at h
    unfold QRect.containsPoint QRect.ofSize QRect.left QRect.right QRect.top QRect.bottom
    simp only at h ⊢
    omega
  · show ((Mat.uniform rows cols v).at pt.y pt.x).c3 ≠ 0
    rw [uniform_at rows cols v pt h, hv]
    decide
  · show deltaESq ((cvtColorLab cvt (Mat.uniform rows cols v)).at pt.y pt.x)
      ((cvtColorLab cvt (Mat.uniform rows cols v)).at y x) ≤ tolerance * tolerance
    rw [uniform_lab_at cvt rows cols v pt h, uniform_lab_at cvt rows cols v ⟨x, y⟩ hseed,
      deltaESq_self]
    exact mul_self_nonneg tolerance

theorem loadedUniform_labSized (cvt : Vec4b → Vec3b) (rows cols : Nat) (v : Vec4b) :
    (ImageProcessor.loadedUniform cvt rows cols v).labSized := by
  unfold ImageProcessor.labSized ImageProcessor.loadedUniform cvtColorLab
  simp

/-! ## C8: flood-fill completeness -/

/-- C8. Flood-fill completeness. Let M be the set of pixels inside the image
and the viewport rectangle that have non-zero alpha at call time and whose
squared Lab distance to the seed's Lab value is at most tolerance^2. If the
seed is in M, then after autoColorRemove every pixel joined to the seed by a
4-connected path lying in M has alpha 0 (the Lab cache being sized as the
image). In particular, on a uniformly coloured fully opaque image with the
whole image as viewport, every pixel has alpha 0 afterwards, whatever seed
pixel and tolerance. -/
theorem autoColorRemove_complete :
    (∀ (cvt : Vec4b → Vec3b) (p : ImageProcessor) (x y tolerance : Int) (vp : QRect)
      (q : Point), p.labSized → Selectable p x y tolerance vp ⟨x, y⟩ →
      Connected (Selectable p x y tolerance vp) ⟨x, y⟩ q →
      ((p.autoColorRemove cvt x y tolerance vp).m_currentImage.at q.y q.x).c3 = 0) ∧
    (∀ (cvt : Vec4b → Vec3b) (rows cols : Nat) (v : Vec4b) (x y tolerance : Int) (q : Point),
      v.c3 = 255 → (Mat.uniform rows cols v).inImage ⟨x, y⟩ →
      (Mat.uniform rows cols v).inImage q →
      (((ImageProcessor.loadedUniform cvt rows cols v).autoColorRemove cvt x y tolerance
        (QRect.ofSize 0 0 cols rows)).m_currentImage.at q.y q.x).c3 = 0) := by
  have general : ∀ (cvt : Vec4b → Vec3b) (p : ImageProcessor) (x y tolerance : Int)
      (vp : QRect) (q : Point), p.labSized → Selectable p x y tolerance vp ⟨x, y⟩ →
      Connected (Selectable p x y tolerance vp) ⟨x, y⟩ q →
      ((p.autoColorRemove cvt x y tolerance vp).m_currentImage.at q.y q.x).c3 = 0 := by
    intro cvt p x y tolerance vp q hlab hseed hq
    rw [autoColorRemove_current cvt p x y tolerance vp
      (seedAccepted_of_selectable p x y tolerance vp hlab hseed)]
    exact floodResult_complete _ _ _ _ _ _ (floodBounds_inside _ _) q
      (Connected.mono (candidate_of_selectable p x y tolerance vp) hq)
  refine ⟨general, ?_⟩
  intro cvt rows cols v x y tolerance q hv hseed hq
  have hsel := uniform_selectable cvt rows cols v x y tolerance hv hseed
  apply general cvt _ x y tolerance _ q (loadedUniform_labSized cvt rows cols v)
    (hsel _ hseed)
  unfold Mat.inImage Mat.uniform at hseed hq
  simp only at hseed hq
  exact Connected.of_box _ ⟨x, y⟩ 0 ((cols : Int) - 1) 0 ((rows : Int) - 1)
    (fun pt h0 h1 h2 h3 => hsel pt (by
      unfold Mat.inImage Mat.uniform
      simp only
      omega))
    (by simp only; omega) (by simp only; omega) (by simp only; omega) (by simp only; omega)
    _ q (by omega) (by omega) (by omega) (by omega) rfl

/-- Witness of C8: on the 3x3 sample the red pixel below the seed is cleared;
on the 100x100 opaque red image with seed (50,50) and tolerance 10 the corner
pixels (0,0) and (99,99) are cleared. -/
theorem autoColorRemove_complete_witness :
    ((sampleProcessor.autoColorRemove cvtSample 0 0 10 ⟨0, 0, 2, 2⟩).m_currentImage.at
      1 0).c3 = 0 ∧
    (((ImageProcessor.loadedUniform cvtSample 100 100 red).autoColorRemove cvtSample 50 50 10
      (QRect.ofSize 0 0 100 100)).m_currentImage.at 0 0).c3 = 0 ∧
    (((ImageProcessor.loadedUniform cvtSample 100 100 red).autoColorRemove cvtSample 50 50 10
      (QRect.ofSize 0 0 100 100)).m_currentImage.at 99 99).c3 = 0 :=
  ⟨autoColorRemove_complete.1 cvtSample sampleProcessor 0 0 10 ⟨0, 0, 2, 2⟩ ⟨0, 1⟩
      (by decide) (by decide)
      (Connected.step (Connected.seed (by decide)) (Or.inr ⟨rfl, Or.inr rfl⟩) (by decide)),
    autoColorRemove_complete.2 cvtSample 100 100 red 50 50 10 ⟨0, 0⟩ rfl (by decide)
      (by decide),
    autoColorRemove_complete.2 cvtSample 100 100 red 50 50 10 ⟨99, 99⟩ rfl (by decide)
      (by decide)⟩

/-! ## C9: flood-fill soundness -/

theorem floodLoop_alpha_zero (lab : Mat3) (seedLab : Vec3b) (tolerance : Int)
    (b : FloodBounds) (y x : Int) (fuel : Nat) :
    ∀ s : FloodState, (s.image.at y x).c3 = 0 →
      ((floodLoop lab seedLab tolerance b fuel s).image.at y x).c3 = 0 := by
  induction fuel with
  | zero => intro s hs; exact hs
  | succ n ih =>
    intro s hs
    unfold floodLoop
    split
    · apply ih
      rcases floodStep_cases lab seedLab tolerance b s with ⟨he, -⟩ | ⟨-, -, -, he⟩
      · rw [he]
        exact hs
      · rw [he]
        exact Mat.at_setAt_alpha _ _ _ _ _ _ rfl hs
    · exact hs

theorem floodLoop_done (lab : Mat3) (seedLab : Vec3b) (tolerance : Int)
    (b : FloodBounds) (fuel : Nat) (s : FloodState) (h : s.queue.length ≤ s.queuePos) :
    floodLoop lab seedLab tolerance b fuel s = s := by
  cases fuel with
  | zero => rfl
  | succ n =>
    unfold floodLoop
    rw [if_neg (by omega)]

theorem floodResult_seed_outside (image0 : Mat) (lab : Mat3) (seedLab : Vec3b)
    (tolerance : Int) (b : FloodBounds) (seed : Point) (h : ¬ b.contains seed) :
    (floodResult image0 lab seedLab tolerance b seed).image = image0 := by
  unfold floodResult floodFuel
  rw [floodLoop, if_pos (by simp)]
  rcases floodStep_cases lab seedLab tolerance b
    { image := image0, visited := List.replicate (image0.rows * image0.cols) 0,
      queue := [seed], queuePos := 0 } with ⟨he, -⟩ | ⟨hc, -⟩
  · rw [he, floodLoop_done _ _ _ _ _ _ (by simp)]
  · exact absurd hc h

theorem floodResult_seed_inside (image0 : Mat) (lab : Mat3) (tolerance : Int)
    (b : FloodBounds) (x y : Int) (h : b.contains ⟨x, y⟩) (ha : (image0.at y x).c3 ≠ 0) :
    ((floodResult image0 lab (lab.at y x) tolerance b ⟨x, y⟩).image.at y x).c3 = 0 := by
  unfold floodResult floodFuel
  rw [floodLoop, if_pos (by simp)]
  apply floodLoop_alpha_zero
  rcases floodStep_cases lab (lab.at y x) tolerance b
    { image := image0, visited := List.replicate (image0.rows * image0.cols) 0,
      queue := [⟨x, y⟩], queuePos := 0 } with ⟨-, hno⟩ | ⟨-, -, -, he⟩
  · exfalso
    apply hno
    refine ⟨h, getD_replicate_zero _ _, h, ha, ?_⟩
    show deltaESq (lab.at y x) (lab.at y x) ≤ maxDeltaESq tolerance
    rw [deltaESq_self]
    exact mul_self_nonneg tolerance
  · rw [he]
    show ((image0.setAt y x _).at y x).c3 = 0
    rw [Mat.at_setAt_same _ _ _ _ ha]

theorem updateLabCache_shared (cvt : Vec4b → Vec3b) (p : ImageProcessor) :
    (p.updateLabCache cvt).sharedBuffer = p.sharedBuffer := by
  unfold ImageProcessor.updateLabCache
  split <;> rfl

/-- After resize, when it works on an image and returns, the two members are
one buffer holding one value. -/
theorem resize_shares (interpolate : Mat → Int → Int → Point → Vec4b) (cvt : Vec4b → Vec3b)
    (p q : ImageProcessor) (w h : Int) (himg : p.hasImage = true)
    (hres : p.resize interpolate cvt w h = some q) :
    q.sharedBuffer = true ∧ q.m_originalImage = q.m_currentImage ∧
      some q.m_currentImage = cvResize interpolate p.m_originalImage w h := by
  have hne : p.m_currentImage.empty = false := by
    unfold ImageProcessor.hasImage at himg
    simpa using himg
  unfold ImageProcessor.resize at hres
  rw [if_neg (by simp [hne])] at hres
  cases h1 : cvResize interpolate p.m_currentImage w h with
  | none =>
    rw [h1] at hres
    exact absurd hres (by simp)
  | some r1 =>
    rw [h1] at hres
    simp only at hres
    cases h2 : cvResize interpolate p.m_originalImage w h with
    | none =>
      rw [h2] at hres
      exact absurd hres (by simp)
    | some r2 =>
      rw [h2] at hres
      simp only [Option.some.injEq] at hres
      subst hres
      rw [updateLabCache_shared, updateLabCache_original, updateLabCache_current]
      exact ⟨rfl, rfl, rfl⟩

/-! ## C9: what the fill changes -/

/-- C10. Selection is idempotent: for every image, seed, tolerance and
viewport, a second autoColorRemove with the same seed, tolerance and viewport
right after the first leaves the current buffer exactly as the first left it. -/
theorem autoColorRemove_idempotent (cvt : Vec4b → Vec3b) (p : ImageProcessor)
    (x y tolerance : Int) (vp : QRect) :
    ((p.autoColorRemove cvt x y tolerance vp).autoColorRemove cvt x y tolerance
      vp).m_currentImage = (p.autoColorRemove cvt x y tolerance vp).m_currentImage := by
  by_cases hacc : seedAccepted p x y
  · by_cases hb : (floodBounds p.m_currentImage vp).contains ⟨x, y⟩
    · have hz : ((p.autoColorRemove cvt x y tolerance vp).m_currentImage.at y x).c3 = 0 := by
        rw [autoColorRemove_current cvt p x y tolerance vp hacc]
        exact floodResult_seed_inside _ _ _ _ _ _ hb hacc.2.2.2
      rw [autoColorRemove_skip cvt _ x y tolerance vp (fun h => h.2.2.2 hz)]
    · have hcur : (p.autoColorRemove cvt x y tolerance vp).m_currentImage =
          p.m_currentImage := by
        rw [autoColorRemove_current cvt p x y tolerance vp hacc]
        exact floodResult_seed_outside _ _ _ _ _ _ hb
      by_cases hacc2 : seedAccepted (p.autoColorRemove cvt x y tolerance vp) x y
      · rw [autoColorRemove_current cvt _ x y tolerance vp hacc2, hcur]
        exact floodResult_seed_outside _ _ _ _ _ _ hb
      · rw [autoColorRemove_skip cvt _ x y tolerance vp hacc2]
  · rw [autoColorRemove_skip cvt p x y tolerance vp hacc,
      autoColorRemove_skip cvt p x y tolerance vp hacc]

/-! ## C11: calls that select nothing -/

/-- C11. autoColorRemove is a no-op, not a failure, whenever the seed pixel has
alpha 0, the seed coordinate is outside the image, or no image is loaded: the
call returns the processor as it was, so the current buffer is unchanged. -/
theorem autoColorRemove_noop (cvt : Vec4b → Vec3b) (p : ImageProcessor)
    (x y tolerance : Int) (vp : QRect)
    (h : (p.m_currentImage.at y x).c3 = 0 ∨ ¬ p.m_currentImage.inImage ⟨x, y⟩ ∨
      p.hasImage = false) :
    p.autoColorRemove cvt x y tolerance vp = p := by
  apply autoColorRemove_skip
  rintro ⟨h1, -, h3, h4⟩
  rcases h with h | h | h
  · exact h4 h
  · exact h h3
  · unfold ImageProcessor.hasImage at h
    rw [h1] at h
    simp at h

/-- Witness of C11: a transparent seed on the 1x1 image, a seed outside the
3x3 sample, and a call on the cleared processor all return the processor
unchanged. -/
theorem autoColorRemove_noop_witness :
    (dotProcessor 0).autoColorRemove cvtSample 0 0 10 ⟨0, 0, 0, 0⟩ = dotProcessor 0 ∧
    sampleProcessor.autoColorRemove cvtSample 3 0 10 ⟨0, 0, 2, 2⟩ = sampleProcessor ∧
    noImage.autoColorRemove cvtSample 0 0 10 ⟨0, 0, 2, 2⟩ = noImage :=
  ⟨autoColorRemove_noop cvtSample (dotProcessor 0) 0 0 10 ⟨0, 0, 0, 0⟩ (Or.inl (by decide)),
    autoColorRemove_noop cvtSample sampleProcessor 3 0 10 ⟨0, 0, 2, 2⟩
      (Or.inr (Or.inl (by decide))),
    autoColorRemove_noop cvtSample noImage 0 0 10 ⟨0, 0, 2, 2⟩ (Or.inr (Or.inr (by decide)))⟩

/-! ## C18: tool settings stay in range -/

theorem F32.le_eq_not_lt (a b : F32) : F32.le a b = !F32.lt b a := by
  unfold F32.le F32.lt
  simp only [min_comm b.e a.e]
  by_cases h : a.m * 2 ^ (a.e - min a.e b.e).toNat ≤ b.m * 2 ^ (b.e - min a.e b.e).toNat
  · simp [h, not_lt.mpr h]
  · simp [h, not_le.mp h]

theorem clamp_range (v lo hi : Int) (h : lo ≤ hi) : lo ≤ clamp v lo hi ∧ clamp v lo hi ≤ hi := by
  unfold clamp
  split_ifs <;> omega

theorem clampUnit_range (a : FloatArg) (h : F32) (e : clampUnit a = some h) :
    F32.le F32.zero h = true ∧ F32.le h F32.one = true := by
  cases a with
  | nan => simp [clampUnit] at e
  | posInf =>
    simp only [clampUnit, Option.some.injEq] at e
    subst e
    decide
  | negInf =>
    simp only [clampUnit, Option.some.injEq] at e
    subst e
    decide
  | finite v =>
    simp only [clampUnit, Option.some.injEq] at e
    subst e
    by_cases h0 : F32.lt v F32.zero = true
    · rw [if_pos h0]
      decide
    · rw [if_neg h0]
      by_cases h1 : F32.lt F32.one v = true
      · rw [if_pos h1]
        decide
      · rw [if_neg h1]
        rw [F32.le_eq_not_lt, F32.le_eq_not_lt]
        simp only [Bool.not_eq_true] at h0 h1
        rw [h0, h1]
        decide

theorem setBrushSize_size (t : ToolManager) (size : Int) :
    (t.setBrushSize size).m_brushSize = clamp size 1 200 ∧
      (t.setBrushSize size).m_tolerance = t.m_tolerance ∧
      (t.setBrushSize size).m_brushHardness = t.m_brushHardness := by
  unfold ToolManager.setBrushSize MIN_BRUSH_SIZE MAX_BRUSH_SIZE
  simp only
  split_ifs with h
  · exact ⟨rfl, rfl, rfl⟩
  · exact ⟨not_not.mp h, rfl, rfl⟩

theorem setTolerance_tolerance (t : ToolManager) (tolerance : Int) :
    (t.setTolerance tolerance).m_tolerance = clamp tolerance 0 255 ∧
      (t.setTolerance tolerance).m_brushSize = t.m_brushSize ∧
      (t.setTolerance tolerance).m_brushHardness = t.m_brushHardness := by
  unfold ToolManager.setTolerance MIN_TOLERANCE MAX_TOLERANCE
  simp only
  split_ifs with h
  · exact ⟨rfl, rfl, rfl⟩
  · exact ⟨not_not.mp h, rfl, rfl⟩

theorem setBrushHardness_cases (t : ToolManager) (a : FloatArg) :
    (t.setBrushHardness a).m_brushSize = t.m_brushSize ∧
      (t.setBrushHardness a).m_tolerance = t.m_tolerance ∧
      ((t.setBrushHardness a).m_brushHardness = t.m_brushHardness ∨
        clampUnit a = some (t.setBrushHardness a).m_brushHardness) := by
  unfold ToolManager.setBrushHardness
  cases e : clampUnit a with
  | none => exact ⟨rfl, rfl, Or.inl rfl⟩
  | some h =>
    simp only
    split_ifs
    · exact ⟨rfl, rfl, Or.inr rfl⟩
    · exact ⟨rfl, rfl, Or.inl rfl⟩

theorem setCurrentTool_frame (t : ToolManager) (tool : Tool) :
    (t.setCurrentTool tool).m_brushSize = t.m_brushSize ∧
      (t.setCurrentTool tool).m_tolerance = t.m_tolerance ∧
      (t.setCurrentTool tool).m_brushHardness = t.m_brushHardness := by
  unfold ToolManager.setCurrentTool
  split_ifs <;> exact ⟨rfl, rfl, rfl⟩

theorem runCalls_snoc (calls : List ToolCall) (c : ToolCall) (t : ToolManager) :
    runCalls (calls ++ [c]) t = c.apply (runCalls calls t) := by
  unfold runCalls
  rw [List.foldl_append]
  rfl

theorem lastBrushSize_snoc (calls : List ToolCall) (c : ToolCall) :
    lastBrushSize (calls ++ [c]) =
      (match c with
        | ToolCall.setBrushSize size => some size
        | _ => lastBrushSize calls) := by
  unfold lastBrushSize
  rw [List.foldl_append]
  rfl

theorem lastTolerance_snoc (calls : List ToolCall) (c : ToolCall) :
    lastTolerance (calls ++ [c]) =
      (match c with
        | ToolCall.setTolerance tolerance => some tolerance
        | _ => lastTolerance calls) := by
  unfold lastTolerance
  rw [List.foldl_append]
  rfl

theorem mem_rangeIncl (lo hi v : Int) : v ∈ rangeIncl lo hi ↔ lo ≤ v ∧ v ≤ hi := by
  unfold rangeIncl
  simp only [List.mem_map, List.mem_range]
  constructor
  · rintro ⟨i, hi1, rfl⟩
    omega
  · rintro ⟨h1, h2⟩
    exact ⟨(v - lo).toNat, by omega, by omega⟩

theorem rangeIncl_nodup (lo hi : Int) : (rangeIncl lo hi).Nodup := by
  unfold rangeIncl
  have hf : Function.Injective (fun (i : Nat) => lo + (i : Int)) := by
    intro a b h
    simp only at h
    omega
  exact (List.nodup_range _).map hf

theorem mem_coords (b : BrushBounds) (pt : Point) :
    pt ∈ b.coords ↔ b.minX ≤ pt.x ∧ pt.x ≤ b.maxX ∧ b.minY ≤ pt.y ∧ pt.y ≤ b.maxY := by
  unfold BrushBounds.coords
  simp only [List.mem_flatMap, List.mem_map, mem_rangeIncl]
  constructor
  · rintro ⟨y, hy, x, hx, rfl⟩
    exact ⟨hx.1, hx.2, hy.1, hy.2⟩
  · rintro ⟨h1, h2, h3, h4⟩
    exact ⟨pt.y, ⟨h3, h4⟩, pt.x, ⟨h1, h2⟩, rfl⟩

theorem coords_nodup (b : BrushBounds) : b.coords.Nodup := by
  unfold BrushBounds.coords
  rw [List.nodup_flatMap]
  constructor
  · intro y _
    apply List.Nodup.map
    · intro a c h
      simp only [Point.mk.injEq] at h
      exact h.1
    · exact rangeIncl_nodup _ _
  · apply List.Pairwise.imp _ (rangeIncl_nodup b.minY b.maxY)
    intro y y' hne
    intro pt h1 h2
    simp only [List.mem_map] at h1 h2
    obtain ⟨x, _, rfl⟩ := h1
    obtain ⟨x', _, e⟩ := h2
    simp only [Point.mk.injEq] at e
    exact hne e.2.symm

theorem updateAt_shape (coords : List Point) (g : Point → Vec4b → Vec4b) (m : Mat) :
    (m.updateAt coords g).rows = m.rows ∧ (m.updateAt coords g).cols = m.cols ∧
      (m.updateAt coords g).data.length = m.data.length := by
  unfold Mat.updateAt
  induction coords generalizing m with
  | nil => exact ⟨rfl, rfl, rfl⟩
  | cons pt rest ih =>
    simp only [List.foldl_cons]
    obtain ⟨h1, h2, h3⟩ := ih (m.setAt pt.y pt.x (g pt (m.at pt.y pt.x)))
    refine ⟨h1, h2, ?_⟩
    rw [h3]
    simp [Mat.setAt]

theorem Mat.at_setAt_self (m : Mat) (y x : Int) (v : Vec4b)
    (h : offset m.cols y x < m.data.length) : (m.setAt y x v).at y x = v := by
  unfold Mat.at Mat.setAt
  exact getD_set_self _ _ _ _ h

/-- A pixel the loop does not visit keeps its value. -/
theorem updateAt_frame (coords : List Point) (g : Point → Vec4b → Vec4b) (m : Mat)
    (q : Point) (hq : 0 ≤ q.x ∧ q.x < (m.cols : Int) ∧ 0 ≤ q.y)
    (hin : ∀ pt ∈ coords, 0 ≤ pt.x ∧ pt.x < (m.cols : Int) ∧ 0 ≤ pt.y)
    (hnot : q ∉ coords) :
    (m.updateAt coords g).at q.y q.x = m.at q.y q.x := by
  unfold Mat.updateAt
  induction coords generalizing m with
  | nil => rfl
  | cons pt rest ih =>
    simp only [List.foldl_cons]
    have hpt := hin pt (List.mem_cons_self _ _)
    have hne : pt ≠ q := fun e => hnot (e ▸ List.mem_cons_self _ _)
    rw [ih (m.setAt pt.y pt.x (g pt (m.at pt.y pt.x))) hq
      (fun r hr => hin r (List.mem_cons_of_mem _ hr))
      (fun hr => hnot (List.mem_cons_of_mem _ hr))]
    apply Mat.at_setAt_other
    intro e
    apply hne
    obtain ⟨e1, e2⟩ := offset_inj m.cols pt.y pt.x q.y q.x hpt.1 hpt.2.1 hq.1 hq.2.1
      hpt.2.2 hq.2.2 e
    cases pt
    cases q
    simp only at e1 e2
    rw [e1, e2]

/-- A pixel the loop visits (once) ends with the value the body stores. -/
theorem updateAt_value (coords : List Point) (g : Point → Vec4b → Vec4b) (m : Mat)
    (q : Point) (hq : 0 ≤ q.x ∧ q.x < (m.cols : Int) ∧ 0 ≤ q.y)
    (hlt : offset m.cols q.y q.x < m.data.length)
    (hin : ∀ pt ∈ coords, 0 ≤ pt.x ∧ pt.x < (m.cols : Int) ∧ 0 ≤ pt.y)
    (hnd : coords.Nodup) (hmem : q ∈ coords) :
    (m.updateAt coords g).at q.y q.x = g q (m.at q.y q.x) := by
  induction coords generalizing m with
  | nil => simp at hmem
  | cons pt rest ih =>
    have hpt := hin pt (List.mem_cons_self _ _)
    rw [List.nodup_cons] at hnd
    have hstep : m.updateAt (pt :: rest) g =
        (m.setAt pt.y pt.x (g pt (m.at pt.y pt.x))).updateAt rest g := rfl
    rw [hstep]
    by_cases e : q = pt
    · subst e
      rw [updateAt_frame rest g (m.setAt q.y q.x (g q (m.at q.y q.x))) q hq
        (fun r hr => hin r (List.mem_cons_of_mem _ hr)) hnd.1]
      exact Mat.at_setAt_self m q.y q.x _ hlt
    · have hmem2 : q ∈ rest := by
        rcases List.mem_cons.mp hmem with h | h
        · exact absurd h e
        · exact h
      have hlen : (m.setAt pt.y pt.x (g pt (m.at pt.y pt.x))).data.length = m.data.length := by
        simp [Mat.setAt]
      rw [ih (m.setAt pt.y pt.x (g pt (m.at pt.y pt.x))) hq (by rw [hlen]; exact hlt)
        (fun r hr => hin r (List.mem_cons_of_mem _ hr)) hnd.2 hmem2]
      congr 1
      apply Mat.at_setAt_other
      intro e2
      apply e
      obtain ⟨e1, e3⟩ := offset_inj m.cols pt.y pt.x q.y q.x hpt.1 hpt.2.1 hq.1 hq.2.1
        hpt.2.2 hq.2.2 e2
      cases pt
      cases q
      simp only at e1 e3
      rw [e1, e3]

theorem brushBounds_inImage (img : Mat) (centerX centerY radius : Int) (pt : Point)
    (h : pt ∈ (brushBounds img centerX centerY radius).coords) : img.inImage pt := by
  rw [mem_coords] at h
  unfold brushBounds at h
  unfold Mat.inImage
  simp only at h
  omega

theorem brushRadius_pos (diameter : Int) : 1 ≤ brushRadius diameter := by
  unfold brushRadius
  simp only
  split_ifs <;> omega

/-! ## C14: a brush of diameter 0 or 1 -/

set_option maxRecDepth 10000 in
/-- Counterexample to C14 as stated: with diameter 1 (so diameter / 2 = 0) an
erase at the only pixel of an opaque 1x1 image clears its alpha, and a repair
at the only pixel of a cleared 1x1 image restores it: neither call leaves the
current buffer unchanged. -/
theorem brush_diameter_one_has_effect :
    Int.tdiv 1 2 = 0 ∧
      ((dotProcessor 255).eraseWithBrush 0 0 1 F32.one).m_currentImage = dot 0 ∧
      (dotProcessor 255).m_currentImage = dot 255 ∧
      ((dotProcessor 0).repairWithBrush 0 0 1).m_currentImage = dot 255 ∧
      (dotProcessor 0).m_currentImage = dot 0 :=
  ⟨by decide, by decide, by decide, by decide, by decide⟩

/-- C14, amended. The radius never resolves to 0: when diameter / 2 is below 1
(diameter 0 or 1, or a negative diameter) it is raised to 1, so eraseWithBrush
and repairWithBrush act exactly as they do with diameter 2, for every
processor, centre and hardness. -/
theorem brush_radius_raised_to_one (p : ImageProcessor) (centerX centerY diameter : Int)
    (hardness : F32) (h : Int.tdiv diameter 2 < 1) :
    brushRadius diameter = 1 ∧
      p.eraseWithBrush centerX centerY diameter hardness =
        p.eraseWithBrush centerX centerY 2 hardness ∧
      p.repairWithBrush centerX centerY diameter = p.repairWithBrush centerX centerY 2 := by
  have hr : brushRadius diameter = 1 := by
    unfold brushRadius
    simp only [h, if_true]
  have hr2 : brushRadius 2 = 1 := by decide
  refine ⟨hr, ?_, ?_⟩
  · unfold ImageProcessor.eraseWithBrush
    rw [hr, hr2]
  · unfold ImageProcessor.repairWithBrush
    rw [hr, hr2]

/-- Witness of C14 (amended) at diameter 1 on the 3x3 sample. -/
theorem brush_radius_raised_to_one_witness :
    brushRadius 1 = 1 ∧
      sampleProcessor.eraseWithBrush 1 1 1 F32.one =
        sampleProcessor.eraseWithBrush 1 1 2 F32.one ∧
      sampleProcessor.repairWithBrush 1 1 1 = sampleProcessor.repairWithBrush 1 1 2 :=
  brush_radius_raised_to_one sampleProcessor 1 1 1 F32.one (by decide)

/-! ## C15: the brushes stay inside the buffers -/

/-- C15. For every centre, diameter and hardness, every pixel visited by the
loops of eraseWithBrush and repairWithBrush lies inside the current image, and
inside the original image when it has the dimensions of the current one; in a
well-formed buffer its row-major index is below the buffer length; and when
the square around the centre does not meet the image both methods return the
processor unchanged. -/
theorem brush_bounds_safe (p : ImageProcessor) (centerX centerY diameter : Int)
    (hardness : F32) :
    (∀ pt ∈ (brushBounds p.m_currentImage centerX centerY (brushRadius diameter)).coords,
        p.m_currentImage.inImage pt ∧
        (p.m_currentImage.wellFormed →
          offset p.m_currentImage.cols pt.y pt.x < p.m_currentImage.data.length) ∧
        (p.m_originalImage.rows = p.m_currentImage.rows ∧
            p.m_originalImage.cols = p.m_currentImage.cols →
          p.m_originalImage.inImage pt)) ∧
      (centerX + brushRadius diameter < 0 ∨
          (p.m_currentImage.cols : Int) ≤ centerX - brushRadius diameter ∨
          centerY + brushRadius diameter < 0 ∨
          (p.m_currentImage.rows : Int) ≤ centerY - brushRadius diameter →
        p.eraseWithBrush centerX centerY diameter hardness = p ∧
          p.repairWithBrush centerX centerY diameter = p) := by
  constructor
  · intro pt hpt
    have him := brushBounds_inImage _ _ _ _ pt hpt
    refine ⟨him, ?_, ?_⟩
    · intro hwf
      unfold Mat.wellFormed at hwf
      rw [hwf]
      unfold Mat.inImage at him
      exact offset_lt _ _ _ _ him.1 him.2.1 him.2.2.1 him.2.2.2
    · rintro ⟨h1, h2⟩
      unfold Mat.inImage at *
      rw [h1, h2]
      exact him
  · intro hmiss
    have hguard : (brushBounds p.m_currentImage centerX centerY (brushRadius diameter)).minX >
          (brushBounds p.m_currentImage centerX centerY (brushRadius diameter)).maxX ∨
        (brushBounds p.m_currentImage centerX centerY (brushRadius diameter)).minY >
          (brushBounds p.m_currentImage centerX centerY (brushRadius diameter)).maxY := by
      have hr := brushRadius_pos diameter
      unfold brushBounds
      simp only
      omega
    constructor
    · unfold ImageProcessor.eraseWithBrush
      simp only [hguard, if_true]
      split_ifs <;> rfl
    · unfold ImageProcessor.repairWithBrush
      simp only [hguard, if_true]
      split_ifs <;> rfl

/-- Witness of C15: on the 3x3 sample a brush of diameter 4 centred at (0, 0)
visits only pixels of both buffers, and one centred at (-5, 7) is a no-op. -/
theorem brush_bounds_safe_witness :
    (∀ pt ∈ (brushBounds sampleProcessor.m_currentImage 0 0 (brushRadius 4)).coords,
        sampleProcessor.m_currentImage.inImage pt ∧
        offset sampleProcessor.m_currentImage.cols pt.y pt.x <
          sampleProcessor.m_currentImage.data.length ∧
        sampleProcessor.m_originalImage.inImage pt) ∧
      sampleProcessor.eraseWithBrush (-5) 7 4 F32.one = sampleProcessor ∧
      sampleProcessor.repairWithBrush (-5) 7 4 = sampleProcessor :=
  ⟨fun pt hpt =>
      ⟨((brush_bounds_safe sampleProcessor 0 0 4 F32.one).1 pt hpt).1,
        ((brush_bounds_safe sampleProcessor 0 0 4 F32.one).1 pt hpt).2.1 (by decide),
        ((brush_bounds_safe sampleProcessor 0 0 4 F32.one).1 pt hpt).2.2 ⟨rfl, rfl⟩⟩,
    (brush_bounds_safe sampleProcessor (-5) 7 4 F32.one).2 (Or.inl (by decide))⟩

/-! ## Single-precision arithmetic on integers below 2^24 -/

theorem log2Fuel_le (fuel n : Nat) (h : 1 ≤ n) : 2 ^ log2Fuel fuel n ≤ n := by
  induction fuel generalizing n with
  | zero => simpa [log2Fuel] using h
  | succ fuel ih =>
    unfold log2Fuel
    split_ifs with h2
    · have := ih (n / 2) (by omega)
      rw [pow_succ]
      omega
    · simpa using h

theorem log2Fuel_lt (fuel n : Nat) (h : n ≤ fuel) : n < 2 ^ (log2Fuel fuel n + 1) := by
  induction fuel generalizing n with
  | zero =>
    have : n = 0 := by omega
    subst this
    simp [log2Fuel]
  | succ fuel ih =>
    unfold log2Fuel
    split_ifs with h2
    · have := ih (n / 2) (by omega)
      rw [pow_succ]
      omega
    · simp only [zero_add, pow_one]
      omega

theorem ilog2_ge (n k : Nat) (h : 2 ^ k ≤ n) : k ≤ ilog2 n := by
  by_contra hc
  have h1 := log2Fuel_lt n n le_rfl
  have h2 : 2 ^ (ilog2 n + 1) ≤ 2 ^ k := Nat.pow_le_pow_right (by decide) (by omega)
  unfold ilog2 at h2
  omega

theorem roundHalfEven_ge (n : Int) (d : Nat) : n / (d : Int) ≤ roundHalfEven n d := by
  unfold roundHalfEven
  simp only
  split_ifs <;> omega

theorem F32.round_small (m e : Int) (h : m.natAbs < 2 ^ 24) : F32.round m e = ⟨m, e⟩ := by
  unfold F32.round
  rw [if_pos h]

/-- A sum of 2^24 or more rounds to a value above every integer below 2^24. -/
theorem F32.round_big (S R : Int) (hS : 2 ^ 24 ≤ S) (hR : R < 2 ^ 24) :
    F32.le (F32.round S 0) ⟨R, 0⟩ = false := by
  have hnat : (2 : Nat) ^ 24 ≤ S.natAbs := by omega
  have hl := ilog2_ge S.natAbs 24 hnat
  have hpow : 2 ^ ilog2 S.natAbs ≤ S.natAbs := log2Fuel_le S.natAbs S.natAbs (by omega)
  obtain ⟨sh, hsh⟩ : ∃ sh, ilog2 S.natAbs = 23 + sh := ⟨ilog2 S.natAbs - 23, by omega⟩
  have hsh1 : 1 ≤ sh := by omega
  have esh : ilog2 S.natAbs - 23 = sh := by omega
  rw [hsh] at hpow
  have hS2 : (2 : Int) ^ 23 * (2 : Int) ^ sh ≤ S := by
    have h1 : ((2 ^ (23 + sh) : Nat) : Int) ≤ ((S.natAbs : Nat) : Int) := by exact_mod_cast hpow
    rw [Int.natCast_natAbs, abs_of_nonneg (by omega)] at h1
    push_cast at h1
    rw [pow_add] at h1
    exact h1
  have hpos : (0 : Int) < (2 : Int) ^ sh := by positivity
  have hq : (2 : Int) ^ 23 ≤ S / (2 : Int) ^ sh := by
    rw [Int.le_ediv_iff_mul_le hpos]
    exact hS2
  have hm := roundHalfEven_ge S (2 ^ sh)
  push_cast at hm
  have h2 : (2 : Int) ≤ (2 : Int) ^ sh := by
    have : (2 : Int) ^ 1 ≤ 2 ^ sh := pow_le_pow_right₀ (by decide) hsh1
    simpa using this
  have hprod : (2 : Int) ^ 23 * 2 ≤ roundHalfEven S (2 ^ sh) * (2 : Int) ^ sh :=
    Int.mul_le_mul (le_trans hq hm) h2 (by decide) (by omega)
  unfold F32.round
  rw [if_neg (by omega)]
  simp only [esh]
  unfold F32.le
  simp only [zero_add]
  have emin : min (sh : Int) 0 = 0 := min_eq_right (by omega)
  simp only [emin, sub_zero, Int.toNat_ofNat, Int.toNat_zero, pow_zero, mul_one,
    decide_eq_false_iff_not, not_le]
  omega

theorem F32.ofInt_small (n : Int) (h : n.natAbs < 2 ^ 24) : F32.ofInt n = ⟨n, 0⟩ :=
  F32.round_small n 0 h

theorem sq_bound (d r : Int) (h1 : -r ≤ d) (h2 : d ≤ r) : 0 ≤ d * d ∧ d * d ≤ r * r := by
  constructor
  · exact mul_self_nonneg d
  · nlinarith [mul_nonneg (sub_nonneg.mpr h2) (by linarith : (0 : Int) ≤ r + d)]

theorem F32.sq_exact (d : Int) (h1 : -4095 ≤ d) (h2 : d ≤ 4095) :
    F32.mul (F32.ofInt d) (F32.ofInt d) = ⟨d * d, 0⟩ := by
  rw [F32.ofInt_small d (by omega)]
  unfold F32.mul
  simp only [add_zero]
  have hb := sq_bound d 4095 h1 h2
  exact F32.round_small _ _ (by omega)

/-- The test `distSq <= radiusSq` decides the integer inequality while the
offsets and the radius are at most 4095. -/
theorem distSq_le_exact (dx dy r : Int) (hx1 : -4095 ≤ dx) (hx2 : dx ≤ 4095)
    (hy1 : -4095 ≤ dy) (hy2 : dy ≤ 4095) (hr1 : 0 ≤ r) (hr2 : r ≤ 4095) :
    F32.le (F32.add (F32.mul (F32.ofInt dx) (F32.ofInt dx))
        (F32.mul (F32.ofInt dy) (F32.ofInt dy))) (F32.ofInt (r * r)) =
      decide (dx * dx + dy * dy ≤ r * r) := by
  rw [F32.sq_exact dx hx1 hx2, F32.sq_exact dy hy1 hy2]
  have hbx := sq_bound dx 4095 hx1 hx2
  have hby := sq_bound dy 4095 hy1 hy2
  have hbr := sq_bound r 4095 (by omega) hr2
  rw [F32.ofInt_small (r * r) (by omega)]
  have hadd : F32.add ⟨dx * dx, 0⟩ ⟨dy * dy, 0⟩ = F32.round (dx * dx + dy * dy) 0 := by
    unfold F32.add
    simp
  rw [hadd]
  by_cases hs : dx * dx + dy * dy < 2 ^ 24
  · rw [F32.round_small _ _ (by omega)]
    unfold F32.le
    simp
  · rw [F32.round_big _ _ (by omega) (by omega)]
    symm
    rw [decide_eq_false_iff_not]
    omega

theorem brushFalloff_hard (r : Int) (hr1 : 0 ≤ r) (hr2 : r ≤ 4095) :
    (brushFalloff r F32.one).radiusSq = ⟨r * r, 0⟩ ∧
      (brushFalloff r F32.one).hardRadiusSq = ⟨r * r, 0⟩ := by
  have hbr := sq_bound r 4095 (by omega) hr2
  unfold brushFalloff
  simp only
  refine ⟨F32.ofInt_small _ (by omega), ?_⟩
  have h1 : F32.mul (F32.ofInt r) F32.one = ⟨r, 0⟩ := by
    rw [F32.ofInt_small r (by omega)]
    unfold F32.mul F32.one
    simp only [mul_one, add_zero]
    exact F32.round_small _ _ (by omega)
  rw [h1]
  unfold F32.mul
  simp only [add_zero]
  exact F32.round_small _ _ (by omega)

theorem F32.toUChar_mul_zero (x : F32) : F32.toUChar (F32.mul x (F32.sub F32.one F32.one)) = 0 := by
  have h0 : F32.sub F32.one F32.one = F32.zero := by decide
  rw [h0]
  unfold F32.mul F32.zero
  simp only [mul_zero, add_zero]
  rw [F32.round_small _ _ (by decide)]
  unfold F32.toUChar F32.toInt
  simp only [zero_mul, Int.zero_tdiv, ite_self, Int.zero_emod, Int.toNat_zero]
  rfl

/-- With hardness 1.0 and a radius of at most 4095 the loop body clears the
alpha of a pixel of the brush square exactly when its squared distance from
the centre is at most the squared radius. -/
theorem erasePixel_hard (r centerX centerY : Int) (pt : Point) (px : Vec4b)
    (hr1 : 0 ≤ r) (hr2 : r ≤ 4095)
    (hx1 : centerX - r ≤ pt.x) (hx2 : pt.x ≤ centerX + r)
    (hy1 : centerY - r ≤ pt.y) (hy2 : pt.y ≤ centerY + r) :
    erasePixel (brushFalloff r F32.one) centerX centerY pt px =
      if (pt.x - centerX) * (pt.x - centerX) + (pt.y - centerY) * (pt.y - centerY) ≤ r * r
      then { px with c3 := 0 } else px := by
  obtain ⟨e1, e2⟩ := brushFalloff_hard r hr1 hr2
  have hle := distSq_le_exact (pt.x - centerX) (pt.y - centerY) r (by omega) (by omega)
    (by omega) (by omega) hr1 hr2
  have hbr := sq_bound r 4095 (by omega) hr2
  rw [F32.ofInt_small (r * r) (by omega)] at hle
  have hlt := F32.le_eq_not_lt (F32.add (F32.mul (F32.ofInt (pt.x - centerX))
    (F32.ofInt (pt.x - centerX))) (F32.mul (F32.ofInt (pt.y - centerY))
    (F32.ofInt (pt.y - centerY)))) ⟨r * r, 0⟩
  rw [hle] at hlt
  unfold erasePixel brushStrength
  simp only
  rw [e1, e2, hle]
  by_cases hd : (pt.x - centerX) * (pt.x - centerX) + (pt.y - centerY) * (pt.y - centerY) ≤ r * r
  · simp only [hd, decide_True, Bool.true_eq, Bool.not_eq_true', if_true] at hlt ⊢
    simp only [hlt, Bool.false_eq_true, if_false]
    rw [F32.toUChar_mul_zero]
  · simp only [hd, decide_False, if_false, Bool.false_eq_true]

/-! ## The brushes, pixel by pixel -/

theorem not_empty_of_inImage (m : Mat) (pt : Point) (hwf : m.wellFormed)
    (hpt : m.inImage pt) : m.empty = false := by
  unfold Mat.wellFormed at hwf
  unfold Mat.inImage at hpt
  have hr : 0 < m.rows := by omega
  have hc : 0 < m.cols := by omega
  have ht : 0 < m.rows * m.cols := Nat.mul_pos hr hc
  unfold Mat.empty Mat.total
  have hne : m.data ≠ [] := by
    intro e
    rw [e] at hwf
    simp at hwf
    omega
  simp [hne]
  omega

/-- The value a loop over the brush square leaves at a pixel of the image. -/
theorem updateAt_brush (img : Mat) (centerX centerY radius : Int)
    (g : Point → Vec4b → Vec4b) (pt : Point) (hwf : img.wellFormed) (hpt : img.inImage pt) :
    (img.updateAt (brushBounds img centerX centerY radius).coords g).at pt.y pt.x =
      if pt ∈ (brushBounds img centerX centerY radius).coords
      then g pt (img.at pt.y pt.x) else img.at pt.y pt.x := by
  have hin : ∀ r ∈ (brushBounds img centerX centerY radius).coords,
      0 ≤ r.x ∧ r.x < (img.cols : Int) ∧ 0 ≤ r.y := by
    intro r hr
    have := brushBounds_inImage img centerX centerY radius r hr
    unfold Mat.inImage at this
    exact ⟨this.1, this.2.1, this.2.2.1⟩
  have hpt2 := hpt
  unfold Mat.inImage at hpt2
  have hq : 0 ≤ pt.x ∧ pt.x < (img.cols : Int) ∧ 0 ≤ pt.y := ⟨hpt2.1, hpt2.2.1, hpt2.2.2.1⟩
  by_cases hmem : pt ∈ (brushBounds img centerX centerY radius).coords
  · rw [if_pos hmem]
    apply updateAt_value _ _ _ _ hq _ hin (coords_nodup _) hmem
    unfold Mat.wellFormed at hwf
    rw [hwf]
    exact offset_lt _ _ _ _ hpt2.1 hpt2.2.1 hpt2.2.2.1 hpt2.2.2.2
  · rw [if_neg hmem]
    exact updateAt_frame _ _ _ _ hq hin hmem

theorem eraseWithBrush_frame (p : ImageProcessor) (centerX centerY diameter : Int)
    (hardness : F32) :
    (p.sharedBuffer = false →
        (p.eraseWithBrush centerX centerY diameter hardness).m_originalImage =
          p.m_originalImage) ∧
      (p.sharedBuffer = true → p.m_originalImage = p.m_currentImage →
        (p.eraseWithBrush centerX centerY diameter hardness).m_originalImage =
          (p.eraseWithBrush centerX centerY diameter hardness).m_currentImage) ∧
      (p.eraseWithBrush centerX centerY diameter hardness).m_labImage = p.m_labImage ∧
      (p.eraseWithBrush centerX centerY diameter hardness).m_currentImage.rows =
        p.m_currentImage.rows ∧
      (p.eraseWithBrush centerX centerY diameter hardness).m_currentImage.cols =
        p.m_currentImage.cols := by
  unfold ImageProcessor.eraseWithBrush
  simp only
  split_ifs
  · exact ⟨fun _ => rfl, fun _ h => h, rfl, rfl, rfl⟩
  · exact ⟨fun _ => rfl, fun _ h => h, rfl, rfl, rfl⟩
  · exact ⟨(writeCurrent_original p _).1, fun h _ => (writeCurrent_original p _).2 h, rfl,
      (updateAt_shape _ _ _).1, (updateAt_shape _ _ _).2.1⟩

/-- The value eraseWithBrush leaves at a pixel of the image. -/
theorem eraseWithBrush_at (p : ImageProcessor) (centerX centerY diameter : Int)
    (hardness : F32) (pt : Point) (hwf : p.m_currentImage.wellFormed)
    (hpt : p.m_currentImage.inImage pt) :
    (p.eraseWithBrush centerX centerY diameter hardness).m_currentImage.at pt.y pt.x =
      if pt ∈ (brushBounds p.m_currentImage centerX centerY (brushRadius diameter)).coords
      then erasePixel (brushFalloff (brushRadius diameter) hardness) centerX centerY pt
        (p.m_currentImage.at pt.y pt.x)
      else p.m_currentImage.at pt.y pt.x := by
  unfold ImageProcessor.eraseWithBrush
  rw [not_empty_of_inImage _ pt hwf hpt]
  simp only [Bool.false_eq_true, if_false]
  split_ifs with hg hmem hmem
  · exfalso
    rw [mem_coords] at hmem
    omega
  · rfl
  · exact (updateAt_brush _ _ _ _ _ pt hwf hpt).trans (if_pos hmem)
  · exact (updateAt_brush _ _ _ _ _ pt hwf hpt).trans (if_neg hmem)

/-- The value repairWithBrush leaves at a pixel of the image. -/
theorem repairWithBrush_at (p : ImageProcessor) (centerX centerY diameter : Int)
    (pt : Point) (hwf : p.m_currentImage.wellFormed) (hpt : p.m_currentImage.inImage pt)
    (horig : p.m_originalImage.empty = false) :
    (p.repairWithBrush centerX centerY diameter).m_currentImage.at pt.y pt.x =
      if pt ∈ (brushBounds p.m_currentImage centerX centerY (brushRadius diameter)).coords
      then repairPixel (brushFalloff (brushRadius diameter) F32.lit0_8) centerX centerY pt
        (p.m_currentImage.at pt.y pt.x)
        (if p.sharedBuffer then p.m_currentImage.at pt.y pt.x
          else p.m_originalImage.at pt.y pt.x)
      else p.m_currentImage.at pt.y pt.x := by
  unfold ImageProcessor.repairWithBrush
  rw [not_empty_of_inImage _ pt hwf hpt, horig]
  simp only [Bool.false_eq_true, or_self, if_false]
  by_cases hmem : pt ∈ (brushBounds p.m_currentImage centerX centerY
      (brushRadius diameter)).coords
  · rw [if_pos hmem, if_neg (by rw [mem_coords] at hmem; omega)]
    exact (updateAt_brush _ _ _ _ _ pt hwf hpt).trans (if_pos hmem)
  · rw [if_neg hmem]
    split
    · rfl
    · exact (updateAt_brush _ _ _ _ _ pt hwf hpt).trans (if_neg hmem)

theorem sq_gt (d r : Int) (hr : 0 ≤ r) (h : d < -r ∨ r < d) : r * r < d * d := by
  rcases h with h | h
  · nlinarith [mul_pos (by linarith : (0 : Int) < -d - r) (by linarith : (0 : Int) < -d + r + 1)]
  · nlinarith [mul_pos (by linarith : (0 : Int) < d - r) (by linarith : (0 : Int) < d + r + 1)]

theorem brushRadius_eq (diameter : Int) (h : 2 ≤ diameter) :
    brushRadius diameter = diameter / 2 := by
  unfold brushRadius
  rw [Int.tdiv_eq_ediv (by omega) (by decide)]
  simp only
  rw [if_neg (by omega)]

/-! ## C12: hard-edged erase -/

set_option maxRecDepth 10000 in
/-- Counterexample to C12 as stated, at diameter 8192: the only pixel of an
opaque 1x1 image lies at squared distance 4096^2 + 1 from the centre
(-4096, -1), which is more than (8192/2)^2, yet the single-precision sum
4096^2 + 1 rounds to 4096^2 and the pixel is cleared. -/
theorem eraseWithBrush_hard_8192_clears_outside :
    ((dotProcessor 255).eraseWithBrush (-4096) (-1) 8192 F32.one).m_currentImage = dot 0 ∧
      (dotProcessor 255).m_currentImage = dot 255 ∧
      (8192 / 2) * (8192 / 2) < (0 - (-4096)) * (0 - (-4096)) + (0 - (-1)) * (0 - (-1 : Int)) :=
  ⟨by decide, by decide, by decide⟩

/-- C12, amended to diameters from 2 to 8191. For every well-formed image,
every centre and every pixel of the image, eraseWithBrush with hardness 1.0
sets the alpha of the pixel to 0 when its squared distance from the centre is
at most (diameter/2)^2 and leaves the pixel unchanged otherwise; the colour
channels of every pixel, the Lab cache and the image size are unchanged; the
original buffer is unchanged when it has a buffer of its own, and is the
current buffer after the call as well when the two share one buffer (the
state resize leaves). -/
theorem eraseWithBrush_hard (p : ImageProcessor) (centerX centerY diameter : Int)
    (pt : Point) (hwf : p.m_currentImage.wellFormed) (hd1 : 2 ≤ diameter)
    (hd2 : diameter ≤ 8191) (hpt : p.m_currentImage.inImage pt) :
    (p.eraseWithBrush centerX centerY diameter F32.one).m_currentImage.at pt.y pt.x =
        (if (pt.x - centerX) * (pt.x - centerX) + (pt.y - centerY) * (pt.y - centerY) ≤
            (diameter / 2) * (diameter / 2)
          then { p.m_currentImage.at pt.y pt.x with c3 := 0 }
          else p.m_currentImage.at pt.y pt.x) ∧
      (p.sharedBuffer = false →
        (p.eraseWithBrush centerX centerY diameter F32.one).m_originalImage =
          p.m_originalImage) ∧
      (p.sharedBuffer = true → p.m_originalImage = p.m_currentImage →
        (p.eraseWithBrush centerX centerY diameter F32.one).m_originalImage =
          (p.eraseWithBrush centerX centerY diameter F32.one).m_currentImage) ∧
      (p.eraseWithBrush centerX centerY diameter F32.one).m_labImage = p.m_labImage ∧
      (p.eraseWithBrush centerX centerY diameter F32.one).m_currentImage.rows =
        p.m_currentImage.rows ∧
      (p.eraseWithBrush centerX centerY diameter F32.one).m_currentImage.cols =
        p.m_currentImage.cols := by
  refine ⟨?_, eraseWithBrush_frame p centerX centerY diameter F32.one⟩
  rw [eraseWithBrush_at p centerX centerY diameter F32.one pt hwf hpt,
    brushRadius_eq diameter hd1]
  have hr1 : 0 ≤ diameter / 2 := by omega
  have hr2 : diameter / 2 ≤ 4095 := by omega
  generalize diameter / 2 = r at hr1 hr2
  have hpt2 := hpt
  unfold Mat.inImage at hpt2
  by_cases hmem : pt ∈ (brushBounds p.m_currentImage centerX centerY r).coords
  · rw [if_pos hmem]
    rw [mem_coords] at hmem
    unfold brushBounds at hmem
    simp only at hmem
    exact erasePixel_hard r centerX centerY pt _ hr1 hr2 (by omega) (by omega) (by omega)
      (by omega)
  · rw [if_neg hmem]
    rw [mem_coords] at hmem
    unfold brushBounds at hmem
    simp only at hmem
    have hout : (pt.x - centerX < -r ∨ r < pt.x - centerX) ∨
        (pt.y - centerY < -r ∨ r < pt.y - centerY) := by omega
    have hx := mul_self_nonneg (pt.x - centerX)
    have hy := mul_self_nonneg (pt.y - centerY)
    rw [if_neg]
    rcases hout with h | h
    · have := sq_gt _ r hr1 h
      omega
    · have := sq_gt _ r hr1 h
      omega

/-- Witness of C12 (amended): diameter 20 and centre (50, 50) on a 100x100
opaque red image; the pixel (50, 40), at distance 10, gets alpha 0 and the
pixel (50, 39), at distance 11, keeps its value. -/
theorem eraseWithBrush_hard_witness :
    ((ImageProcessor.loadedUniform cvtSample 100 100 red).eraseWithBrush 50 50 20
        F32.one).m_currentImage.at 40 50 = { red with c3 := 0 } ∧
      ((ImageProcessor.loadedUniform cvtSample 100 100 red).eraseWithBrush 50 50 20
        F32.one).m_currentImage.at 39 50 = red := by
  have hwf : (ImageProcessor.loadedUniform cvtSample 100 100 red).m_currentImage.wellFormed :=
    List.length_replicate _ _
  have h1 : (ImageProcessor.loadedUniform cvtSample 100 100 red).m_currentImage.inImage
      ⟨50, 40⟩ := ⟨by decide, by decide, by decide, by decide⟩
  have h2 : (ImageProcessor.loadedUniform cvtSample 100 100 red).m_currentImage.inImage
      ⟨50, 39⟩ := ⟨by decide, by decide, by decide, by decide⟩
  have e1 := (eraseWithBrush_hard _ 50 50 20 ⟨50, 40⟩ hwf (by decide) (by decide) h1).1
  have e2 := (eraseWithBrush_hard _ 50 50 20 ⟨50, 39⟩ hwf (by decide) (by decide) h2).1
  have u1 : (ImageProcessor.loadedUniform cvtSample 100 100 red).m_currentImage.at 40 50 =
      red := uniform_at 100 100 red ⟨50, 40⟩ h1
  have u2 : (ImageProcessor.loadedUniform cvtSample 100 100 red).m_currentImage.at 39 50 =
      red := uniform_at 100 100 red ⟨50, 39⟩ h2
  simp only [u1, u2] at e1 e2
  exact ⟨e1, e2⟩

/-! ## C16: the repair brush in the feather band -/

set_option maxRecDepth 10000 in
/-- C16 fails in the feather band. On a 1x1 image whose current and original
pixel both have the value 254 in all four channels, repairWithBrush at centre
(-2, -2) with diameter 6 (radius 3) finds the pixel at squared distance 8,
between (0.8 * 3)^2 and 3^2, and stores 253 in every channel: the blend
254 * (1 - b) + 254 * b is computed in single precision as a value just below
254 and truncated, so the result is not between the current and the original
value. -/
theorem repairWithBrush_feather_not_between :
    greyProcessor.m_currentImage.at 0 0 = ⟨254, 254, 254, 254⟩ ∧
      greyProcessor.m_originalImage.at 0 0 = ⟨254, 254, 254, 254⟩ ∧
      brushRadius 6 = 3 ∧
      16 * (3 * 3) < 25 * ((0 - (-2)) * (0 - (-2)) + (0 - (-2)) * (0 - (-2 : Int))) ∧
      (0 - (-2)) * (0 - (-2)) + (0 - (-2)) * (0 - (-2 : Int)) ≤ 3 * 3 ∧
      (greyProcessor.repairWithBrush (-2) (-2) 6).m_currentImage.at 0 0 =
        ⟨253, 253, 253, 253⟩ :=
  ⟨by decide, by decide, by decide, by decide, by decide, by decide⟩

/-! ## C17: softening is confined to the edge band -/

/-- The value a loop over the whole image leaves at a pixel of the image. -/
theorem updateAt_image (img : Mat) (g : Point → Vec4b → Vec4b) (pt : Point)
    (hwf : img.wellFormed) (hpt : img.inImage pt) :
    (img.updateAt img.coords g).at pt.y pt.x = g pt (img.at pt.y pt.x) := by
  have hpt2 := hpt
  unfold Mat.inImage at hpt2
  have hin : ∀ r ∈ img.coords, 0 ≤ r.x ∧ r.x < (img.cols : Int) ∧ 0 ≤ r.y := by
    intro r hr
    unfold Mat.coords at hr
    rw [mem_coords] at hr
    simp only at hr
    omega
  have hmem : pt ∈ img.coords := by
    unfold Mat.coords
    rw [mem_coords]
    simp only
    omega
  apply updateAt_value _ _ _ _ ⟨hpt2.1, hpt2.2.1, hpt2.2.2.1⟩ _ hin (coords_nodup _) hmem
  unfold Mat.wellFormed at hwf
  rw [hwf]
  exact offset_lt _ _ _ _ hpt2.1 hpt2.2.1 hpt2.2.2.1 hpt2.2.2.2

theorem foldl_min_const (l : List uchar) (h : ∀ v ∈ l, v = 255) : l.foldl min 255 = 255 := by
  induction l with
  | nil => rfl
  | cons v rest ih =>
    rw [List.foldl_cons, h v (List.mem_cons_self _ _)]
    exact ih (fun w hw => h w (List.mem_cons_of_mem _ hw))

theorem saturateSub_max (a : uchar) : saturateSub a 255 = 0 := by
  unfold saturateSub
  apply Fin.ext
  have := a.isLt
  simp only [Fin.val_zero]
  have e : (255 : uchar).val = 255 := rfl
  rw [e]
  omega

theorem softenPixel_colour (level : Int) (edgeVal alpha blurred : uchar) (px : Vec4b) :
    (softenPixel level edgeVal alpha blurred px).c0 = px.c0 ∧
      (softenPixel level edgeVal alpha blurred px).c1 = px.c1 ∧
      (softenPixel level edgeVal alpha blurred px).c2 = px.c2 := by
  unfold softenPixel
  split_ifs <;> exact ⟨rfl, rfl, rfl⟩

theorem softenPixel_off_edge (level : Int) (alpha blurred : uchar) (px : Vec4b) :
    softenPixel level 0 alpha blurred px = px := by
  unfold softenPixel
  rw [if_neg (by decide)]

theorem applySoftening_cases (structuringElement : Int → List (Int × Int))
    (gaussianBlur : Plane → Int → Plane) (image : Mat) (level : Int) :
    applySoftening structuringElement gaussianBlur image level = image ∨
      ∃ blurred : Plane, applySoftening structuringElement gaussianBlur image level =
        image.updateAt image.coords (fun pt px =>
          softenPixel level (edgeMask image (structuringElement (2 + level)) pt.y pt.x)
            (alphaPlane image pt.y pt.x) (blurred pt.y pt.x) px) := by
  unfold applySoftening Mat.clone
  simp only
  by_cases h : level = 0 ∨ image.empty = true
  · rw [if_pos h]
    exact Or.inl rfl
  · rw [if_neg h]
    exact Or.inr ⟨_, rfl⟩

/-- C17. applySoftening returns a new buffer computed from its input. With
level 0 the result equals the input. For every level and every pixel of a
well-formed image the result has the size of the input, the three colour
channels of the pixel are those of the input, the alpha is that of the input
where the edge mask dilate(alpha) - erode(alpha) is 0, and a pixel of alpha
255 whose structuring-element neighbours inside the image all have alpha 255
keeps alpha 255. -/
theorem applySoftening_confined (structuringElement : Int → List (Int × Int))
    (gaussianBlur : Plane → Int → Plane) (image : Mat) (level : Int) (pt : Point)
    (hwf : image.wellFormed) (hpt : image.inImage pt) :
    applySoftening structuringElement gaussianBlur image 0 = image ∧
      (applySoftening structuringElement gaussianBlur image level).rows = image.rows ∧
      (applySoftening structuringElement gaussianBlur image level).cols = image.cols ∧
      ((applySoftening structuringElement gaussianBlur image level).at pt.y pt.x).c0 =
        (image.at pt.y pt.x).c0 ∧
      ((applySoftening structuringElement gaussianBlur image level).at pt.y pt.x).c1 =
        (image.at pt.y pt.x).c1 ∧
      ((applySoftening structuringElement gaussianBlur image level).at pt.y pt.x).c2 =
        (image.at pt.y pt.x).c2 ∧
      (edgeMask image (structuringElement (2 + level)) pt.y pt.x = 0 →
        (applySoftening structuringElement gaussianBlur image level).at pt.y pt.x =
          image.at pt.y pt.x) ∧
      ((image.at pt.y pt.x).c3 = 255 →
        (∀ o ∈ structuringElement (2 + level),
          image.inImage ⟨pt.x + o.2, pt.y + o.1⟩ →
            (image.at (pt.y + o.1) (pt.x + o.2)).c3 = 255) →
        ((applySoftening structuringElement gaussianBlur image level).at pt.y pt.x).c3 =
          255) := by
  have hzero : applySoftening structuringElement gaussianBlur image 0 = image := by
    unfold applySoftening Mat.clone
    simp
  have hedge : edgeMask image (structuringElement (2 + level)) pt.y pt.x = 0 →
      (applySoftening structuringElement gaussianBlur image level).at pt.y pt.x =
        image.at pt.y pt.x := by
    intro he
    rcases applySoftening_cases structuringElement gaussianBlur image level with h | ⟨b, h⟩
    · rw [h]
    · rw [h, updateAt_image image _ pt hwf hpt]
      simp only [he]
      exact softenPixel_off_edge _ _ _ _
  have hcol : ((applySoftening structuringElement gaussianBlur image level).at pt.y pt.x).c0 =
        (image.at pt.y pt.x).c0 ∧
      ((applySoftening structuringElement gaussianBlur image level).at pt.y pt.x).c1 =
        (image.at pt.y pt.x).c1 ∧
      ((applySoftening structuringElement gaussianBlur image level).at pt.y pt.x).c2 =
        (image.at pt.y pt.x).c2 := by
    rcases applySoftening_cases structuringElement gaussianBlur image level with h | ⟨b, h⟩
    · rw [h]
      exact ⟨rfl, rfl, rfl⟩
    · rw [h, updateAt_image image _ pt hwf hpt]
      exact softenPixel_colour _ _ _ _ _
  have hshape : (applySoftening structuringElement gaussianBlur image level).rows = image.rows ∧
      (applySoftening structuringElement gaussianBlur image level).cols = image.cols := by
    rcases applySoftening_cases structuringElement gaussianBlur image level with h | ⟨b, h⟩
    · rw [h]
      exact ⟨rfl, rfl⟩
    · rw [h]
      exact ⟨(updateAt_shape _ _ _).1, (updateAt_shape _ _ _).2.1⟩
  refine ⟨hzero, hshape.1, hshape.2, hcol.1, hcol.2.1, hcol.2.2, hedge, ?_⟩
  intro ha hall
  have he : edgeMask image (structuringElement (2 + level)) pt.y pt.x = 0 := by
    unfold edgeMask
    have her : erode image.rows image.cols (structuringElement (2 + level))
        (alphaPlane image) pt.y pt.x = 255 := by
      unfold erode
      apply foldl_min_const
      intro v hv
      simp only [List.mem_map, List.mem_filter, decide_eq_true_eq] at hv
      obtain ⟨o, ⟨ho, hin⟩, rfl⟩ := hv
      unfold alphaPlane
      apply hall o ho
      unfold Mat.inImage
      simp only
      omega
    rw [her]
    exact saturateSub_max _
  rw [hedge he]
  exact ha

/-- Witness of C17: level 3 on the 3x3 image with one transparent corner, at
the centre pixel, whose neighbours under the cross-shaped element are all
opaque: the pixel keeps its value. -/
theorem applySoftening_confined_witness :
    applySoftening crossKernel blurSample cornerImage 0 = cornerImage ∧
      (applySoftening crossKernel blurSample cornerImage 3).at 1 1 = cornerImage.at 1 1 ∧
      ((applySoftening crossKernel blurSample cornerImage 3).at 1 1).c3 = 255 :=
  ⟨(applySoftening_confined crossKernel blurSample cornerImage 3 ⟨1, 1⟩ (by decide)
      (by decide)).1,
    (applySoftening_confined crossKernel blurSample cornerImage 3 ⟨1, 1⟩ (by decide)
      (by decide)).2.2.2.2.2.2.1 (by decide),
    (applySoftening_confined crossKernel blurSample cornerImage 3 ⟨1, 1⟩ (by decide)
      (by decide)).2.2.2.2.2.2.2 (by decide) (by decide)⟩

/-! ## The render cache: rectangles -/

theorem QRect.span_valid (a1 a2 : Int) (h : a1 ≤ a2) : QRect.span a1 a2 = (a1, a2) := by
  unfold QRect.span
  rw [if_neg (by omega)]

theorem QRect.isNull_valid (r : QRect) (hx : r.x1 ≤ r.x2) : r.isNull = false := by
  unfold QRect.isNull
  have : decide (r.x2 = r.x1 - 1) = false := by
    rw [decide_eq_false_iff_not]
    omega
  rw [this]
  rfl

theorem QRect.intersected_valid (a r : QRect) (ha : a.x1 ≤ a.x2 ∧ a.y1 ≤ a.y2)
    (hr : r.x1 ≤ r.x2 ∧ r.y1 ≤ r.y2)
    (ho : a.x1 ≤ r.x2 ∧ r.x1 ≤ a.x2 ∧ a.y1 ≤ r.y2 ∧ r.y1 ≤ a.y2) :
    a.intersected r = ⟨max a.x1 r.x1, max a.y1 r.y1, min a.x2 r.x2, min a.y2 r.y2⟩ := by
  unfold QRect.intersected
  rw [QRect.isNull_valid a ha.1, QRect.isNull_valid r hr.1, QRect.span_valid _ _ ha.1,
    QRect.span_valid _ _ ha.2, QRect.span_valid _ _ hr.1, QRect.span_valid _ _ hr.2]
  simp only [Bool.or_self, Bool.false_eq_true, if_false]
  rw [if_neg (by omega), if_neg (by omega)]

theorem QRect.contains_united (a r : QRect) (hx : r.x1 ≤ r.x2) (hy : r.y1 ≤ r.y2) :
    (a.united r).contains r = true := by
  have hr : r.isNull = false := by
    unfold QRect.isNull
    simp only [Bool.and_eq_false_imp, decide_eq_true_eq, decide_eq_false_iff_not]
    intro h
    omega
  have hself : r.contains r = true := by
    unfold QRect.contains QRect.span
    simp only [hr, Bool.or_self, Bool.false_eq_true, if_false]
    rw [if_neg (by omega), if_neg (by omega)]
  unfold QRect.united
  by_cases ha : a.isNull = true
  · rw [if_pos ha]
    exact hself
  · rw [if_neg ha, hr]
    simp only [Bool.false_eq_true, if_false]
    have hsx : QRect.span r.x1 r.x2 = (r.x1, r.x2) := by
      unfold QRect.span
      rw [if_neg (by omega)]
    have hsy : QRect.span r.y1 r.y2 = (r.y1, r.y2) := by
      unfold QRect.span
      rw [if_neg (by omega)]
    rw [hsx, hsy]
    generalize QRect.span a.x1 a.x2 = sa
    generalize QRect.span a.y1 a.y2 = sb
    unfold QRect.contains QRect.isNull
    simp only [hsx, hsy]
    have n1 : decide (max sa.2 r.x2 = min sa.1 r.x1 - 1) = false := by
      rw [decide_eq_false_iff_not]
      omega
    simp only [n1, Bool.false_and, Bool.false_or]
    have n2 : (decide (r.x2 = r.x1 - 1) && decide (r.y2 = r.y1 - 1)) = false := by
      have : decide (r.x2 = r.x1 - 1) = false := by
        rw [decide_eq_false_iff_not]
        omega
      rw [this]
      rfl
    simp only [n2, Bool.false_eq_true, if_false]
    have sx : QRect.span (min sa.1 r.x1) (max sa.2 r.x2) = (min sa.1 r.x1, max sa.2 r.x2) := by
      unfold QRect.span
      rw [if_neg (by omega)]
    have sy : QRect.span (min sb.1 r.y1) (max sb.2 r.y2) = (min sb.1 r.y1, max sb.2 r.y2) := by
      unfold QRect.span
      rw [if_neg (by omega)]
    rw [sx, sy]
    simp only
    rw [if_neg (by omega), if_neg (by omega)]

/-- The rectangle that `renderVisibleArea` renders, when the guards pass. -/
theorem visibleWithMargin_eq (c : CanvasWidget) (p : ImageProcessor) (view : ViewState)
    (hc : c.m_processor = true) (hp : p.hasImage = true)
    (hv : (c.getVisibleImageRect p view).isEmpty = false) :
    c.visibleWithMargin p view =
      ⟨max (max 0 view.topLeft.x + -100) 0, max (max 0 view.topLeft.y + -100) 0,
        min (min p.getWidth view.bottomRight.x - 1 + 100) (p.getWidth - 1),
        min (min p.getHeight view.bottomRight.y - 1 + 100) (p.getHeight - 1)⟩ ∧
      max 0 view.topLeft.x ≤ min p.getWidth view.bottomRight.x - 1 ∧
      max 0 view.topLeft.y ≤ min p.getHeight view.bottomRight.y - 1 := by
  have e : c.getVisibleImageRect p view =
      ⟨max 0 view.topLeft.x, max 0 view.topLeft.y, min p.getWidth view.bottomRight.x - 1,
        min p.getHeight view.bottomRight.y - 1⟩ := by
    unfold CanvasWidget.getVisibleImageRect QRect.ofSize
    simp only [hc, hp, Bool.not_true, Bool.or_self, Bool.false_eq_true, if_false,
      QRect.mk.injEq, true_and]
    omega
  rw [e] at hv
  unfold QRect.isEmpty at hv
  simp only [Bool.or_eq_false_iff, decide_eq_false_iff_not, not_lt, gt_iff_lt] at hv
  obtain ⟨h1, h2⟩ := hv
  refine ⟨?_, h1, h2⟩
  unfold CanvasWidget.visibleWithMargin
  rw [e]
  unfold QRect.adjust QRect.ofSize
  simp only
  rw [QRect.intersected_valid _ _ ⟨by simp only; omega, by simp only; omega⟩
    ⟨by simp only; omega, by simp only; omega⟩
    ⟨by simp only; omega, by simp only; omega, by simp only; omega, by simp only; omega⟩]
  simp only [QRect.mk.injEq, true_and]
  constructor <;> omega

/-! ## The render cache: `updateDisplayRegion` -/

theorem updateDisplayRegion_shape (p : ImageProcessor) (target : QImage) (region : QRect) :
    (p.updateDisplayRegion target region).rows = target.rows ∧
      (p.updateDisplayRegion target region).cols = target.cols ∧
      (p.updateDisplayRegion target region).data.length = target.data.length := by
  unfold ImageProcessor.updateDisplayRegion
  simp only
  split_ifs
  · exact ⟨rfl, rfl, rfl⟩
  · exact ⟨rfl, rfl, rfl⟩
  · exact updateAt_shape _ _ _

theorem isNull_eq_of_length (a b : QImage) (h : a.data.length = b.data.length) :
    QImage.isNull a = QImage.isNull b := by
  unfold QImage.isNull
  cases ha : a.data with
  | nil =>
    rw [ha] at h
    have : b.data = [] := List.length_eq_zero.mp h.symm
    rw [this]
  | cons x xs =>
    rw [ha] at h
    cases hb : b.data with
    | nil =>
      rw [hb] at h
      simp at h
    | cons y ys => rfl

/-- A pixel outside the region keeps its value in the display buffer. -/
theorem updateDisplayRegion_frame (p : ImageProcessor) (target : QImage) (region : QRect)
    (pt : Point) (hcols : target.cols = p.m_currentImage.cols)
    (hpt : 0 ≤ pt.x ∧ pt.x < (target.cols : Int) ∧ 0 ≤ pt.y)
    (hout : ¬ region.containsPoint pt) :
    (p.updateDisplayRegion target region).at pt.y pt.x = target.at pt.y pt.x := by
  unfold ImageProcessor.updateDisplayRegion
  simp only
  split_ifs
  · rfl
  · rfl
  · apply updateAt_frame _ _ _ _ hpt
    · intro r hr
      rw [mem_coords] at hr
      simp only at hr
      rw [hcols]
      omega
    · intro hmem
      apply hout
      rw [mem_coords] at hmem
      simp only at hmem
      unfold QRect.containsPoint
      unfold QRect.left QRect.right QRect.top QRect.bottom at *
      omega

/-! ## C19: a covered view is not rendered again -/

theorem renderVisibleArea_covered (c : CanvasWidget) (p : ImageProcessor) (view : ViewState)
    (h : c.m_renderedRegion.contains (c.visibleWithMargin p view) = true) :
    c.renderVisibleArea p view = c := by
  unfold CanvasWidget.renderVisibleArea
  simp only [h, Bool.not_true, Bool.false_eq_true, if_false, ite_self]

theorem renderVisibleArea_cases (c : CanvasWidget) (p : ImageProcessor) (view : ViewState) :
    c.renderVisibleArea p view = c ∨
      (c.m_processor = true ∧ p.hasImage = true ∧ QImage.isNull c.m_displayImage = false ∧
        (c.getVisibleImageRect p view).isEmpty = false ∧
        c.m_renderedRegion.contains (c.visibleWithMargin p view) = false ∧
        c.renderVisibleArea p view =
          { c with
            m_displayImage := p.updateDisplayRegion c.m_displayImage (c.visibleWithMargin p view)
            m_renderedRegion := c.m_renderedRegion.united (c.visibleWithMargin p view)
            renderCount := c.renderCount + 1 }) := by
  by_cases h1 : (!c.m_processor || !p.hasImage || QImage.isNull c.m_displayImage) = true
  · left
    unfold CanvasWidget.renderVisibleArea
    rw [if_pos h1]
  · by_cases h2 : (c.getVisibleImageRect p view).isEmpty = true
    · left
      unfold CanvasWidget.renderVisibleArea
      simp only
      rw [if_neg h1, if_pos h2]
    · by_cases h3 : c.m_renderedRegion.contains (c.visibleWithMargin p view) = true
      · left
        exact renderVisibleArea_covered c p view h3
      · right
        have h1b := h1
        simp only [Bool.or_eq_true, Bool.not_eq_true', not_or, Bool.not_eq_false,
          Bool.not_eq_true] at h1b
        have h2b := h2
        have h3b := h3
        simp only [Bool.not_eq_true] at h2b h3b
        refine ⟨h1b.1.1, h1b.1.2, h1b.2, h2b, h3b, ?_⟩
        unfold CanvasWidget.renderVisibleArea
        simp only
        rw [if_neg h1, if_neg h2, h3b]
        rfl

theorem renderVisibleArea_render (c : CanvasWidget) (p : ImageProcessor) (view : ViewState)
    (hc : c.m_processor = true) (hp : p.hasImage = true)
    (hd : QImage.isNull c.m_displayImage = false)
    (hv : (c.getVisibleImageRect p view).isEmpty = false)
    (hn : c.m_renderedRegion.contains (c.visibleWithMargin p view) = false) :
    c.renderVisibleArea p view =
      { c with
        m_displayImage := p.updateDisplayRegion c.m_displayImage (c.visibleWithMargin p view)
        m_renderedRegion := c.m_renderedRegion.united (c.visibleWithMargin p view)
        renderCount := c.renderCount + 1 } := by
  rcases renderVisibleArea_cases c p view with h | h
  · unfold CanvasWidget.renderVisibleArea
    simp only [hc, hp, hd, hv, hn, Bool.not_true, Bool.or_self, Bool.false_eq_true, if_false,
      Bool.not_false, if_true]
  · exact h.2.2.2.2.2

theorem renderVisibleArea_twice (c : CanvasWidget) (p : ImageProcessor) (view : ViewState) :
    (c.renderVisibleArea p view).renderVisibleArea p view = c.renderVisibleArea p view := by
  rcases renderVisibleArea_cases c p view with h | ⟨hc, hp, hd, hv, hn, h⟩
  · rw [h, h]
  · apply renderVisibleArea_covered
    have e : (c.renderVisibleArea p view).visibleWithMargin p view =
        c.visibleWithMargin p view := by
      rw [h]
      rfl
    rw [e]
    have hval := visibleWithMargin_eq c p view hc hp hv
    rw [h]
    simp only
    apply QRect.contains_united
    · rw [hval.1]
      simp only
      omega
    · rw [hval.1]
      simp only
      omega

/-- C19. If the visible rectangle, grown by the margin of 100 pixels and
clipped to the image, is contained in the rendered region, renderVisibleArea
returns the canvas as it was: no render, the display buffer and the rendered
region unchanged. A second renderVisibleArea call with the same view state
and the same image changes nothing, so the two calls together perform at most
one render. -/
theorem renderVisibleArea_idempotent (c : CanvasWidget) (p : ImageProcessor)
    (view : ViewState) :
    (c.m_renderedRegion.contains (c.visibleWithMargin p view) = true →
        c.renderVisibleArea p view = c) ∧
      (c.renderVisibleArea p view).renderVisibleArea p view = c.renderVisibleArea p view ∧
      ((c.renderVisibleArea p view).renderVisibleArea p view).renderCount ≤
        c.renderCount + 1 := by
  refine ⟨renderVisibleArea_covered c p view, renderVisibleArea_twice c p view, ?_⟩
  rw [renderVisibleArea_twice]
  rcases renderVisibleArea_cases c p view with h | ⟨-, -, -, -, -, h⟩
  · rw [h]
    omega
  · rw [h]

/-- Witness of C19: a 3x3 canvas in incremental mode whose rendered region is
the whole image; a view of the top left pixel is covered, and the call leaves
the canvas as it was. -/
theorem renderVisibleArea_idempotent_witness :
    coveredCanvas.m_isLargeImage = true ∧
      coveredCanvas.m_renderedRegion.contains
        (coveredCanvas.visibleWithMargin sampleProcessor ⟨⟨0, 0⟩, ⟨1, 1⟩⟩) = true ∧
      coveredCanvas.renderVisibleArea sampleProcessor ⟨⟨0, 0⟩, ⟨1, 1⟩⟩ = coveredCanvas :=
  ⟨rfl, by decide,
    (renderVisibleArea_idempotent coveredCanvas sampleProcessor ⟨⟨0, 0⟩, ⟨1, 1⟩⟩).1
      (by decide)⟩

/-! ## C20: the rendered region after two distant views -/

theorem largeProcessor_hasImage : largeProcessor.hasImage = true := by
  unfold ImageProcessor.hasImage
  rw [not_empty_of_inImage largeProcessor.m_currentImage ⟨0, 0⟩ (List.length_replicate _ _)
    ⟨by decide, by decide, by decide, by decide⟩]
  rfl

theorem rebuildFullCache_large :
    freshCanvas.rebuildFullCache largeProcessor =
      ⟨true, QImage.transparent 4000 3000, true, QRect.null, 0⟩ := by
  unfold CanvasWidget.rebuildFullCache
  rw [largeProcessor_hasImage]
  have hc : freshCanvas.m_processor = true := rfl
  rw [hc]
  simp only [Bool.and_self, if_true]
  have hw : largeProcessor.getWidth = 4000 := rfl
  have hh : largeProcessor.getHeight = 3000 := rfl
  rw [hw, hh]
  have hl : decide ((4000 : Int) * 3000 > LARGE_IMAGE_THRESHOLD) = true := by decide
  rw [hl]
  rfl

/-- C20 fails: the rendered region is kept as one bounding rectangle. After
rebuildFullCache on a 4000 x 3000 opaque red image (incremental mode) and two
renderVisibleArea calls, for the top left and for the bottom right 800 x 600
pixels, the rendered region is the whole image, yet the pixel (2000, 100),
which neither call rendered, is still transparent in the display buffer while
the RGBA conversion of the current buffer at that pixel is opaque red. -/
theorem renderedRegion_covers_unrendered_pixel :
    ((freshCanvas.rebuildFullCache largeProcessor).renderViews largeProcessor
        [viewTopLeft, viewBottomRight]).m_isLargeImage = true ∧
      ((freshCanvas.rebuildFullCache largeProcessor).renderViews largeProcessor
        [viewTopLeft, viewBottomRight]).m_renderedRegion = ⟨0, 0, 3999, 2999⟩ ∧
      QRect.containsPoint ⟨0, 0, 3999, 2999⟩ ⟨2000, 100⟩ ∧
      ((freshCanvas.rebuildFullCache largeProcessor).renderViews largeProcessor
        [viewTopLeft, viewBottomRight]).m_displayImage.at 100 2000 = ⟨0, 0, 0, 0⟩ ∧
      rgba (largeProcessor.m_currentImage.at 100 2000) = ⟨255, 0, 0, 255⟩ := by
  have hp := largeProcessor_hasImage
  have hvis : ∀ (c : CanvasWidget) (view : ViewState), c.m_processor = true →
      c.getVisibleImageRect largeProcessor view =
        QRect.ofSize (max 0 view.topLeft.x) (max 0 view.topLeft.y)
          (min 4000 view.bottomRight.x - max 0 view.topLeft.x)
          (min 3000 view.bottomRight.y - max 0 view.topLeft.y) := by
    intro c view hc
    unfold CanvasWidget.getVisibleImageRect
    rw [hp, hc]
    rfl
  have hcols : (QImage.transparent 4000 3000).cols = largeProcessor.m_currentImage.cols := rfl
  have hempty : ∀ (D : QImage) (R : QRect) (n : Nat),
      (CanvasWidget.getVisibleImageRect ⟨true, D, true, R, n⟩ largeProcessor
          viewTopLeft).isEmpty = false ∧
        (CanvasWidget.getVisibleImageRect ⟨true, D, true, R, n⟩ largeProcessor
          viewBottomRight).isEmpty = false := by
    intro D R n
    rw [hvis ⟨true, D, true, R, n⟩ viewTopLeft rfl,
      hvis ⟨true, D, true, R, n⟩ viewBottomRight rfl]
    exact ⟨rfl, rfl⟩
  have hv1 : ∀ (D : QImage) (R : QRect) (n : Nat),
      CanvasWidget.visibleWithMargin ⟨true, D, true, R, n⟩ largeProcessor viewTopLeft =
        ⟨0, 0, 899, 699⟩ := by
    intro D R n
    rw [(visibleWithMargin_eq ⟨true, D, true, R, n⟩ largeProcessor viewTopLeft rfl hp
      (hempty D R n).1).1]
    rfl
  have hv2 : ∀ (D : QImage) (R : QRect) (n : Nat),
      CanvasWidget.visibleWithMargin ⟨true, D, true, R, n⟩ largeProcessor viewBottomRight =
        ⟨3100, 2300, 3999, 2999⟩ := by
    intro D R n
    rw [(visibleWithMargin_eq ⟨true, D, true, R, n⟩ largeProcessor viewBottomRight rfl hp
      (hempty D R n).2).1]
    rfl
  -- the first call renders the top left corner
  have h1 : CanvasWidget.renderVisibleArea ⟨true, QImage.transparent 4000 3000, true,
      QRect.null, 0⟩ largeProcessor viewTopLeft =
      ⟨true, largeProcessor.updateDisplayRegion (QImage.transparent 4000 3000)
        ⟨0, 0, 899, 699⟩, true, ⟨0, 0, 899, 699⟩, 1⟩ := by
    rw [renderVisibleArea_render ⟨true, QImage.transparent 4000 3000, true, QRect.null, 0⟩
      largeProcessor viewTopLeft rfl hp rfl (hempty _ _ _).1 (by rw [hv1]; rfl), hv1]
    rfl
  -- the second call renders the bottom right corner
  have hd1 : QImage.isNull (largeProcessor.updateDisplayRegion (QImage.transparent 4000 3000)
      ⟨0, 0, 899, 699⟩) = false := by
    rw [isNull_eq_of_length _ (QImage.transparent 4000 3000)
      (updateDisplayRegion_shape _ _ _).2.2]
    rfl
  have hc1 : (largeProcessor.updateDisplayRegion (QImage.transparent 4000 3000)
      ⟨0, 0, 899, 699⟩).cols = 4000 := (updateDisplayRegion_shape _ _ _).2.1
  have hpix : (largeProcessor.updateDisplayRegion (QImage.transparent 4000 3000)
      ⟨0, 0, 899, 699⟩).at 100 2000 = ⟨0, 0, 0, 0⟩ := by
    rw [updateDisplayRegion_frame largeProcessor _ ⟨0, 0, 899, 699⟩ ⟨2000, 100⟩ hcols
      ⟨by decide, by decide, by decide⟩ (by decide)]
    exact uniform_at 3000 4000 ⟨0, 0, 0, 0⟩ ⟨2000, 100⟩
      ⟨by decide, by decide, by decide, by decide⟩
  generalize largeProcessor.updateDisplayRegion (QImage.transparent 4000 3000)
    ⟨0, 0, 899, 699⟩ = D1 at h1 hd1 hc1 hpix
  have h2 : CanvasWidget.renderVisibleArea ⟨true, D1, true, ⟨0, 0, 899, 699⟩, 1⟩
      largeProcessor viewBottomRight =
      ⟨true, largeProcessor.updateDisplayRegion D1 ⟨3100, 2300, 3999, 2999⟩, true,
        ⟨0, 0, 3999, 2999⟩, 2⟩ := by
    rw [renderVisibleArea_render ⟨true, D1, true, ⟨0, 0, 899, 699⟩, 1⟩
      largeProcessor viewBottomRight rfl hp hd1 (hempty _ _ _).2 (by rw [hv2]; rfl), hv2]
    rfl
  have hrun : (freshCanvas.rebuildFullCache largeProcessor).renderViews largeProcessor
      [viewTopLeft, viewBottomRight] =
      ⟨true, largeProcessor.updateDisplayRegion D1 ⟨3100, 2300, 3999, 2999⟩, true,
        ⟨0, 0, 3999, 2999⟩, 2⟩ := by
    have hfold : ∀ c : CanvasWidget,
        c.renderViews largeProcessor [viewTopLeft, viewBottomRight] =
          (c.renderVisibleArea largeProcessor viewTopLeft).renderVisibleArea largeProcessor
            viewBottomRight := fun _ => rfl
    exact (congrArg (fun c => CanvasWidget.renderViews c largeProcessor
        [viewTopLeft, viewBottomRight]) rebuildFullCache_large).trans
      ((hfold _).trans ((congrArg (fun c => CanvasWidget.renderVisibleArea c largeProcessor
        viewBottomRight) h1).trans h2))
  rw [hrun]
  refine ⟨rfl, rfl, by decide, ?_, ?_⟩
  · simp only
    rw [updateDisplayRegion_frame largeProcessor D1 ⟨3100, 2300, 3999, 2999⟩ ⟨2000, 100⟩
      (hc1.trans rfl) (by rw [hc1]; exact ⟨by decide, by decide, by decide⟩) (by decide)]
    exact hpix
  · have e : largeProcessor.m_currentImage.at 100 2000 = red :=
      uniform_at 3000 4000 red ⟨2000, 100⟩ ⟨by decide, by decide, by decide, by decide⟩
    rw [e]
    rfl

/-! ## C28: the snapshot at the cursor is the current buffer -/

theorem saveState_shape_keep (h : HistoryManager) (p : ImageProcessor)
    (hproc : h.m_processor = true) (himg : p.hasImage = true)
    (h2 : h.m_currentIndex ≤ (h.m_history.length : Int) - 1) :
    ∃ d, d ≤ (h.m_history.take (h.m_currentIndex + 1).toNat).length + 1 - 3 ∧
      h.saveState p =
        ⟨true, (h.m_history.take (h.m_currentIndex + 1).toNat).drop d ++ [snapshotOf p],
          (((h.m_history.take (h.m_currentIndex + 1).toNat).drop d ++
            [snapshotOf p]).length : Int) - 1⟩ := by
  unfold HistoryManager.saveState
  rw [if_neg (by simp [hproc, himg])]
  simp only [eraseRedoTail_eq_take h.m_history h.m_currentIndex h2]
  obtain ⟨d, hd, hhist, hcur, hp, -⟩ := trimHistory_spec
    { h with
      m_history := h.m_history.take (h.m_currentIndex + 1).toNat ++
        [⟨p.captureState, p.captureState.total * p.captureState.elemSize⟩],
      m_currentIndex := ((h.m_history.take (h.m_currentIndex + 1).toNat ++
        [(⟨p.captureState, p.captureState.total * p.captureState.elemSize⟩ :
          HistoryState)]).length : Int) - 1 }
  simp only [List.length_append, List.length_singleton] at hd
  have hdle : d ≤ (h.m_history.take (h.m_currentIndex + 1).toNat).length := by omega
  refine ⟨d, hd, HistoryManager.eq_of_fields _ _ (hp.trans hproc) ?_ ?_⟩
  · rw [hhist]
    exact List.drop_append_of_le_length hdle
  · rw [hcur]
    simp only [List.length_drop, List.length_append, List.length_singleton]
    omega

theorem historyAt_append_last (l : List HistoryState) (s : HistoryState) :
    historyAt (l ++ [s]) (((l ++ [s]).length : Int) - 1) = some s := by
  unfold historyAt
  simp only [List.length_append, List.length_singleton]
  rw [if_pos (by omega)]
  have e : ((l.length + 1 : Nat) : Int) - 1 = (l.length : Int) := by push_cast; omega
  rw [e, Int.toNat_ofNat, List.getElem?_append_right (le_refl _)]
  simp

theorem cursorSnapshot_saveState (h : HistoryManager) (p : ImageProcessor)
    (hproc : h.m_processor = true) (himg : p.hasImage = true) (hinv : h.Inv) :
    (h.saveState p).cursorSnapshot = some p.m_currentImage := by
  obtain ⟨d, -, hs⟩ := saveState_shape_keep h p hproc himg hinv.2.1
  rw [hs]
  unfold HistoryManager.cursorSnapshot
  simp only
  rw [historyAt_append_last]
  rfl

theorem cursorSnapshot_undo (cvt : Vec4b → Vec3b) (h : HistoryManager) (p : ImageProcessor)
    (hproc : h.m_processor = true) (hinv : h.Inv) (hcan : h.canUndo = true) :
    ∃ r, h.undo cvt p = some r ∧ r.1.cursorSnapshot = some r.2.m_currentImage ∧
      r.1.m_currentIndex = h.m_currentIndex - 1 ∧ r.1.m_history = h.m_history := by
  unfold HistoryManager.canUndo at hcan
  simp only [decide_eq_true_eq] at hcan
  obtain ⟨s, hs, hu⟩ := undo_eq cvt h p hproc hcan hinv.2.1
  refine ⟨_, hu, ?_, rfl, rfl⟩
  unfold HistoryManager.cursorSnapshot
  simp only
  rw [hs, restoreState_current]
  rfl

theorem cursorSnapshot_redo (cvt : Vec4b → Vec3b) (h : HistoryManager) (p : ImageProcessor)
    (hproc : h.m_processor = true) (hinv : h.Inv) (hcan : h.canRedo = true) :
    ∃ r, h.redo cvt p = some r ∧ r.1.cursorSnapshot = some r.2.m_currentImage ∧
      r.1.m_currentIndex = h.m_currentIndex + 1 ∧ r.1.m_history = h.m_history := by
  unfold HistoryManager.canRedo at hcan
  simp only [decide_eq_true_eq] at hcan
  obtain ⟨s, hs, hu⟩ := redo_eq cvt h p hproc hinv.1 hcan
  refine ⟨_, hu, ?_, rfl, rfl⟩
  unfold HistoryManager.cursorSnapshot
  simp only
  rw [hs, restoreState_current]
  rfl

/-- C28. With an image loaded and the history in a state that satisfies the
cursor invariant of C1: right after saveInitialState, after saveState, after
undo (when canUndo()) and after redo (when canRedo()) the snapshot at the
cursor position equals the current buffer. Hence, when the snapshot at the
cursor equals the buffer before an edit, one undo after the edit was
completed by saveState yields exactly the pre-edit buffer, and the redo that
follows yields exactly the post-edit buffer. -/
theorem cursor_snapshot_is_current (cvt : Vec4b → Vec3b) (h : HistoryManager)
    (p : ImageProcessor) (hproc : h.m_processor = true) (himg : p.hasImage = true)
    (hinv : h.Inv) :
    (h.saveInitialState p).cursorSnapshot = some p.m_currentImage ∧
      (h.saveState p).cursorSnapshot = some p.m_currentImage ∧
      (h.canUndo = true →
        ∃ r, h.undo cvt p = some r ∧ r.1.cursorSnapshot = some r.2.m_currentImage) ∧
      (h.canRedo = true →
        ∃ r, h.redo cvt p = some r ∧ r.1.cursorSnapshot = some r.2.m_currentImage) ∧
      (∀ edited : ImageProcessor, h.cursorSnapshot = some p.m_currentImage →
        edited.hasImage = true →
        ∃ r1 r2, (h.saveState edited).undo cvt edited = some r1 ∧
          r1.2.m_currentImage = p.m_currentImage ∧
          r1.1.redo cvt r1.2 = some r2 ∧
          r2.2.m_currentImage = edited.m_currentImage) := by
  refine ⟨?_, cursorSnapshot_saveState h p hproc himg hinv, ?_, ?_, ?_⟩
  · rw [saveInitialState_eq h p hproc himg]
    rfl
  · intro hcan
    obtain ⟨r, hr, hc, -⟩ := cursorSnapshot_undo cvt h p hproc hinv hcan
    exact ⟨r, hr, hc⟩
  · intro hcan
    obtain ⟨r, hr, hc, -⟩ := cursorSnapshot_redo cvt h p hproc hinv hcan
    exact ⟨r, hr, hc⟩
  · intro edited hcur hed
    obtain ⟨h1, h2, h3⟩ := hinv
    -- the cursor of `h` is a valid index and holds the pre-edit buffer
    have hidx : 0 ≤ h.m_currentIndex ∧ h.m_currentIndex.toNat < h.m_history.length ∧
        (h.m_history[h.m_currentIndex.toNat]?).map HistoryState.imageState =
          some p.m_currentImage := by
      unfold HistoryManager.cursorSnapshot historyAt at hcur
      by_cases h0 : 0 ≤ h.m_currentIndex
      · rw [if_pos h0] at hcur
        exact ⟨h0, by omega, hcur⟩
      · rw [if_neg h0] at hcur
        simp at hcur
    obtain ⟨d, hd, hs⟩ := saveState_shape_keep h edited hproc hed h2
    have hlen : (h.m_history.take (h.m_currentIndex + 1).toNat).length =
        h.m_currentIndex.toNat + 1 := by
      rw [List.length_take]
      omega
    rw [hlen] at hd
    have hdle : d ≤ h.m_currentIndex.toNat := by omega
    -- the history after the save: the kept old snapshots, then the new one
    have hkeep : ((h.m_history.take (h.m_currentIndex + 1).toNat).drop d).length =
        h.m_currentIndex.toNat + 1 - d := by
      rw [List.length_drop, hlen]
    have hat : (((h.m_history.take (h.m_currentIndex + 1).toNat).drop d ++
        [snapshotOf edited])[h.m_currentIndex.toNat - d]?).map HistoryState.imageState =
        some p.m_currentImage := by
      rw [List.getElem?_append_left (by rw [hkeep]; omega), List.getElem?_drop,
        List.getElem?_take_of_lt (by omega)]
      have e : d + (h.m_currentIndex.toNat - d) = h.m_currentIndex.toNat := by omega
      rw [e]
      exact hidx.2.2
    have hinv2 : (h.saveState edited).Inv := Inv_saveState h edited ⟨h1, h2, h3⟩
    have hcur2 : (h.saveState edited).m_currentIndex =
        ((h.m_currentIndex.toNat + 1 - d : Nat) : Int) := by
      rw [hs]
      simp only [List.length_append, List.length_singleton, hkeep]
      push_cast
      omega
    have hproc2 : (h.saveState edited).m_processor = true := by rw [hs]
    have hcan : (h.saveState edited).canUndo = true := by
      unfold HistoryManager.canUndo
      rw [hcur2]
      simp only [decide_eq_true_eq]
      omega
    obtain ⟨s, hsat, hu⟩ := undo_eq cvt (h.saveState edited) edited hproc2
      (by rw [hcur2]; omega) hinv2.2.1
    have hsnap : s.imageState = p.m_currentImage := by
      have hat2 : historyAt (h.saveState edited).m_history
          ((h.saveState edited).m_currentIndex - 1) =
          ((h.m_history.take (h.m_currentIndex + 1).toNat).drop d ++
            [snapshotOf edited])[h.m_currentIndex.toNat - d]? := by
        unfold historyAt
        rw [hcur2, if_pos (by omega)]
        have e : (((h.m_currentIndex.toNat + 1 - d : Nat) : Int) - 1).toNat =
            h.m_currentIndex.toNat - d := by omega
        rw [e, hs]
      rw [hat2] at hsat
      rw [hsat] at hat
      simpa using hat
    obtain ⟨s2, hs2, hr⟩ := redo_eq cvt
      { h.saveState edited with m_currentIndex := (h.saveState edited).m_currentIndex - 1 }
      (edited.restoreState cvt s.imageState) hproc2 (by simp only; rw [hcur2]; omega)
      (by simp only; have := hinv2.2.1; omega)
    simp only [sub_add_cancel] at hs2 hr
    have hsnap2 : s2.imageState = edited.m_currentImage := by
      have hc := cursorSnapshot_saveState h edited hproc hed ⟨h1, h2, h3⟩
      unfold HistoryManager.cursorSnapshot at hc
      rw [hs2] at hc
      simpa using hc
    refine ⟨_, _, hu, ?_, hr, ?_⟩
    · simp only
      rw [restoreState_current]
      exact hsnap
    · simp only
      rw [restoreState_current]
      exact hsnap2

/-- Witness of C28: a history holding the snapshot of the opaque 1x1 image;
after the pixel was cleared and saveState called, undo gives the opaque image
back and redo the cleared one. -/
theorem cursor_snapshot_is_current_witness :
    (HistoryManager.saveState ⟨true, [snapshotOf (dotProcessor 255)], 0⟩
        (dotProcessor 255)).cursorSnapshot = some (dot 255) ∧
      ∃ r1 r2,
        (HistoryManager.saveState ⟨true, [snapshotOf (dotProcessor 255)], 0⟩
          (dotProcessor 0)).undo cvtSample (dotProcessor 0) = some r1 ∧
        r1.2.m_currentImage = dot 255 ∧
        r1.1.redo cvtSample r1.2 = some r2 ∧
        r2.2.m_currentImage = dot 0 :=
  ⟨(cursor_snapshot_is_current cvtSample ⟨true, [snapshotOf (dotProcessor 255)], 0⟩
      (dotProcessor 255) (by decide) (by decide) (by decide)).2.1,
    (cursor_snapshot_is_current cvtSample ⟨true, [snapshotOf (dotProcessor 255)], 0⟩
      (dotProcessor 255) (by decide) (by decide) (by decide)).2.2.2.2 (dotProcessor 0)
      (by decide) (by decide)⟩

/-! ## C27: the cache mode chosen by `rebuildFullCache` -/

theorem isNull_of_inImage (q : QImage) (pt : Point) (hwf : Mat.wellFormed q)
    (hpt : Mat.inImage q pt) : QImage.isNull q = false := by
  have h := not_empty_of_inImage q pt hwf hpt
  unfold Mat.empty at h
  unfold QImage.isNull
  cases hd : q.data.isEmpty
  · rfl
  · rw [hd] at h
    simp at h

/-- A pixel of the image inside the region holds the RGBA bytes of the
current buffer after `updateDisplayRegion`. -/
theorem updateDisplayRegion_value (p : ImageProcessor) (target : QImage) (region : QRect)
    (pt : Point) (hcols : target.cols = p.m_currentImage.cols)
    (hrows : target.rows = p.m_currentImage.rows) (htwf : Mat.wellFormed target)
    (hwf : p.m_currentImage.wellFormed) (hpt : p.m_currentImage.inImage pt)
    (hin : region.containsPoint pt) :
    (p.updateDisplayRegion target region).at pt.y pt.x =
      rgba (p.m_currentImage.at pt.y pt.x) := by
  have hpt2 := hpt
  unfold Mat.inImage at hpt2
  have hptT : Mat.inImage target pt := by
    unfold Mat.inImage
    rw [hcols, hrows]
    exact hpt2
  unfold QRect.containsPoint QRect.left QRect.right QRect.top QRect.bottom at hin
  unfold ImageProcessor.updateDisplayRegion
  rw [not_empty_of_inImage _ pt hwf hpt, isNull_of_inImage target pt htwf hptT]
  simp only [Bool.or_self, Bool.false_eq_true, if_false]
  unfold QRect.left QRect.right QRect.top QRect.bottom
  rw [if_neg (by omega)]
  apply updateAt_value _ _ _ _ ⟨hpt2.1, by rw [hcols]; exact hpt2.2.1, hpt2.2.2.1⟩
  · unfold Mat.wellFormed at htwf
    rw [htwf, hcols, hrows]
    exact offset_lt _ _ _ _ hpt2.1 hpt2.2.1 hpt2.2.2.1 hpt2.2.2.2
  · intro r hr
    rw [mem_coords] at hr
    simp only at hr
    rw [hcols]
    omega
  · exact coords_nodup _
  · rw [mem_coords]
    simp only
    omega

theorem countP_flip {α : Type} (l : List α) (a : α) (P Q : α → Bool) (hnd : l.Nodup)
    (ha : a ∈ l) (hP : P a = true) (hQ : Q a = false)
    (hsame : ∀ x ∈ l, x ≠ a → Q x = P x) : l.countP Q + 1 = l.countP P := by
  induction l with
  | nil => simp at ha
  | cons x rest ih =>
    rw [List.nodup_cons] at hnd
    by_cases e : x = a
    · subst e
      have hrest : rest.countP Q = rest.countP P := by
        apply List.countP_congr
        intro y hy
        have hne : y ≠ x := fun e => hnd.1 (e ▸ hy)
        rw [hsame y (List.mem_cons_of_mem _ hy) hne]
      rw [List.countP_cons_of_neg _ _ (by simp [hQ]), List.countP_cons_of_pos _ _ hP, hrest]
    · have ha2 : a ∈ rest := by
        rcases List.mem_cons.mp ha with h | h
        · exact absurd h.symm e
        · exact h
      have := ih hnd.2 ha2 (fun y hy hne => hsame y (List.mem_cons_of_mem _ hy) hne)
      have hx := hsame x (List.mem_cons_self _ _) e
      simp only [List.countP_cons, hx]
      omega

theorem mem_floodCoords (b : FloodBounds) (pt : Point) : pt ∈ b.coords ↔ b.contains pt := by
  unfold FloodBounds.coords FloodBounds.contains
  rw [mem_coords]

/-- Clearing a pixel of non-zero alpha inside the bounds lowers the count of
such pixels by exactly one. -/
theorem opaqueIn_setAt (b : FloodBounds) (m : Mat) (pt : Point) (v : Vec4b)
    (hin : 0 ≤ b.minX ∧ b.maxX < (m.cols : Int) ∧ 0 ≤ b.minY) (hpt : b.contains pt)
    (hold : (m.at pt.y pt.x).c3 ≠ 0) (hnew : v.c3 = 0) :
    opaqueIn b (m.setAt pt.y pt.x v) + 1 = opaqueIn b m := by
  unfold opaqueIn
  have hc := hpt
  unfold FloodBounds.contains at hc
  apply countP_flip b.coords pt _ _ (coords_nodup _) ((mem_floodCoords b pt).mpr hpt)
  · simpa using hold
  · rw [Mat.at_setAt_same m pt.y pt.x v hold]
    simp [hnew]
  · intro q hq hne
    have hqc := (mem_floodCoords b q).mp hq
    unfold FloodBounds.contains at hqc
    rw [Mat.at_setAt_other]
    intro e
    apply hne
    obtain ⟨e1, e2⟩ := offset_inj m.cols pt.y pt.x q.y q.x (by omega) (by omega) (by omega)
      (by omega) (by omega) (by omega) e
    cases pt
    cases q
    simp only at e1 e2
    rw [e1, e2]

theorem opaqueIn_le_area (b : FloodBounds) (m : Mat) : opaqueIn b m ≤ b.area :=
  List.countP_le_length _

/-- One pass adds at most four entries to the work list, and only when it
clears a pixel of non-zero alpha inside the bounds. -/
theorem floodStep_queue (lab : Mat3) (seedLab : Vec3b) (tolerance : Int) (b : FloodBounds)
    (s : FloodState) (hin : 0 ≤ b.minX ∧ b.maxX < (s.image.cols : Int) ∧ 0 ≤ b.minY) :
    (floodStep lab seedLab tolerance b s).image.cols = s.image.cols ∧
      (floodStep lab seedLab tolerance b s).queue.length +
          4 * opaqueIn b (floodStep lab seedLab tolerance b s).image ≤
        s.queue.length + 4 * opaqueIn b s.image := by
  rcases floodStep_cases lab seedLab tolerance b s with ⟨he, -⟩ | ⟨hb, -, hc, he⟩
  · rw [he]
    exact ⟨rfl, le_refl _⟩
  · rw [he]
    generalize s.queue.getD s.queuePos default = pt at hb hc
    refine ⟨rfl, ?_⟩
    have h1 : opaqueIn b (clearedState b s pt).image + 1 = opaqueIn b s.image :=
      opaqueIn_setAt b s.image pt _ hin hb hc.2.1 rfl
    have h2 := pushedNeighbours_length b pt
    have h3 : (clearedState b s pt).queue.length =
        s.queue.length + (pushedNeighbours b pt).length := List.length_append _ _
    omega

theorem floodLoop_queue (lab : Mat3) (seedLab : Vec3b) (tolerance : Int) (b : FloodBounds)
    (fuel : Nat) : ∀ s : FloodState,
      0 ≤ b.minX ∧ b.maxX < (s.image.cols : Int) ∧ 0 ≤ b.minY →
      (floodLoop lab seedLab tolerance b fuel s).queue.length +
          4 * opaqueIn b (floodLoop lab seedLab tolerance b fuel s).image ≤
        s.queue.length + 4 * opaqueIn b s.image := by
  induction fuel with
  | zero => intro s _; exact le_refl _
  | succ n ih =>
    intro s hin
    unfold floodLoop
    split
    · obtain ⟨hcols, hstep⟩ := floodStep_queue lab seedLab tolerance b s hin
      have := ih (floodStep lab seedLab tolerance b s) (by rw [hcols]; exact hin)
      omega
    · exact le_refl _

theorem rangeIncl_length (lo hi : Int) : (rangeIncl lo hi).length = (hi + 1 - lo).toNat := by
  unfold rangeIncl
  simp

theorem flatMap_length_const {α β : Type} (l : List α) (f : α → List β) (k : Nat)
    (h : ∀ a, (f a).length = k) : (l.flatMap f).length = l.length * k := by
  induction l with
  | nil => simp
  | cons a rest ih =>
    rw [List.flatMap_cons, List.length_append, ih, h a, List.length_cons]
    ring

theorem coords_length (b : BrushBounds) :
    b.coords.length = (b.maxY + 1 - b.minY).toNat * (b.maxX + 1 - b.minX).toNat := by
  unfold BrushBounds.coords
  rw [flatMap_length_const _ _ (b.maxX + 1 - b.minX).toNat, rangeIncl_length]
  intro y
  rw [List.length_map, rangeIncl_length]

theorem floodBounds_area (image : Mat) (vp : QRect) :
    (vp.isValid = true → (floodBounds image vp).area = viewportPixels image vp) ∧
      (vp.isValid = false → (floodBounds image vp).area = image.rows * image.cols) := by
  unfold FloodBounds.area FloodBounds.coords floodBounds viewportPixels
  constructor
  · intro h
    simp only [h, if_true]
  · intro h
    simp only [h, Bool.false_eq_true, if_false]
    rw [coords_length]
    simp only
    have e1 : ((image.rows : Int) - 1 + 1 - 0).toNat = image.rows := by omega
    have e2 : ((image.cols : Int) - 1 + 1 - 0).toNat = image.cols := by omega
    rw [e1, e2]

set_option maxRecDepth 10000 in
/-- Counterexample to C30 as stated: on a 1x2 opaque red image with the null
viewport, which contains no pixel, the fill from (0, 0) runs over the whole
image and the work list ends with 3 entries, more than 1 + 4 * 0. -/
theorem autoColorRemove_worklist_null_viewport :
    viewportPixels twoRed QRect.null = 0 ∧
      (floodResult twoRed (cvtColorLab cvtSample twoRed)
        ((cvtColorLab cvtSample twoRed).at 0 0) 10 (floodBounds twoRed QRect.null)
        ⟨0, 0⟩).queue.length = 3 ∧
      (ImageProcessor.autoColorRemove cvtSample
        ⟨twoRed, twoRed, cvtColorLab cvtSample twoRed, false⟩ 0 0 10 QRect.null).m_currentImage =
        ⟨1, 2, [⟨0, 0, 255, 0⟩, ⟨0, 0, 255, 0⟩]⟩ :=
  ⟨by decide, by decide, by decide⟩

/-- C30, amended. For every image, seed, tolerance and viewport the loop of
autoColorRemove terminates: a pass adds entries to the work list, at most 4,
only when it clears a pixel of non-zero alpha inside the fill bounds, and a
cleared pixel stays cleared, so after any number n of passes the work list
holds at most 1 + 4 * (number of pixels inside the fill bounds) entries, and
after 4 * (pixel count) + 1 passes the read index has reached the end of the
list. The fill bounds are the viewport clipped to the image when the viewport
is a valid rectangle and the whole image when it is not. -/
theorem autoColorRemove_worklist (p : ImageProcessor) (x y tolerance : Int) (vp : QRect)
    (n : Nat) :
    (floodLoop p.m_labImage (p.m_labImage.at y x) tolerance
          (floodBounds p.m_currentImage vp) n
          ⟨p.m_currentImage,
            List.replicate (p.m_currentImage.rows * p.m_currentImage.cols) 0,
            [⟨x, y⟩], 0⟩).queue.length +
        4 * opaqueIn (floodBounds p.m_currentImage vp)
          (floodLoop p.m_labImage (p.m_labImage.at y x) tolerance
            (floodBounds p.m_currentImage vp) n
            ⟨p.m_currentImage,
              List.replicate (p.m_currentImage.rows * p.m_currentImage.cols) 0,
              [⟨x, y⟩], 0⟩).image ≤
        1 + 4 * opaqueIn (floodBounds p.m_currentImage vp) p.m_currentImage ∧
      (floodLoop p.m_labImage (p.m_labImage.at y x) tolerance
          (floodBounds p.m_currentImage vp) n
          ⟨p.m_currentImage,
            List.replicate (p.m_currentImage.rows * p.m_currentImage.cols) 0,
            [⟨x, y⟩], 0⟩).queue.length ≤
        1 + 4 * (floodBounds p.m_currentImage vp).area ∧
      (floodResult p.m_currentImage p.m_labImage (p.m_labImage.at y x) tolerance
          (floodBounds p.m_currentImage vp) ⟨x, y⟩).queue.length ≤
        (floodResult p.m_currentImage p.m_labImage (p.m_labImage.at y x) tolerance
          (floodBounds p.m_currentImage vp) ⟨x, y⟩).queuePos ∧
      (vp.isValid = true →
        (floodBounds p.m_currentImage vp).area = viewportPixels p.m_currentImage vp) ∧
      (vp.isValid = false →
        (floodBounds p.m_currentImage vp).area =
          p.m_currentImage.rows * p.m_currentImage.cols) := by
  have hin := floodBounds_inside p.m_currentImage vp
  unfold FloodBounds.inside at hin
  have hq := floodLoop_queue p.m_labImage (p.m_labImage.at y x) tolerance
    (floodBounds p.m_currentImage vp) n
    ⟨p.m_currentImage, List.replicate (p.m_currentImage.rows * p.m_currentImage.cols) 0,
      [⟨x, y⟩], 0⟩ ⟨hin.1, hin.2.1, hin.2.2.1⟩
  simp only [List.length_singleton] at hq
  have ha := opaqueIn_le_area (floodBounds p.m_currentImage vp) p.m_currentImage
  refine ⟨hq, by omega, floodResult_exhausted _ _ _ _ _ _,
    (floodBounds_area _ _).1, (floodBounds_area _ _).2⟩

/-- Witness of C30 (amended): on the 3x3 sample with the whole image as
viewport the work list never exceeds 1 + 4 * 9 entries. -/
theorem autoColorRemove_worklist_witness :
    (floodLoop sampleProcessor.m_labImage (sampleProcessor.m_labImage.at 0 0) 10
        (floodBounds sampleProcessor.m_currentImage ⟨0, 0, 2, 2⟩) 5
        ⟨sampleProcessor.m_currentImage,
          List.replicate
            (sampleProcessor.m_currentImage.rows * sampleProcessor.m_currentImage.cols) 0,
          [⟨0, 0⟩], 0⟩).queue.length ≤
        1 + 4 * (floodBounds sampleProcessor.m_currentImage ⟨0, 0, 2, 2⟩).area ∧
      (floodBounds sampleProcessor.m_currentImage ⟨0, 0, 2, 2⟩).area =
        viewportPixels sampleProcessor.m_currentImage ⟨0, 0, 2, 2⟩ ∧
      viewportPixels sampleProcessor.m_currentImage ⟨0, 0, 2, 2⟩ = 9 :=
  ⟨(autoColorRemove_worklist sampleProcessor 0 0 10 ⟨0, 0, 2, 2⟩ 5).2.1,
    (autoColorRemove_worklist sampleProcessor 0 0 10 ⟨0, 0, 2, 2⟩ 5).2.2.2.1 (by decide),
    by decide⟩

/-! ## C22: a failed load -/

/-- C22 fails: loadImage assigns the result of the decoder to the original
buffer before it tests it. With the 3x3 sample loaded, a load whose decoding
fails returns false and leaves current and the Lab cache as they were, but the
original buffer is now the empty matrix; from then on repairWithBrush, which
returns at once when the original is empty, restores nothing. -/
theorem loadImage_failure_empties_original :
    (sampleProcessor.loadImage cvtSample Mat.nil).1 = false ∧
      (sampleProcessor.loadImage cvtSample Mat.nil).2.m_currentImage =
        sampleProcessor.m_currentImage ∧
      (sampleProcessor.loadImage cvtSample Mat.nil).2.m_labImage =
        sampleProcessor.m_labImage ∧
      sampleProcessor.m_originalImage = sampleImage ∧
      (sampleProcessor.loadImage cvtSample Mat.nil).2.m_originalImage = Mat.nil ∧
      (∀ centerX centerY diameter : Int,
        ((sampleProcessor.eraseWithBrush 1 1 2 F32.one).loadImage cvtSample
            Mat.nil).2.repairWithBrush centerX centerY diameter =
          ((sampleProcessor.eraseWithBrush 1 1 2 F32.one).loadImage cvtSample Mat.nil).2) := by
  refine ⟨rfl, rfl, rfl, rfl, rfl, ?_⟩
  intro centerX centerY diameter
  unfold ImageProcessor.repairWithBrush
  have h : ((sampleProcessor.eraseWithBrush 1 1 2 F32.one).loadImage cvtSample
      Mat.nil).2.m_originalImage.empty = true := rfl
  rw [h]
  simp

/-! ## C21: the sizes of original and current -/

/-- C21 fails: restoreState replaces the current buffer only. With the 3x3
sample loaded, capture a snapshot, resize to 1x1 (both buffers become 1x1)
and restore the snapshot, as undo does after the resize handler saved the
resized state: current is 3x3 again while original stays 1x1. The same state
is reached through the history by saveInitialState, saveStateBeforeChange,
resize, saveState and undo. This holds for every interpolation and every Lab
conversion. -/
theorem restoreState_after_resize_sizes (interpolate : Mat → Int → Int → Point → Vec4b)
    (cvt : Vec4b → Vec3b) :
    sampleProcessor.sameSize ∧
      ∃ resized, sampleProcessor.resize interpolate cvt 1 1 = some resized ∧
        resized.sameSize ∧
        (resized.restoreState cvt sampleProcessor.captureState).m_currentImage.rows = 3 ∧
        (resized.restoreState cvt sampleProcessor.captureState).m_currentImage.cols = 3 ∧
        (resized.restoreState cvt sampleProcessor.captureState).m_originalImage.rows = 1 ∧
        (resized.restoreState cvt sampleProcessor.captureState).m_originalImage.cols = 1 ∧
        HistoryManager.undo cvt
          (((HistoryManager.saveInitialState ⟨true, [], -1⟩
            sampleProcessor).saveStateBeforeChange sampleProcessor).saveState resized)
          resized =
          some (⟨true, [snapshotOf sampleProcessor, snapshotOf resized], 0⟩,
            resized.restoreState cvt sampleProcessor.captureState) := by
  refine ⟨by decide, _, rfl, ⟨rfl, rfl⟩, ?_, ?_, rfl, rfl, ?_⟩
  · rw [restoreState_current]
    rfl
  · rw [restoreState_current]
    rfl
  · rfl

/-! ## C23: the Lab cache after a repair stroke -/

set_option maxRecDepth 10000 in
/-- C23 fails for the repair brush: it writes the colour channels and does
not rebuild the cache. After the 1x1 image of value 254 was loaded the cache
is consistent; repairWithBrush at centre (-2, -2) with diameter 6 then stores
253 in every channel of the pixel (the truncated blend of C16) and leaves the
cache entry at the conversion of the colour 254: the cache no longer equals
the conversion of current. -/
theorem repairWithBrush_stales_cache :
    greyLoaded.cacheConsistent cvtSample ∧
      greyLoaded.m_currentImage.at 0 0 = ⟨254, 254, 254, 254⟩ ∧
      (greyLoaded.repairWithBrush (-2) (-2) 6).m_currentImage.at 0 0 =
        ⟨253, 253, 253, 253⟩ ∧
      (greyLoaded.repairWithBrush (-2) (-2) 6).m_labImage.at 0 0 = ⟨254, 254, 254⟩ ∧
      cvtSample ((greyLoaded.repairWithBrush (-2) (-2) 6).m_currentImage.at 0 0) =
        ⟨253, 253, 253⟩ ∧
      ¬ (greyLoaded.repairWithBrush (-2) (-2) 6).cacheConsistent cvtSample :=
  ⟨by decide, by decide, by decide, by decide, by decide, by decide⟩

/-! ## Strokes along a path -/

set_option maxRecDepth 100000 in
/-- C26: with start = end the path methods are the point methods. For the
segment from (0,0) to (27,0) with diameter 10 the code computes 19 steps and
stamps 20 centres, the first at the start point, but the last at (26,0)
instead of the end point (27,0): 19 times the float 27/19 is just below 27
and the cast truncates. On a row of 33 opaque pixels with hardness 1.0 the
pixel (32,0), which a stamp at the end point clears, keeps alpha 255. -/
theorem eraseAlongPath_last_stamp_short :
    (∀ (p : ImageProcessor) (start : Point) (d : Int) (h : F32),
        p.eraseAlongPath start start d h = p.eraseWithBrush start.x start.y d h) ∧
      (∀ (p : ImageProcessor) (start : Point) (d : Int),
        p.repairAlongPath start start d = p.repairWithBrush start.x start.y d) ∧
      pathSteps 27 0 10 = 19 ∧
      (pathCentres ⟨0, 0⟩ ⟨27, 0⟩ 10).length = 20 ∧
      (pathCentres ⟨0, 0⟩ ⟨27, 0⟩ 10).head? = some ⟨0, 0⟩ ∧
      (pathCentres ⟨0, 0⟩ ⟨27, 0⟩ 10).getLast? = some ⟨26, 0⟩ ∧
      ((stripProcessor.eraseAlongPath ⟨0, 0⟩ ⟨27, 0⟩ 10 F32.one).m_currentImage.at 0 32).c3 = 255 ∧
      ((stripProcessor.eraseWithBrush 27 0 10 F32.one).m_currentImage.at 0 32).c3 = 0 := by
  refine ⟨?_, ?_, by decide, by decide, by decide, by decide, by decide, by decide⟩
  · intro p start d h
    unfold ImageProcessor.eraseAlongPath
    simp
  · intro p start d
    unfold ImageProcessor.repairAlongPath
    simp

/-! ## The feather zone of the eraser -/

theorem ilog2_pow (k : Nat) : ilog2 (2 ^ k) = k := by
  have h1 : 2 ^ ilog2 (2 ^ k) ≤ 2 ^ k := log2Fuel_le (2 ^ k) (2 ^ k) Nat.one_le_two_pow
  have h2 : 2 ^ k < 2 ^ (ilog2 (2 ^ k) + 1) := log2Fuel_lt (2 ^ k) (2 ^ k) le_rfl
  have h3 := (Nat.pow_le_pow_iff_right (by decide : 1 < 2)).mp h1
  have h4 := (Nat.pow_lt_pow_iff_right (by decide : 1 < 2)).mp h2
  omega

/-- One minus a zero is a power of two `2^j * 2^(-j)` with `j ≤ 23`. -/
theorem F32.sub_one_zero (e : Int) :
    ∃ j : Nat, j ≤ 23 ∧ F32.sub F32.one ⟨0, e⟩ = ⟨2 ^ j, -(j : Int)⟩ := by
  unfold F32.sub F32.one
  simp only [zero_mul, sub_zero, one_mul]
  by_cases he : 0 ≤ e
  · refine ⟨0, by omega, ?_⟩
    rw [min_eq_left he]
    simp only [sub_zero, Int.toNat_zero, pow_zero]
    exact F32.round_small _ _ (by decide)
  · obtain ⟨k, hk⟩ : ∃ k : Nat, e = -(k : Int) := ⟨(-e).toNat, by omega⟩
    subst hk
    rw [min_eq_right (by omega)]
    simp only [sub_neg_eq_add, zero_add, Int.toNat_ofNat]
    by_cases hk24 : k < 24
    · refine ⟨k, by omega, ?_⟩
      apply F32.round_small
      have : ((2 : Int) ^ k).natAbs = 2 ^ k := by
        rw [Int.natAbs_pow]; rfl
      rw [this]
      exact Nat.pow_lt_pow_right (by decide) hk24
    · refine ⟨23, le_rfl, ?_⟩
      have habs : ((2 : Int) ^ k).natAbs = 2 ^ k := by
        rw [Int.natAbs_pow]; rfl
      unfold F32.round
      rw [habs, if_neg (by
        have : 2 ^ 24 ≤ 2 ^ k := Nat.pow_le_pow_right (by decide) (by omega)
        omega)]
      simp only [ilog2_pow]
      obtain ⟨s, hs⟩ : ∃ s, k = 23 + s := ⟨k - 23, by omega⟩
      subst hs
      simp only [Nat.add_sub_cancel_left]
      have hr : roundHalfEven ((2 : Int) ^ (23 + s)) (2 ^ s) = 2 ^ 23 := by
        unfold roundHalfEven
        have hpos : (0 : Int) < 2 ^ s := by positivity
        have hdiv : (2 : Int) ^ (23 + s) / ((2 ^ s : Nat) : Int) = 2 ^ 23 := by
          push_cast
          rw [pow_add]
          exact Int.mul_ediv_cancel _ (by omega)
        have hmod : (2 : Int) ^ (23 + s) % ((2 ^ s : Nat) : Int) = 0 := by
          push_cast
          rw [pow_add]
          exact Int.mul_emod_left _ _
        simp only [hdiv, hmod]
        push_cast
        rw [if_pos (by omega)]
      rw [hr]
      congr 1
      push_cast
      omega

theorem roundHalfEven_exact (q : Int) (d : Nat) (hd : 0 < d) :
    roundHalfEven (q * (d : Int)) d = q := by
  unfold roundHalfEven
  have hd2 : (0 : Int) < (d : Int) := by exact_mod_cast hd
  have hdiv : q * (d : Int) / (d : Int) = q := Int.mul_ediv_cancel _ (by omega)
  have hmod : q * (d : Int) % (d : Int) = 0 := Int.mul_emod_left _ _
  simp only [hdiv, hmod]
  rw [if_pos (by omega)]

theorem F32.toInt_scaled (q : Int) (t : Nat) (hq : 0 ≤ q) :
    F32.toInt ⟨q * 2 ^ t, -(t : Int)⟩ = q := by
  unfold F32.toInt
  simp only
  have hpos : (0 : Int) < 2 ^ t := by positivity
  by_cases ht : t = 0
  · subst ht
    simp
  · rw [if_neg (by omega)]
    simp only [neg_neg, Int.toNat_ofNat]
    rw [Int.tdiv_eq_ediv (mul_nonneg hq hpos.le) hpos.le]
    exact Int.mul_ediv_cancel _ (by omega)

/-- Multiplying an alpha value by the power of two `2^j * 2^(-j)` and casting
back gives the same alpha value. -/
theorem F32.mul_pow_keeps (j : Nat) (a : uchar) :
    F32.toUChar (F32.mul (F32.ofUChar a) ⟨2 ^ j, -(j : Int)⟩) = a := by
  have ha : (a.val : Int) < 256 := by exact_mod_cast a.isLt
  have ha0 : (0 : Int) ≤ (a.val : Int) := by omega
  have hfin : ∀ x : F32, F32.toInt x = (a.val : Int) → F32.toUChar x = a := by
    intro x hx
    unfold F32.toUChar
    rw [hx]
    apply Fin.ext
    have : ((a.val : Int) % 256).toNat = a.val := by omega
    rw [this]
    simp [Fin.ofNat]
  apply hfin
  unfold F32.ofUChar
  rw [F32.ofInt_small _ (by omega)]
  unfold F32.mul
  simp only [zero_add]
  by_cases hs : ((a.val : Int) * 2 ^ j).natAbs < 2 ^ 24
  · rw [F32.round_small _ _ hs]
    exact F32.toInt_scaled _ _ ha0
  · have hnat : ((a.val : Int) * 2 ^ j).natAbs = a.val * 2 ^ j := by
      rw [Int.natAbs_mul, Int.natAbs_pow]
      rfl
    rw [hnat] at hs
    unfold F32.round
    rw [hnat, if_neg hs]
    simp only
    have hge : 2 ^ 24 ≤ a.val * 2 ^ j := by omega
    have hl := ilog2_ge _ 24 hge
    have hpow : 2 ^ ilog2 (a.val * 2 ^ j) ≤ a.val * 2 ^ j :=
      log2Fuel_le _ _ (by omega)
    have hlt : a.val * 2 ^ j < 2 ^ (j + 8) := by
      rw [pow_add]
      have : a.val < 2 ^ 8 := a.isLt
      have hp : 0 < 2 ^ j := Nat.two_pow_pos _
      nlinarith
    have hil : ilog2 (a.val * 2 ^ j) < j + 8 :=
      (Nat.pow_lt_pow_iff_right (by decide : 1 < 2)).mp (lt_of_le_of_lt hpow hlt)
    obtain ⟨sh, hsh⟩ : ∃ sh, ilog2 (a.val * 2 ^ j) = 23 + sh := ⟨ilog2 (a.val * 2 ^ j) - 23, by omega⟩
    rw [hsh]
    simp only [Nat.add_sub_cancel_left]
    obtain ⟨t, ht⟩ : ∃ t, j = sh + t := ⟨j - sh, by omega⟩
    subst ht
    have hsplit : (a.val : Int) * 2 ^ (sh + t) = ((a.val : Int) * 2 ^ t) * ((2 ^ sh : Nat) : Int) := by
      push_cast
      rw [pow_add]
      ring
    rw [hsplit, roundHalfEven_exact _ _ (Nat.two_pow_pos _)]
    have hexp : -((sh + t : Nat) : Int) + (sh : Int) = -(t : Int) := by
      push_cast
      omega
    rw [hexp]
    exact F32.toInt_scaled _ _ ha0

theorem F32.round_pos (m e : Int) (h : 0 < m) : 0 < (F32.round m e).m := by
  unfold F32.round
  split_ifs with hs
  · exact h
  · simp only
    have hnat : (2 : Nat) ^ 24 ≤ m.natAbs := by omega
    have hpow : 2 ^ ilog2 m.natAbs ≤ m.natAbs := log2Fuel_le m.natAbs m.natAbs (by omega)
    have h1 : ((2 ^ ilog2 m.natAbs : Nat) : Int) ≤ ((m.natAbs : Nat) : Int) := by
      exact_mod_cast hpow
    rw [Int.natCast_natAbs, abs_of_nonneg (by omega)] at h1
    have hle : 2 ^ (ilog2 m.natAbs - 23) ≤ 2 ^ ilog2 m.natAbs :=
      Nat.pow_le_pow_right (by decide) (by omega)
    have h2 : ((2 ^ (ilog2 m.natAbs - 23) : Nat) : Int) ≤ m := by
      have : ((2 ^ (ilog2 m.natAbs - 23) : Nat) : Int) ≤ ((2 ^ ilog2 m.natAbs : Nat) : Int) := by
        exact_mod_cast hle
      omega
    have hpos : (0 : Int) < ((2 ^ (ilog2 m.natAbs - 23) : Nat) : Int) := by
      exact_mod_cast Nat.two_pow_pos _
    have hq : 1 ≤ m / ((2 ^ (ilog2 m.natAbs - 23) : Nat) : Int) := by
      rw [Int.le_ediv_iff_mul_le hpos]
      omega
    have hm := roundHalfEven_ge m (2 ^ (ilog2 m.natAbs - 23))
    omega

theorem F32.lt_zero_of_pos (a : F32) (h : 0 < a.m) : F32.lt F32.zero a = true := by
  unfold F32.lt F32.zero
  simp only [zero_mul, decide_eq_true_eq]
  positivity

/-- The sum `dx*dx + dy*dy` of the loop is exact below 2^24. -/
theorem distSq_exact (dx dy : Int) (hx1 : -4095 ≤ dx) (hx2 : dx ≤ 4095)
    (hy1 : -4095 ≤ dy) (hy2 : dy ≤ 4095) (hs : dx * dx + dy * dy < 2 ^ 24) :
    F32.add (F32.mul (F32.ofInt dx) (F32.ofInt dx)) (F32.mul (F32.ofInt dy) (F32.ofInt dy)) =
      ⟨dx * dx + dy * dy, 0⟩ := by
  rw [F32.sq_exact dx hx1 hx2, F32.sq_exact dy hy1 hy2]
  have hbx := sq_bound dx 4095 hx1 hx2
  have hby := sq_bound dy 4095 hy1 hy2
  have hadd : F32.add ⟨dx * dx, 0⟩ ⟨dy * dy, 0⟩ = F32.round (dx * dx + dy * dy) 0 := by
    unfold F32.add
    simp
  rw [hadd]
  exact F32.round_small _ _ (by omega)

/-- The loop body of the eraser on a pixel of the disc, with the squared
distance and the squared radius as integers. -/
theorem erasePixel_disc (r centerX centerY : Int) (hardness : F32) (pt : Point) (px : Vec4b)
    (hr1 : 0 ≤ r) (hr2 : r ≤ 4095)
    (hd : (pt.x - centerX) * (pt.x - centerX) + (pt.y - centerY) * (pt.y - centerY) ≤ r * r) :
    erasePixel (brushFalloff r hardness) centerX centerY pt px =
      { px with c3 := F32.toUChar (F32.mul (F32.ofUChar px.c3) (F32.sub F32.one
        (if F32.lt (brushFalloff r hardness).hardRadiusSq
            ⟨(pt.x - centerX) * (pt.x - centerX) + (pt.y - centerY) * (pt.y - centerY), 0⟩
          then F32.mul (F32.sub ⟨r * r, 0⟩
            ⟨(pt.x - centerX) * (pt.x - centerX) + (pt.y - centerY) * (pt.y - centerY), 0⟩)
            (brushFalloff r hardness).invFeather
          else F32.one))) } := by
  have hbr := sq_bound r 4095 (by omega) hr2
  have hx0 := mul_self_nonneg (pt.x - centerX)
  have hy0 := mul_self_nonneg (pt.y - centerY)
  have hxb : -4095 ≤ pt.x - centerX ∧ pt.x - centerX ≤ 4095 := by
    constructor <;> nlinarith
  have hyb : -4095 ≤ pt.y - centerY ∧ pt.y - centerY ≤ 4095 := by
    constructor <;> nlinarith
  have hsum := distSq_exact (pt.x - centerX) (pt.y - centerY) hxb.1 hxb.2 hyb.1 hyb.2 (by omega)
  have hR : (brushFalloff r hardness).radiusSq = ⟨r * r, 0⟩ := by
    unfold brushFalloff
    exact F32.ofInt_small _ (by omega)
  unfold erasePixel brushStrength
  simp only
  rw [hsum, hR]
  have hle : F32.le ⟨(pt.x - centerX) * (pt.x - centerX) + (pt.y - centerY) * (pt.y - centerY), 0⟩
      ⟨r * r, 0⟩ = true := by
    unfold F32.le
    simp
    exact hd
  rw [hle]
  simp only [if_true]

/-- Where the hard disc is smaller than a squared distance inside the outer
disc, the feather range is positive and `invFeather` is its reciprocal. -/
theorem brushFalloff_invFeather (r d2 : Int) (hardness : F32) (hr1 : 0 ≤ r) (hr2 : r ≤ 4095)
    (hd : d2 ≤ r * r) (hf : F32.lt (brushFalloff r hardness).hardRadiusSq ⟨d2, 0⟩ = true) :
    (brushFalloff r hardness).invFeather =
      F32.div F32.one (F32.sub ⟨r * r, 0⟩ (brushFalloff r hardness).hardRadiusSq) := by
  have hbr := sq_bound r 4095 (by omega) hr2
  have hR : F32.ofInt (r * r) = ⟨r * r, 0⟩ := F32.ofInt_small _ (by omega)
  unfold brushFalloff at hf ⊢
  simp only at hf ⊢
  rw [hR]
  generalize F32.mul (F32.mul (F32.ofInt r) hardness) (F32.mul (F32.ofInt r) hardness) = H at hf ⊢
  have hpos : F32.lt F32.zero (F32.sub ⟨r * r, 0⟩ H) = true := by
    apply F32.lt_zero_of_pos
    unfold F32.sub
    apply F32.round_pos
    unfold F32.lt at hf
    simp only [decide_eq_true_eq] at hf ⊢
    rw [min_comm] at hf
    have hp : (0 : Int) < 2 ^ ((0 : Int) - min 0 H.e).toNat := by positivity
    have : d2 * 2 ^ ((0 : Int) - min 0 H.e).toNat ≤ r * r * 2 ^ ((0 : Int) - min 0 H.e).toNat :=
      Int.mul_le_mul_of_nonneg_right hd hp.le
    omega
  rw [hpos]
  simp only [if_true]

theorem erasePixel_outer (r centerX centerY : Int) (hardness : F32) (pt : Point) (px : Vec4b)
    (hr1 : 0 ≤ r) (hr2 : r ≤ 4095)
    (hd : (pt.x - centerX) * (pt.x - centerX) + (pt.y - centerY) * (pt.y - centerY) = r * r)
    (hf : F32.lt (brushFalloff r hardness).hardRadiusSq ⟨r * r, 0⟩ = true) :
    erasePixel (brushFalloff r hardness) centerX centerY pt px = px := by
  rw [erasePixel_disc r centerX centerY hardness pt px hr1 hr2 (le_of_eq hd), hd, hf]
  simp only [if_true]
  have hz : F32.sub (⟨r * r, 0⟩ : F32) ⟨r * r, 0⟩ = ⟨0, 0⟩ := by
    unfold F32.sub
    simp only [min_self, sub_self, Int.toNat_zero, pow_zero, mul_one]
    exact F32.round_small _ _ (by decide)
  rw [hz]
  have hm : F32.mul ⟨0, 0⟩ (brushFalloff r hardness).invFeather =
      ⟨0, (brushFalloff r hardness).invFeather.e⟩ := by
    unfold F32.mul
    simp only [zero_mul, zero_add]
    exact F32.round_small _ _ (by decide)
  rw [hm]
  obtain ⟨j, _, hj⟩ := F32.sub_one_zero (brushFalloff r hardness).invFeather.e
  rw [hj, F32.mul_pow_keeps]

set_option maxRecDepth 100000 in
/-- C25 does not hold as stated: with diameter 20 and hardness 0.5 (hard
radius 5, outer radius 10) on an opaque image the pixel at offset (10,0), on
the outer radius, keeps alpha 255, and the pixel at offset (5,1), just
outside the hard radius, drops to alpha 3. -/
theorem eraseWithBrush_feather_inverted :
    (bandProcessor.m_currentImage.at 0 10).c3 = 255 ∧
      (bandProcessor.m_currentImage.at 1 5).c3 = 255 ∧
      (brushFalloff (brushRadius 20) half).radiusSq = ⟨100, 0⟩ ∧
      (brushFalloff (brushRadius 20) half).hardRadiusSq = ⟨100, -2⟩ ∧
      ((bandProcessor.eraseWithBrush 0 0 20 half).m_currentImage.at 0 10).c3 = 255 ∧
      ((bandProcessor.eraseWithBrush 0 0 20 half).m_currentImage.at 1 5).c3 = 3 :=
  ⟨by decide, by decide, by decide, by decide, by decide, by decide⟩

/-- C25, amended. For a diameter from 2 to 8191, r = diameter/2, and a
pixel of a well-formed image whose squared distance d2 from the centre is at
most r*r and above the float hardRadiusSq (the feather zone as the code tests
it), eraseWithBrush stores alpha * (1 - s) cast to uchar and leaves the
colour channels alone, where s = (r*r - d2) * (1 / (r*r - hardRadiusSq)) with
every operation rounded to single precision; a pixel at the outer radius
(d2 = r*r) is left exactly as it was. -/
theorem eraseWithBrush_feather (p : ImageProcessor) (centerX centerY diameter : Int)
    (hardness : F32) (pt : Point) (hwf : p.m_currentImage.wellFormed) (hd1 : 2 ≤ diameter)
    (hd2 : diameter ≤ 8191) (hpt : p.m_currentImage.inImage pt)
    (hin : (pt.x - centerX) * (pt.x - centerX) + (pt.y - centerY) * (pt.y - centerY) ≤
      (diameter / 2) * (diameter / 2))
    (hf : F32.lt (brushFalloff (diameter / 2) hardness).hardRadiusSq
      ⟨(pt.x - centerX) * (pt.x - centerX) + (pt.y - centerY) * (pt.y - centerY), 0⟩ = true) :
    (p.eraseWithBrush centerX centerY diameter hardness).m_currentImage.at pt.y pt.x =
        { p.m_currentImage.at pt.y pt.x with
          c3 := F32.toUChar (F32.mul (F32.ofUChar (p.m_currentImage.at pt.y pt.x).c3)
            (F32.sub F32.one
              (F32.mul
                (F32.sub ⟨(diameter / 2) * (diameter / 2), 0⟩
                  ⟨(pt.x - centerX) * (pt.x - centerX) + (pt.y - centerY) * (pt.y - centerY), 0⟩)
                (F32.div F32.one (F32.sub ⟨(diameter / 2) * (diameter / 2), 0⟩
                  (brushFalloff (diameter / 2) hardness).hardRadiusSq))))) } ∧
      ((pt.x - centerX) * (pt.x - centerX) + (pt.y - centerY) * (pt.y - centerY) =
          (diameter / 2) * (diameter / 2) →
        (p.eraseWithBrush centerX centerY diameter hardness).m_currentImage.at pt.y pt.x =
          p.m_currentImage.at pt.y pt.x) := by
  rw [eraseWithBrush_at p centerX centerY diameter hardness pt hwf hpt,
    brushRadius_eq diameter hd1]
  have hr1 : 0 ≤ diameter / 2 := by omega
  have hr2 : diameter / 2 ≤ 4095 := by omega
  generalize diameter / 2 = r at hr1 hr2 hin hf
  have hpt2 := hpt
  unfold Mat.inImage at hpt2
  have hx0 := mul_self_nonneg (pt.x - centerX)
  have hy0 := mul_self_nonneg (pt.y - centerY)
  have hxb : -r ≤ pt.x - centerX ∧ pt.x - centerX ≤ r := by
    constructor <;> nlinarith
  have hyb : -r ≤ pt.y - centerY ∧ pt.y - centerY ≤ r := by
    constructor <;> nlinarith
  have hmem : pt ∈ (brushBounds p.m_currentImage centerX centerY r).coords := by
    rw [mem_coords]
    unfold brushBounds
    simp only
    omega
  rw [if_pos hmem]
  constructor
  · rw [erasePixel_disc r centerX centerY hardness pt _ hr1 hr2 hin, hf,
      brushFalloff_invFeather r _ hardness hr1 hr2 hin hf]
    simp only [if_true]
  · intro he
    rw [he] at hf
    exact erasePixel_outer r centerX centerY hardness pt _ hr1 hr2 he hf

set_option maxRecDepth 100000 in
theorem eraseWithBrush_feather_witness :
    bandProcessor.m_currentImage.wellFormed ∧ bandProcessor.m_currentImage.inImage ⟨10, 0⟩ ∧
      F32.lt (brushFalloff (20 / 2) half).hardRadiusSq ⟨100, 0⟩ = true ∧
      (bandProcessor.eraseWithBrush 0 0 20 half).m_currentImage.at 0 10 =
        bandProcessor.m_currentImage.at 0 10 :=
  ⟨by decide, by decide, by decide,
    (eraseWithBrush_feather bandProcessor 0 0 20 half ⟨10, 0⟩ (by decide) (by decide)
      (by decide) (by decide) (by decide) (by decide)).2 (by decide)⟩

/-! ## Strokes and the history -/

theorem updateAt_empty (coords : List Point) (g : Point → Vec4b → Vec4b) (m : Mat) :
    (m.updateAt coords g).empty = m.empty := by
  obtain ⟨h1, h2, h3⟩ := updateAt_shape coords g m
  have hn := isNull_eq_of_length (m.updateAt coords g) m h3
  unfold QImage.isNull at hn
  unfold Mat.empty Mat.total
  rw [hn, h1, h2]

theorem eraseWithBrush_hasImage (p : ImageProcessor) (centerX centerY diameter : Int)
    (hardness : F32) :
    (p.eraseWithBrush centerX centerY diameter hardness).hasImage = p.hasImage := by
  unfold ImageProcessor.eraseWithBrush ImageProcessor.hasImage
  simp only
  split_ifs
  · rfl
  · rfl
  · exact congrArg (fun b => !b) (updateAt_empty _ _ _)

theorem repairWithBrush_hasImage (p : ImageProcessor) (centerX centerY diameter : Int) :
    (p.repairWithBrush centerX centerY diameter).hasImage = p.hasImage := by
  unfold ImageProcessor.repairWithBrush ImageProcessor.hasImage
  simp only
  split
  · rfl
  · split
    · rfl
    · exact congrArg (fun b => !b) (updateAt_empty _ _ _)

theorem foldl_hasImage (f : ImageProcessor → Point → ImageProcessor)
    (hf : ∀ q c, (f q c).hasImage = q.hasImage) (cs : List Point) (p : ImageProcessor) :
    (cs.foldl f p).hasImage = p.hasImage := by
  induction cs generalizing p with
  | nil => rfl
  | cons c rest ih =>
    simp only [List.foldl_cons]
    rw [ih, hf]

theorem eraseAlongPath_hasImage (p : ImageProcessor) (start endPt : Point) (diameter : Int)
    (hardness : F32) :
    (p.eraseAlongPath start endPt diameter hardness).hasImage = p.hasImage := by
  unfold ImageProcessor.eraseAlongPath
  simp only
  split_ifs
  · exact eraseWithBrush_hasImage _ _ _ _ _
  · exact foldl_hasImage _ (fun q c => eraseWithBrush_hasImage q c.x c.y diameter hardness) _ _

theorem repairAlongPath_hasImage (p : ImageProcessor) (start endPt : Point) (diameter : Int) :
    (p.repairAlongPath start endPt diameter).hasImage = p.hasImage := by
  unfold ImageProcessor.repairAlongPath
  simp only
  split_ifs
  · exact repairWithBrush_hasImage _ _ _ _
  · exact foldl_hasImage _ (fun q c => repairWithBrush_hasImage q c.x c.y diameter) _ _

/-- What a pointer-move event leaves unchanged. -/
theorem mouseMoveEvent_frame (s : Editor) (ev : MouseEvent) :
    (s.mouseMoveEvent ev).historyManager = s.historyManager ∧
      (s.mouseMoveEvent ev).toolManager = s.toolManager ∧
      (s.mouseMoveEvent ev).pointer.m_isDrawing = s.pointer.m_isDrawing ∧
      (s.mouseMoveEvent ev).pointer.m_isPanning = s.pointer.m_isPanning ∧
      (s.mouseMoveEvent ev).processor.hasImage = s.processor.hasImage := by
  unfold Editor.mouseMoveEvent
  simp only
  split_ifs with h1 h2 h3 h4
  · exact ⟨rfl, rfl, rfl, rfl, rfl⟩
  · exact ⟨rfl, rfl, rfl, rfl, rfl⟩
  · exact ⟨rfl, rfl, rfl, rfl, eraseAlongPath_hasImage _ _ _ _ _⟩
  · exact ⟨rfl, rfl, rfl, rfl, repairAlongPath_hasImage _ _ _ _⟩
  · exact ⟨rfl, rfl, rfl, rfl, rfl⟩

/-- What a pointer-up event does to the history and the processor. -/
theorem mouseReleaseEvent_history (s : Editor) (ev : MouseEvent) :
    (s.mouseReleaseEvent ev).historyManager =
        (if s.pointer.m_isDrawing then s.historyManager.saveState s.processor
          else s.historyManager) ∧
      (s.mouseReleaseEvent ev).processor = s.processor := by
  unfold Editor.mouseReleaseEvent
  cases hp : s.pointer.m_isPanning <;> cases hd : s.pointer.m_isDrawing <;> simp [hp, hd]

theorem moves_frame (evs : List MouseEvent) (s : Editor) :
    (s.moves evs).historyManager = s.historyManager ∧
      (s.moves evs).pointer.m_isDrawing = s.pointer.m_isDrawing ∧
      (s.moves evs).pointer.m_isPanning = s.pointer.m_isPanning ∧
      (s.moves evs).processor.hasImage = s.processor.hasImage := by
  unfold Editor.moves
  induction evs generalizing s with
  | nil => exact ⟨rfl, rfl, rfl, rfl⟩
  | cons ev rest ih =>
    simp only [List.foldl_cons]
    obtain ⟨a1, a2, a3, a4⟩ := ih (s.mouseMoveEvent ev)
    obtain ⟨b1, -, b3, b4, b5⟩ := mouseMoveEvent_frame s ev
    exact ⟨a1.trans b1, a2.trans b3, a3.trans b4, a4.trans b5⟩

/-- The pointer-down of a stroke: the drawing branch of `mousePressEvent`. -/
theorem mousePressEvent_draw (cvt : Vec4b → Vec3b) (s : Editor) (down : MouseEvent)
    (hc : s.canvas.m_processor = true) (himg : s.processor.hasImage = true)
    (hspace : s.pointer.m_spaceHeld = false) (hshow : s.pointer.m_showOriginal = false)
    (hbtn : down.button = MouseButton.LeftButton) (halt : down.altModifier = false)
    (hin : s.processor.m_currentImage.inImage down.imagePos)
    (htool : s.toolManager.m_currentTool ≠ Tool.AutoColor) :
    (s.mousePressEvent cvt down).historyManager =
        s.historyManager.saveStateBeforeChange s.processor ∧
      (s.mousePressEvent cvt down).pointer.m_isDrawing = true ∧
      (s.mousePressEvent cvt down).pointer.m_isPanning = s.pointer.m_isPanning ∧
      (s.mousePressEvent cvt down).processor.hasImage = true := by
  unfold Mat.inImage at hin
  unfold Editor.mousePressEvent
  simp only [hspace, hshow, Bool.or_self, Bool.false_eq_true, if_false, hbtn, halt, hc, himg,
    and_false, or_false, and_self, if_true, htool]
  rw [if_neg (by decide)]
  unfold ImageProcessor.getWidth ImageProcessor.getHeight
  rw [if_pos (by omega)]
  refine ⟨rfl, rfl, rfl, ?_⟩
  simp only
  split_ifs
  · rw [eraseWithBrush_hasImage, himg]
  · rw [repairWithBrush_hasImage, himg]

/-- The call saveState right after saveStateBeforeChange, on a processor
that may have been edited in between. -/
theorem saveState_after_before (h : HistoryManager) (p q : ImageProcessor)
    (hproc : h.m_processor = true) (hp : p.hasImage = true) (hq : q.hasImage = true)
    (h1 : -1 ≤ h.m_currentIndex) (h2 : h.m_currentIndex ≤ (h.m_history.length : Int) - 1) :
    (h.saveStateBeforeChange p).saveState q =
      HistoryManager.trimHistory
        ⟨true, h.m_history.take (h.m_currentIndex + 1).toNat ++ [snapshotOf q],
          h.m_currentIndex + 1⟩ := by
  have hlen : (h.m_history.take (h.m_currentIndex + 1).toNat).length =
      (h.m_currentIndex + 1).toNat := by
    rw [List.length_take]
    omega
  unfold HistoryManager.saveStateBeforeChange
  rw [if_neg (by simp [hproc, hp])]
  unfold HistoryManager.saveState
  simp only
  rw [if_neg (by simp [hproc, hq])]
  rw [eraseRedoTail_eq_take h.m_history h.m_currentIndex h2]
  rw [eraseRedoTail_eq_take _ h.m_currentIndex (by rw [hlen]; omega)]
  rw [List.take_take, min_self]
  congr 1
  apply HistoryManager.eq_of_fields
  · exact hproc
  · rfl
  · simp only [List.length_append, List.length_singleton, hlen]
    omega

/-- C24. A stroke is one undoable unit. With the processor attached to the
canvas and to the history and an image loaded, the cursor invariant of C1,
no pan key held, and a left-button pointer-down without Alt inside the image
with the erase or the repair tool selected: the pointer-down only drops the
redo tail (saveStateBeforeChange); no pointer-move event changes the history,
whatever the state and the event, so after every prefix of the moves the
history is the one after the pointer-down; and after the pointer-up the
history is the trimmed form of the snapshots 0..idx followed by one snapshot
of the buffer as the moves left it, a sequence of idx + 2 snapshots before
trimming, for every list of moves. -/
theorem stroke_is_one_snapshot (cvt : Vec4b → Vec3b) (s : Editor) (down up : MouseEvent)
    (moves : List MouseEvent)
    (hc : s.canvas.m_processor = true) (hh : s.historyManager.m_processor = true)
    (himg : s.processor.hasImage = true) (hinv : s.historyManager.Inv)
    (hspace : s.pointer.m_spaceHeld = false) (hshow : s.pointer.m_showOriginal = false)
    (hbtn : down.button = MouseButton.LeftButton) (halt : down.altModifier = false)
    (hin : s.processor.m_currentImage.inImage down.imagePos)
    (htool : s.toolManager.m_currentTool ≠ Tool.AutoColor) :
    (s.mousePressEvent cvt down).historyManager =
        { s.historyManager with
          m_history := s.historyManager.m_history.take
            (s.historyManager.m_currentIndex + 1).toNat } ∧
      (∀ (t : Editor) (ev : MouseEvent),
        (t.mouseMoveEvent ev).historyManager = t.historyManager) ∧
      (∀ n : Nat, ((s.mousePressEvent cvt down).moves (moves.take n)).historyManager =
        (s.mousePressEvent cvt down).historyManager) ∧
      (s.stroke cvt down moves up).historyManager =
        HistoryManager.trimHistory
          ⟨true, s.historyManager.m_history.take (s.historyManager.m_currentIndex + 1).toNat ++
              [snapshotOf ((s.mousePressEvent cvt down).moves moves).processor],
            s.historyManager.m_currentIndex + 1⟩ ∧
      ((s.historyManager.m_history.take (s.historyManager.m_currentIndex + 1).toNat ++
          [snapshotOf ((s.mousePressEvent cvt down).moves moves).processor]).length : Int) =
        s.historyManager.m_currentIndex + 2 ∧
      (∃ d, d ≤ (s.historyManager.m_history.take
            (s.historyManager.m_currentIndex + 1).toNat).length ∧
        (s.stroke cvt down moves up).historyManager.m_history =
          (s.historyManager.m_history.take (s.historyManager.m_currentIndex + 1).toNat).drop d ++
            [snapshotOf (s.stroke cvt down moves up).processor] ∧
        (s.stroke cvt down moves up).historyManager.m_currentIndex =
          ((s.stroke cvt down moves up).historyManager.m_history.length : Int) - 1) := by
  obtain ⟨i1, i2, -⟩ := hinv
  obtain ⟨p1, p2, p3, p4⟩ := mousePressEvent_draw cvt s down hc himg hspace hshow hbtn halt
    hin htool
  obtain ⟨m1, m2, m3, m4⟩ := moves_frame moves (s.mousePressEvent cvt down)
  have hlen : (s.historyManager.m_history.take (s.historyManager.m_currentIndex + 1).toNat).length =
      (s.historyManager.m_currentIndex + 1).toNat := by
    rw [List.length_take]
    omega
  have hbefore : s.historyManager.saveStateBeforeChange s.processor =
      { s.historyManager with
        m_history := s.historyManager.m_history.take
          (s.historyManager.m_currentIndex + 1).toNat } := by
    unfold HistoryManager.saveStateBeforeChange
    rw [if_neg (by simp [hh, himg]), eraseRedoTail_eq_take _ _ i2]
  have hproc : (s.stroke cvt down moves up).processor =
      ((s.mousePressEvent cvt down).moves moves).processor :=
    (mouseReleaseEvent_history _ up).2
  have hfinal : (s.stroke cvt down moves up).historyManager =
      (s.historyManager.saveStateBeforeChange s.processor).saveState
        ((s.mousePressEvent cvt down).moves moves).processor := by
    unfold Editor.stroke
    rw [(mouseReleaseEvent_history _ up).1, m2, p2, if_pos rfl, m1, p1]
  have hq : ((s.mousePressEvent cvt down).moves moves).processor.hasImage = true := m4.trans p4
  have htrim := saveState_after_before s.historyManager s.processor
    ((s.mousePressEvent cvt down).moves moves).processor hh himg hq i1 i2
  refine ⟨p1.trans hbefore, fun t ev => (mouseMoveEvent_frame t ev).1,
    fun n => (moves_frame (moves.take n) _).1, hfinal.trans htrim, ?_, ?_⟩
  · simp only [List.length_append, List.length_singleton, hlen]
    omega
  · rw [hproc, hfinal, htrim]
    obtain ⟨d, hd, hhist, hcur, -⟩ := trimHistory_spec
      ⟨true, s.historyManager.m_history.take (s.historyManager.m_currentIndex + 1).toNat ++
          [snapshotOf ((s.mousePressEvent cvt down).moves moves).processor],
        s.historyManager.m_currentIndex + 1⟩
    simp only [List.length_append, List.length_singleton] at hd
    have hdle : d ≤ (s.historyManager.m_history.take
        (s.historyManager.m_currentIndex + 1).toNat).length := by omega
    refine ⟨d, hdle, ?_, ?_⟩
    · rw [hhist]
      exact List.drop_append_of_le_length hdle
    · rw [hcur, hhist]
      simp only [List.length_drop, List.length_append, List.length_singleton, hlen]
      omega

set_option maxRecDepth 100000 in
theorem stroke_is_one_snapshot_witness :
    (eraserEditor 2).historyManager.Inv ∧
      (eraserEditor 2).processor.m_currentImage.inImage (leftAt 1 1).imagePos ∧
      (eraserEditor 2).historyManager.m_currentIndex = 0 ∧
      ((eraserEditor 2).stroke cvtSample (leftAt 1 1) [leftAt 2 2, leftAt 0 2]
          (leftAt 0 2)).historyManager.m_history.length = 2 ∧
      ((eraserEditor 2).stroke cvtSample (leftAt 1 1) [leftAt 2 2, leftAt 0 2]
          (leftAt 0 2)).historyManager =
        HistoryManager.trimHistory
          ⟨true, (eraserEditor 2).historyManager.m_history.take
              ((eraserEditor 2).historyManager.m_currentIndex + 1).toNat ++
              [snapshotOf (((eraserEditor 2).mousePressEvent cvtSample (leftAt 1 1)).moves
                [leftAt 2 2, leftAt 0 2]).processor],
            (eraserEditor 2).historyManager.m_currentIndex + 1⟩ :=
  ⟨by decide, by decide, rfl, by decide,
    (stroke_is_one_snapshot cvtSample (eraserEditor 2) (leftAt 1 1) (leftAt 0 2)
      [leftAt 2 2, leftAt 0 2] rfl rfl (by decide) (by decide) rfl rfl rfl rfl (by decide)
      (by decide)).2.2.2.1⟩

/-! ## The dirty rectangle of a brush edit -/

set_option maxRecDepth 100000 in
/-- C29: for a brush size of at least 2 the rectangle passed to updateRegion
by the pointer-down contains every pixel the stamp visits. For brush size 1
the radius is raised to 1 while the rectangle QRect(x-1, y-1, 2, 2) ends at
column x and row y: with the eraser at hardness 1.0 on the rendered 3x3
sample, a pointer-down at (1,1) clears the alpha of pixel (2,1) in the
current buffer, the pixel is outside the dirty rectangle, and the display
buffer still shows it opaque; the same holds after a pointer-down at (0,0)
followed by a pointer-move to (1,1). -/
theorem dirtyRect_misses_pixel_at_size_one :
    (∀ (img : Mat) (x y d : Int) (pt : Point), 2 ≤ d →
        pt ∈ (brushBounds img x y (brushRadius d)).coords →
        (QRect.ofSize (x - d) (y - d) (d * 2) (d * 2)).containsPoint pt) ∧
      (eraserEditor 1).toolManager.brushSize = 1 ∧
      ((eraserEditor 1).processor.m_currentImage.at 1 2).c3 = 255 ∧
      ((eraserEditor 1).canvas.m_displayImage.at 1 2).c3 = 255 ∧
      ¬ (QRect.ofSize (1 - 1) (1 - 1) (1 * 2) (1 * 2)).containsPoint ⟨2, 1⟩ ∧
      ((((eraserEditor 1).mousePressEvent cvtSample (leftAt 1 1)).processor.m_currentImage.at
        1 2).c3 = 0) ∧
      ((((eraserEditor 1).mousePressEvent cvtSample (leftAt 1 1)).canvas.m_displayImage.at
        1 2).c3 = 255) ∧
      (((((eraserEditor 1).mousePressEvent cvtSample (leftAt 0 0)).mouseMoveEvent
        (leftAt 1 1)).processor.m_currentImage.at 1 2).c3 = 0) ∧
      (((((eraserEditor 1).mousePressEvent cvtSample (leftAt 0 0)).mouseMoveEvent
        (leftAt 1 1)).canvas.m_displayImage.at 1 2).c3 = 255) := by
  refine ⟨?_, by decide, by decide, by decide, by decide, by decide, by decide, by decide,
    by decide⟩
  intro img x y d pt hd hmem
  rw [mem_coords] at hmem
  rw [brushRadius_eq d hd] at hmem
  unfold brushBounds at hmem
  unfold QRect.containsPoint QRect.ofSize QRect.left QRect.right QRect.top QRect.bottom
  simp only at hmem ⊢
  omega

/-! ## C13: the strength of the eraser across the feather zone -/

theorem roundHalfEven_near (n : Int) (d : Nat) (hd : 0 < d) :
    2 * n - (d : Int) ≤ 2 * (roundHalfEven n d * (d : Int)) ∧
      2 * (roundHalfEven n d * (d : Int)) ≤ 2 * n + (d : Int) := by
  have hd2 : (0 : Int) < (d : Int) := by exact_mod_cast hd
  have hdiv := Int.emod_add_ediv n (d : Int)
  have hr0 := Int.emod_nonneg n (ne_of_gt hd2)
  have hr1 := Int.emod_lt_of_pos n hd2
  unfold roundHalfEven
  simp only
  generalize n / (d : Int) = f at hdiv ⊢
  generalize n % (d : Int) = r at hdiv hr0 hr1 ⊢
  have hmul : (f + 1) * (d : Int) = f * (d : Int) + (d : Int) := by ring
  have hcomm : (d : Int) * f = f * (d : Int) := mul_comm _ _
  split_ifs <;> constructor <;> omega

/-- Rounding a value that is not negative: the result is `m * 2^(e + s)` with
`m * 2^s` within half of `2^s` of the value, exact when `s = 0`, and `2^s`
at most the value divided by 2^23. -/
theorem F32.round_near (z e : Int) (hz : 0 ≤ z) :
    ∃ s : Nat, (F32.round z e).e = e + (s : Int) ∧
      ((s = 0 ∧ (F32.round z e).m = z) ∨
        ((2 : Int) ^ s * 2 ^ 23 ≤ z ∧
          2 * z - (2 : Int) ^ s ≤ 2 * ((F32.round z e).m * (2 : Int) ^ s) ∧
          2 * ((F32.round z e).m * (2 : Int) ^ s) ≤ 2 * z + (2 : Int) ^ s)) := by
  unfold F32.round
  split_ifs with hs
  · exact ⟨0, by simp, Or.inl ⟨rfl, rfl⟩⟩
  · have hnat : (2 : Nat) ^ 24 ≤ z.natAbs := by omega
    have hl := ilog2_ge z.natAbs 24 hnat
    have hpow : 2 ^ ilog2 z.natAbs ≤ z.natAbs := log2Fuel_le z.natAbs z.natAbs (by omega)
    obtain ⟨sh, hsh⟩ : ∃ sh, ilog2 z.natAbs = 23 + sh := ⟨ilog2 z.natAbs - 23, by omega⟩
    have esh : ilog2 z.natAbs - 23 = sh := by omega
    rw [hsh] at hpow
    have h1 : ((2 ^ (23 + sh) : Nat) : Int) ≤ ((z.natAbs : Nat) : Int) := by exact_mod_cast hpow
    rw [Int.natCast_natAbs, abs_of_nonneg hz] at h1
    push_cast at h1
    rw [pow_add] at h1
    simp only [esh]
    have hnear := roundHalfEven_near z (2 ^ sh) (Nat.two_pow_pos sh)
    push_cast at hnear
    refine ⟨sh, rfl, Or.inr ⟨?_, hnear.1, hnear.2⟩⟩
    rw [mul_comm]
    exact h1

theorem F32.lt_of_scaled (a b : F32) (e : Int) (sa sb : Nat) (ha : a.e = e + (sa : Int))
    (hb : b.e = e + (sb : Int)) (h : a.m * (2 : Int) ^ sa < b.m * (2 : Int) ^ sb) :
    F32.lt a b = true := by
  unfold F32.lt
  simp only [decide_eq_true_eq]
  rw [ha, hb]
  rcases le_total sa sb with hle | hle
  · obtain ⟨t, ht⟩ : ∃ t, sb = sa + t := ⟨sb - sa, by omega⟩
    subst ht
    have hmin : min (e + (sa : Int)) (e + ((sa + t : Nat) : Int)) = e + (sa : Int) := by
      push_cast
      omega
    rw [hmin]
    have e1 : (e + (sa : Int) - (e + (sa : Int))).toNat = 0 := by omega
    have e2 : (e + ((sa + t : Nat) : Int) - (e + (sa : Int))).toNat = t := by
      push_cast
      omega
    rw [e1, e2, pow_zero, mul_one]
    have hpos : (0 : Int) < 2 ^ sa := by positivity
    rw [pow_add, mul_comm ((2 : Int) ^ sa) _, ← mul_assoc] at h
    exact lt_of_mul_lt_mul_right h hpos.le
  · obtain ⟨t, ht⟩ : ∃ t, sa = sb + t := ⟨sa - sb, by omega⟩
    subst ht
    have hmin : min (e + ((sb + t : Nat) : Int)) (e + (sb : Int)) = e + (sb : Int) := by
      push_cast
      omega
    rw [hmin]
    have e1 : (e + (sb : Int) - (e + (sb : Int))).toNat = 0 := by omega
    have e2 : (e + ((sb + t : Nat) : Int) - (e + (sb : Int))).toNat = t := by
      push_cast
      omega
    rw [e1, e2, pow_zero, mul_one]
    have hpos : (0 : Int) < 2 ^ sb := by positivity
    rw [pow_add, mul_comm ((2 : Int) ^ sb) _, ← mul_assoc] at h
    exact lt_of_mul_lt_mul_right h hpos.le

/-- The products of one positive mantissa with two integers below 2^23 keep
their order under rounding. -/
theorem F32.round_mul_strict (a1 a2 M e : Int) (hM : 0 < M) (h0 : 0 ≤ a2) (h12 : a2 < a1)
    (hb : a1 < 2 ^ 23) : F32.lt (F32.round (a2 * M) e) (F32.round (a1 * M) e) = true := by
  have hx : 0 ≤ a1 * M := mul_nonneg (by omega) hM.le
  have hy : 0 ≤ a2 * M := mul_nonneg h0 hM.le
  obtain ⟨s1, he1, hc1⟩ := F32.round_near (a1 * M) e hx
  obtain ⟨s2, he2, hc2⟩ := F32.round_near (a2 * M) e hy
  apply F32.lt_of_scaled _ _ e s2 s1 he2 he1
  have hgap : a2 * M + M ≤ a1 * M := by nlinarith
  have hx1 : a1 * M ≤ (2 ^ 23 - 1) * M := Int.mul_le_mul_of_nonneg_right (by omega) hM.le
  have hy1 : a2 * M ≤ (2 ^ 23 - 1) * M := Int.mul_le_mul_of_nonneg_right (by omega) hM.le
  have hx2 : ((2 : Int) ^ 23 - 1) * M = 8388607 * M := by norm_num
  rw [hx2] at hx1 hy1
  have hp1 : (0 : Int) < 2 ^ s1 := by positivity
  have hp2 : (0 : Int) < 2 ^ s2 := by positivity
  rcases hc1 with ⟨hs1, hm1⟩ | ⟨hq1, hl1, hu1⟩ <;> rcases hc2 with ⟨hs2, hm2⟩ | ⟨hq2, hl2, hu2⟩
  · rw [hm1, hm2, hs1, hs2]
    simp only [pow_zero, mul_one]
    omega
  · rw [hm1, hs1]
    simp only [pow_zero, mul_one]
    generalize (F32.round (a2 * M) e).m * (2 : Int) ^ s2 = Y at *
    generalize (2 : Int) ^ s2 = P2 at *
    generalize a1 * M = x at *
    generalize a2 * M = y at *
    norm_num at hq2
    omega
  · rw [hm2, hs2]
    simp only [pow_zero, mul_one]
    generalize (F32.round (a1 * M) e).m * (2 : Int) ^ s1 = X at *
    generalize (2 : Int) ^ s1 = P1 at *
    generalize a1 * M = x at *
    generalize a2 * M = y at *
    norm_num at hq1
    omega
  · generalize (F32.round (a1 * M) e).m * (2 : Int) ^ s1 = X at *
    generalize (F32.round (a2 * M) e).m * (2 : Int) ^ s2 = Y at *
    generalize (2 : Int) ^ s1 = P1 at *
    generalize (2 : Int) ^ s2 = P2 at *
    generalize a1 * M = x at *
    generalize a2 * M = y at *
    norm_num at hq1 hq2
    omega

theorem F32.div_one_pos (b : F32) (hb : 0 < b.m) : 0 < (F32.div F32.one b).m := by
  unfold F32.div F32.one
  simp only
  rw [if_neg (by omega)]
  simp only
  have hsgn : (decide ((1 : Int) < 0)) = (decide (b.m < 0)) := by
    have h1 : ¬ ((1 : Int) < 0) := by decide
    have h2 : ¬ (b.m < 0) := by omega
    simp [h2]
  rw [if_pos hsgn, one_mul]
  have hden : 1 ≤ b.m.natAbs := by omega
  have hlt : b.m.natAbs < 2 ^ (ilog2 b.m.natAbs + 1) := log2Fuel_lt b.m.natAbs b.m.natAbs le_rfl
  have hnum : b.m.natAbs ≤ Int.natAbs 1 * 2 ^ (25 + ilog2 b.m.natAbs) := by
    have : 2 ^ (ilog2 b.m.natAbs + 1) ≤ 2 ^ (25 + ilog2 b.m.natAbs) :=
      Nat.pow_le_pow_right (by decide) (by omega)
    simp only [Int.natAbs_one, one_mul]
    omega
  generalize Int.natAbs 1 * 2 ^ (25 + ilog2 b.m.natAbs) = num at hnum ⊢
  generalize b.m.natAbs = den at hden hnum ⊢
  have hq : 1 ≤ num / den := (Nat.one_le_div_iff (by omega)).mpr hnum
  have hpow : 2 ^ ilog2 (num / den) ≤ num / den := log2Fuel_le _ _ hq
  have hsh : 2 ^ (ilog2 (num / den) - 23) ≤ num / den :=
    le_trans (Nat.pow_le_pow_right (by decide) (by omega)) hpow
  generalize ilog2 (num / den) - 23 = sh at hsh ⊢
  have hmul : den * 2 ^ sh ≤ num :=
    le_trans (Nat.mul_le_mul_left den hsh) (Nat.mul_div_le num den)
  have hpos : 0 < den * 2 ^ sh := Nat.mul_pos (by omega) (Nat.two_pow_pos sh)
  have hge := roundHalfEven_ge (num : Int) (den * 2 ^ sh)
  have hone : (1 : Int) ≤ (num : Int) / ((den * 2 ^ sh : Nat) : Int) := by
    rw [Int.le_ediv_iff_mul_le (by exact_mod_cast hpos), one_mul]
    exact_mod_cast hmul
  omega

/-- The feather range `radiusSq - hardRadiusSq` is positive when the hard disc
is smaller than a squared distance inside the outer disc. -/
theorem featherRange_pos (R d2 : Int) (H : F32) (hd : d2 ≤ R)
    (hf : F32.lt H ⟨d2, 0⟩ = true) : 0 < (F32.sub ⟨R, 0⟩ H).m := by
  unfold F32.sub
  apply F32.round_pos
  unfold F32.lt at hf
  simp only [decide_eq_true_eq] at hf ⊢
  rw [min_comm] at hf
  have hp : (0 : Int) < 2 ^ ((0 : Int) - min 0 H.e).toNat := by positivity
  have : d2 * 2 ^ ((0 : Int) - min 0 H.e).toNat ≤ R * 2 ^ ((0 : Int) - min 0 H.e).toNat :=
    Int.mul_le_mul_of_nonneg_right hd hp.le
  omega

theorem F32.lt_int_mono (H : F32) (d1 d2 : Int) (h12 : d1 ≤ d2)
    (hf : F32.lt H ⟨d1, 0⟩ = true) : F32.lt H ⟨d2, 0⟩ = true := by
  unfold F32.lt at hf ⊢
  simp only [decide_eq_true_eq] at hf ⊢
  have hp : (0 : Int) < 2 ^ ((0 : Int) - min H.e 0).toNat := by positivity
  have : d1 * 2 ^ ((0 : Int) - min H.e 0).toNat ≤ d2 * 2 ^ ((0 : Int) - min H.e 0).toNat :=
    Int.mul_le_mul_of_nonneg_right h12 hp.le
  omega

theorem F32.sub_int_exact (R D : Int) (h0 : 0 ≤ R - D) (h1 : R - D < 2 ^ 24) :
    F32.sub ⟨R, 0⟩ ⟨D, 0⟩ = ⟨R - D, 0⟩ := by
  unfold F32.sub
  simp only [min_self, sub_self, Int.toNat_zero, pow_zero, mul_one]
  exact F32.round_small _ _ (by omega)

/-- The strength the loop body computes at a pixel of the disc, with the
squared distance and the squared radius as integers. -/
theorem brushStrength_disc (r centerX centerY : Int) (hardness : F32) (pt : Point)
    (hr1 : 0 ≤ r) (hr2 : r ≤ 4095)
    (hd : (pt.x - centerX) * (pt.x - centerX) + (pt.y - centerY) * (pt.y - centerY) ≤ r * r) :
    brushStrength (brushFalloff r hardness) centerX centerY pt =
      some (if F32.lt (brushFalloff r hardness).hardRadiusSq
            ⟨(pt.x - centerX) * (pt.x - centerX) + (pt.y - centerY) * (pt.y - centerY), 0⟩
          then F32.mul
            ⟨r * r - ((pt.x - centerX) * (pt.x - centerX) +
              (pt.y - centerY) * (pt.y - centerY)), 0⟩
            (brushFalloff r hardness).invFeather
          else F32.one) := by
  have hbr := sq_bound r 4095 (by omega) hr2
  have hx0 := mul_self_nonneg (pt.x - centerX)
  have hy0 := mul_self_nonneg (pt.y - centerY)
  have hxb : -4095 ≤ pt.x - centerX ∧ pt.x - centerX ≤ 4095 := by
    constructor <;> nlinarith
  have hyb : -4095 ≤ pt.y - centerY ∧ pt.y - centerY ≤ 4095 := by
    constructor <;> nlinarith
  have hsum := distSq_exact (pt.x - centerX) (pt.y - centerY) hxb.1 hxb.2 hyb.1 hyb.2 (by omega)
  have hR : (brushFalloff r hardness).radiusSq = ⟨r * r, 0⟩ := by
    unfold brushFalloff
    exact F32.ofInt_small _ (by omega)
  unfold brushStrength
  simp only
  rw [hsum, hR]
  have hle : F32.le ⟨(pt.x - centerX) * (pt.x - centerX) + (pt.y - centerY) * (pt.y - centerY), 0⟩
      ⟨r * r, 0⟩ = true := by
    unfold F32.le
    simp
    exact hd
  rw [hle, F32.sub_int_exact _ _ (by omega) (by omega)]
  simp only [if_true]

/-- The loop body of the eraser leaves a pixel of the brush square alone when
its squared distance from the centre is above the squared radius. -/
theorem erasePixel_outside (r centerX centerY : Int) (hardness : F32) (pt : Point) (px : Vec4b)
    (hr1 : 0 ≤ r) (hr2 : r ≤ 4095)
    (hx1 : centerX - r ≤ pt.x) (hx2 : pt.x ≤ centerX + r)
    (hy1 : centerY - r ≤ pt.y) (hy2 : pt.y ≤ centerY + r)
    (hd : r * r < (pt.x - centerX) * (pt.x - centerX) + (pt.y - centerY) * (pt.y - centerY)) :
    erasePixel (brushFalloff r hardness) centerX centerY pt px = px := by
  have hle := distSq_le_exact (pt.x - centerX) (pt.y - centerY) r (by omega) (by omega)
    (by omega) (by omega) hr1 hr2
  have hR : (brushFalloff r hardness).radiusSq = F32.ofInt (r * r) := by
    unfold brushFalloff
    rfl
  unfold erasePixel brushStrength
  simp only
  rw [hR, hle, decide_eq_false (by omega)]
  simp only [Bool.false_eq_true, if_false]

/-- The strengths at two squared distances of the feather zone: the larger
distance has the strictly smaller strength. -/
theorem feather_strength_strict (r D1 D2 : Int) (hardness : F32) (hr1 : 0 ≤ r)
    (hr2 : r ≤ 2896) (h1 : D1 < D2) (h2 : D2 ≤ r * r)
    (hf : F32.lt (brushFalloff r hardness).hardRadiusSq ⟨D1, 0⟩ = true) (h0 : 0 ≤ D1) :
    F32.lt (F32.mul ⟨r * r - D2, 0⟩ (brushFalloff r hardness).invFeather)
      (F32.mul ⟨r * r - D1, 0⟩ (brushFalloff r hardness).invFeather) = true := by
  have hbr := sq_bound r 2896 (by omega) hr2
  have hinv := brushFalloff_invFeather r D1 hardness hr1 (by omega) (by omega) hf
  have hpos := F32.div_one_pos _ (featherRange_pos (r * r) D1 _ (by omega) hf)
  rw [← hinv] at hpos
  unfold F32.mul
  simp only
  exact F32.round_mul_strict (r * r - D1) (r * r - D2) _ _ hpos (by omega) (by omega)
    (by norm_num; omega)

set_option maxRecDepth 100000 in
/-- C13 does not hold as stated: the strength is not affine in the squared
distance. With diameter 6 (radius 3) and hardness 0 the strengths at the
squared distances 2, 5 and 8, which are equally spaced, are
13048946 * 2^-24, 14913081 * 2^-25 and 14913081 * 2^-27; in units of 2^-27
the two steps are 44739244 and 44739243. Each strength is a product rounded
to single precision. -/
theorem brushStrength_not_affine :
    brushRadius 6 = 3 ∧
      brushStrength (brushFalloff (brushRadius 6) F32.zero) 0 0 ⟨1, 1⟩ =
        some ⟨13048946, -24⟩ ∧
      brushStrength (brushFalloff (brushRadius 6) F32.zero) 0 0 ⟨1, 2⟩ =
        some ⟨14913081, -25⟩ ∧
      brushStrength (brushFalloff (brushRadius 6) F32.zero) 0 0 ⟨2, 2⟩ =
        some ⟨14913081, -27⟩ ∧
      (13048946 * 2 ^ 3 - 14913081 * 2 ^ 2 : Int) = 44739244 ∧
      (14913081 * 2 ^ 2 - 14913081 : Int) = 44739243 :=
  ⟨by decide, by decide, by decide, by decide, by decide, by decide⟩

/-- C13, amended: strictly decreasing, not affine. For a diameter from 2 to
5793, r = diameter/2, any hardness, and a pixel of a well-formed image at
squared distance d2 from the centre: when d2 is above r*r the pixel is
untouched; when d2 is at most r*r the loop body computes a strength s and
stores alpha * (1 - s) cast to uchar. The strength is exactly 1.0 when d2 is
not above the float hardRadiusSq. When d2 is above hardRadiusSq, s is the
rounded product (r*r - d2) * invFeather, it is zero at d2 = r*r, and every
point at a larger squared distance of at most r*r has a strictly smaller
strength. -/
theorem eraseWithBrush_strength (p : ImageProcessor) (centerX centerY diameter : Int)
    (hardness : F32) (pt : Point) (hwf : p.m_currentImage.wellFormed) (hd1 : 2 ≤ diameter)
    (hd2 : diameter ≤ 5793) (hpt : p.m_currentImage.inImage pt) :
    ((diameter / 2) * (diameter / 2) <
        (pt.x - centerX) * (pt.x - centerX) + (pt.y - centerY) * (pt.y - centerY) →
      (p.eraseWithBrush centerX centerY diameter hardness).m_currentImage.at pt.y pt.x =
        p.m_currentImage.at pt.y pt.x) ∧
    ((pt.x - centerX) * (pt.x - centerX) + (pt.y - centerY) * (pt.y - centerY) ≤
        (diameter / 2) * (diameter / 2) →
      ∃ s : F32,
        brushStrength (brushFalloff (diameter / 2) hardness) centerX centerY pt = some s ∧
        (p.eraseWithBrush centerX centerY diameter hardness).m_currentImage.at pt.y pt.x =
          { p.m_currentImage.at pt.y pt.x with
            c3 := F32.toUChar (F32.mul (F32.ofUChar (p.m_currentImage.at pt.y pt.x).c3)
              (F32.sub F32.one s)) } ∧
        (F32.lt (brushFalloff (diameter / 2) hardness).hardRadiusSq
            ⟨(pt.x - centerX) * (pt.x - centerX) + (pt.y - centerY) * (pt.y - centerY), 0⟩ =
            false → s = F32.one) ∧
        (F32.lt (brushFalloff (diameter / 2) hardness).hardRadiusSq
            ⟨(pt.x - centerX) * (pt.x - centerX) + (pt.y - centerY) * (pt.y - centerY), 0⟩ =
            true →
          s = F32.mul
              ⟨(diameter / 2) * (diameter / 2) -
                ((pt.x - centerX) * (pt.x - centerX) + (pt.y - centerY) * (pt.y - centerY)), 0⟩
              (brushFalloff (diameter / 2) hardness).invFeather ∧
            ((pt.x - centerX) * (pt.x - centerX) + (pt.y - centerY) * (pt.y - centerY) =
              (diameter / 2) * (diameter / 2) → s.m = 0) ∧
            ∀ pt2 : Point,
              (pt.x - centerX) * (pt.x - centerX) + (pt.y - centerY) * (pt.y - centerY) <
                (pt2.x - centerX) * (pt2.x - centerX) +
                  (pt2.y - centerY) * (pt2.y - centerY) →
              (pt2.x - centerX) * (pt2.x - centerX) + (pt2.y - centerY) * (pt2.y - centerY) ≤
                (diameter / 2) * (diameter / 2) →
              ∃ s2 : F32,
                brushStrength (brushFalloff (diameter / 2) hardness) centerX centerY pt2 =
                  some s2 ∧ F32.lt s2 s = true)) := by
  rw [eraseWithBrush_at p centerX centerY diameter hardness pt hwf hpt,
    brushRadius_eq diameter hd1]
  have hr1 : 0 ≤ diameter / 2 := by omega
  have hr2 : diameter / 2 ≤ 2896 := by omega
  generalize diameter / 2 = r at hr1 hr2
  have hr3 : r ≤ 4095 := by omega
  have hpt2 := hpt
  unfold Mat.inImage at hpt2
  have hx0 := mul_self_nonneg (pt.x - centerX)
  have hy0 := mul_self_nonneg (pt.y - centerY)
  constructor
  · intro hout
    by_cases hmem : pt ∈ (brushBounds p.m_currentImage centerX centerY r).coords
    · rw [if_pos hmem]
      rw [mem_coords] at hmem
      unfold brushBounds at hmem
      simp only at hmem
      exact erasePixel_outside r centerX centerY hardness pt _ hr1 hr3 (by omega) (by omega)
        (by omega) (by omega) hout
    · rw [if_neg hmem]
  · intro hin
    have hxb : -r ≤ pt.x - centerX ∧ pt.x - centerX ≤ r := by
      constructor <;> nlinarith
    have hyb : -r ≤ pt.y - centerY ∧ pt.y - centerY ≤ r := by
      constructor <;> nlinarith
    have hmem : pt ∈ (brushBounds p.m_currentImage centerX centerY r).coords := by
      rw [mem_coords]
      unfold brushBounds
      simp only
      omega
    rw [if_pos hmem]
    have hbs := brushStrength_disc r centerX centerY hardness pt hr1 hr3 hin
    refine ⟨_, hbs, ?_, ?_, ?_⟩
    · unfold erasePixel
      rw [hbs]
    · intro hf
      rw [hf]
      simp only [Bool.false_eq_true, if_false]
    · intro hf
      rw [hf]
      simp only [if_true]
      refine ⟨trivial, ?_, ?_⟩
      · intro he
        rw [he, sub_self]
        unfold F32.mul
        simp only [zero_mul]
        rw [F32.round_small _ _ (by decide)]
      · intro pt2 hlt hle2
        have hbs2 := brushStrength_disc r centerX centerY hardness pt2 hr1 hr3 hle2
        rw [F32.lt_int_mono _ _ _ (le_of_lt hlt) hf] at hbs2
        simp only [if_true] at hbs2
        exact ⟨_, hbs2, feather_strength_strict r _ _ hardness hr1 hr2 hlt hle2 hf
          (by omega)⟩

set_option maxRecDepth 100000 in
theorem eraseWithBrush_strength_witness :
    bandProcessor.m_currentImage.wellFormed ∧ bandProcessor.m_currentImage.inImage ⟨6, 0⟩ ∧
      F32.lt (brushFalloff (20 / 2) half).hardRadiusSq ⟨36, 0⟩ = true ∧
      ∃ s s2 : F32,
        brushStrength (brushFalloff (20 / 2) half) 0 0 ⟨6, 0⟩ = some s ∧
        brushStrength (brushFalloff (20 / 2) half) 0 0 ⟨8, 0⟩ = some s2 ∧
        F32.lt s2 s = true := by
  obtain ⟨s, hs, -, -, hfe⟩ :=
    (eraseWithBrush_strength bandProcessor 0 0 20 half ⟨6, 0⟩ (by decide) (by decide)
      (by decide) (by decide)).2 (by decide)
  obtain ⟨s2, hs2, hlt⟩ := (hfe (by decide)).2.2 ⟨8, 0⟩ (by decide) (by decide)
  exact ⟨by decide, by decide, by decide, s, s2, hs, hs2, hlt⟩

end PixelEraser
